import Mathlib

/-!
# Streaming reclassification of model output

A shallow embedding of four pieces of the repository:

* `server/thinking.go`: the `thinkingParser` that separates "thinking" text from
  regular content (`addContent`, `eat`, `overlap`);
* `runner/common/response.go`: `FlushPending`, the UTF-8 safe flusher of pending
  responses;
* `tools/tools.go`: the `Parser` of tool calls (`checkPrefix`, `Add`), with the JSON
  decoder as a parameter;
* `server/thinking.go`: `templateVisit`, `rangeUsesField` and `inferThinkingTags`, over a
  model of the parse tree of `text/template/parse`.

Go strings are byte sequences, so a string is a `List UInt8`.  The functions of the Go
standard library that the code calls (`strings.*`, `utf8.*`, `unicode.IsSpace`) are
modelled in the namespaces `utf8`, `unicode` and `strings`, following the library's
documented behaviour.  A Go panic is the fault `Fault.panic`; a loop of the source that
is run with a step budget reports `Fault.outOfFuel` when the budget is exhausted.
-/

set_option autoImplicit false
set_option linter.unnecessarySeqFocus false

/-- A Go `string`: an immutable sequence of bytes. -/
abbrev Str := List UInt8

/-- The bytes (UTF-8) of a string literal. -/
def str (s : String) : Str := s.toUTF8.data.toList

/-- The two ways an embedded computation can fail to return a value. -/
inductive Fault where
  | panic
  | outOfFuel
  deriving DecidableEq, Repr

deriving instance DecidableEq for Except

/-! ## Go standard library: `unicode/utf8` -/

namespace utf8

/-- The replacement rune U+FFFD, returned for invalid encodings. -/
def RuneError : Nat := 0xFFFD

/-- The table `first` together with `acceptRanges`: for a leading byte of a multi-byte
sequence the size of the sequence and the accepted range of the second byte;
`none` for a byte that cannot start a multi-byte sequence.  Bytes are compared through
their values. -/
def first (b : Nat) : Option (Nat × Nat × Nat) :=
  if 0xC2 ≤ b ∧ b ≤ 0xDF then some (2, 0x80, 0xBF)
  else if b = 0xE0 then some (3, 0xA0, 0xBF)
  else if 0xE1 ≤ b ∧ b ≤ 0xEC then some (3, 0x80, 0xBF)
  else if b = 0xED then some (3, 0x80, 0x9F)
  else if 0xEE ≤ b ∧ b ≤ 0xEF then some (3, 0x80, 0xBF)
  else if b = 0xF0 then some (4, 0x90, 0xBF)
  else if 0xF1 ≤ b ∧ b ≤ 0xF3 then some (4, 0x80, 0xBF)
  else if b = 0xF4 then some (4, 0x80, 0x8F)
  else none

/-- A continuation byte: `locb ≤ b ≤ hicb`. -/
def isCont (b : Nat) : Bool := 0x80 ≤ b && b ≤ 0xBF

/-- The function `utf8.DecodeRuneInString`: the first rune of `s` and its width in bytes.
An empty string gives `(RuneError, 0)`, an invalid or truncated encoding
`(RuneError, 1)`.  The masks and shifts of the source are written as remainders and
products. -/
def DecodeRuneInString (s : Str) : Nat × Nat :=
  match s with
  | [] => (RuneError, 0)
  | s0 :: t =>
    if s0.toNat < 0x80 then (s0.toNat, 1)
    else
      match first s0.toNat with
      | none => (RuneError, 1)
      | some (sz, lo, hi) =>
        if s.length < sz then (RuneError, 1)
        else
          match t with
          | [] => (RuneError, 1)
          | s1 :: t1 =>
            if s1.toNat < lo || hi < s1.toNat then (RuneError, 1)
            else if sz ≤ 2 then ((s0.toNat % 32) * 64 + s1.toNat % 64, 2)
            else
              match t1 with
              | [] => (RuneError, 1)
              | s2 :: t2 =>
                if !isCont s2.toNat then (RuneError, 1)
                else if sz ≤ 3 then
                  ((s0.toNat % 16) * 4096 + (s1.toNat % 64) * 64 + s2.toNat % 64, 3)
                else
                  match t2 with
                  | [] => (RuneError, 1)
                  | s3 :: _ =>
                    if !isCont s3.toNat then (RuneError, 1)
                    else
                      ((s0.toNat % 8) * 262144 + (s1.toNat % 64) * 4096
                        + (s2.toNat % 64) * 64 + s3.toNat % 64, 4)

/-- The function `utf8.FullRuneInString`: `s` begins with a full UTF-8 encoding of a rune;
an invalid encoding counts as a full rune, since it converts as a width-1 error rune. -/
def FullRuneInString (s : Str) : Bool :=
  match s with
  | [] => false
  | s0 :: t =>
    if s0.toNat < 0x80 then true
    else
      match first s0.toNat with
      | none => true
      | some (sz, lo, hi) =>
        if s.length ≥ sz then true
        else
          match t with
          | [] => false
          | s1 :: t1 =>
            if s1.toNat < lo || hi < s1.toNat then true
            else
              match t1 with
              | [] => false
              | s2 :: _ => !isCont s2.toNat

/-- One iteration of the loop of `utf8.ValidString` at the head of `s`: the width of the
valid encoding that starts there, `none` where the loop returns `false` (illegal starter
byte, short or invalid sequence). -/
def validRuneSize (s : Str) : Option Nat :=
  match s with
  | [] => none
  | s0 :: t =>
    if s0.toNat < 0x80 then some 1
    else
      match first s0.toNat with
      | none => none
      | some (sz, lo, hi) =>
        if s.length < sz then none
        else
          match t with
          | [] => none
          | s1 :: t1 =>
            if s1.toNat < lo || hi < s1.toNat then none
            else if sz = 2 then some 2
            else
              match t1 with
              | [] => none
              | s2 :: t2 =>
                if !isCont s2.toNat then none
                else if sz = 3 then some 3
                else
                  match t2 with
                  | [] => none
                  | s3 :: _ => if !isCont s3.toNat then none else some 4

/-- The loop `for i := 0; i < n;` of `utf8.ValidString` over the rest of the string; the
first argument bounds the number of iterations. -/
def validLoop : Nat → Str → Bool
  | 0, _ => true
  | n + 1, s =>
    match s with
    | [] => true
    | _ :: _ =>
      match validRuneSize s with
      | none => false
      | some sz => validLoop n (s.drop sz)

/-- The function `utf8.ValidString`: `s` consists entirely of valid UTF-8 encoded runes.
Each iteration advances by at least one byte, so `s.length` iterations suffice
(`validLoop_fuel`). -/
def ValidString (s : Str) : Bool := validLoop s.length s

end utf8

/-! ## Go standard library: `unicode` -/

namespace unicode

/-- The function `unicode.IsSpace`: the runes with the Unicode White_Space property. -/
def IsSpace (r : Nat) : Bool :=
  r = 0x09 || r = 0x0A || r = 0x0B || r = 0x0C || r = 0x0D || r = 0x20
    || r = 0x85 || r = 0xA0 || r = 0x1680 || (0x2000 ≤ r && r ≤ 0x200A)
    || r = 0x2028 || r = 0x2029 || r = 0x202F || r = 0x205F || r = 0x3000

end unicode

/-! ## Go standard library: `strings` -/

namespace strings

/-- The function `strings.HasPrefix`. -/
def HasPrefix (s pre : Str) : Bool := pre.isPrefixOf s

/-- The function `strings.HasSuffix`. -/
def HasSuffix (s suf : Str) : Bool := suf.isSuffixOf s

/-- The function `strings.Index`: the index of the first instance of `sub` in `s`, `none`
where Go returns `-1`. -/
def Index : Str → Str → Option Nat
  | [], sub => if sub.isPrefixOf [] then some 0 else none
  | b :: t, sub =>
    if sub.isPrefixOf (b :: t) then some 0 else (Index t sub).map (· + 1)

/-- The function `strings.Contains`. -/
def Contains (s sub : Str) : Bool := (Index s sub).isSome

/-- The function `strings.Join`. -/
def Join (elems : List Str) (sep : Str) : Str := sep.intercalate elems

/-- The loop of `strings.TrimLeftFunc`: skip runes while `f` holds.  The first argument
bounds the number of runes skipped. -/
def trimLeftLoop (f : Nat → Bool) : Nat → Str → Str
  | 0, s => s
  | n + 1, s =>
    match s with
    | [] => []
    | _ :: _ =>
      if f (utf8.DecodeRuneInString s).1 then
        trimLeftLoop f n (s.drop (utf8.DecodeRuneInString s).2)
      else s

/-- The function `strings.TrimLeftFunc`: `s` with all leading runes satisfying `f`
removed.  Every rune of a non-empty string is at least one byte wide, so `s.length`
iterations suffice. -/
def TrimLeftFunc (s : Str) (f : Nat → Bool) : Str := trimLeftLoop f s.length s

/-- The helper `explode` of `strings.Split`, for an empty separator: `s` cut after each
UTF-8 sequence; the empty list for the empty string. -/
def explodeLoop : Nat → Str → List Str
  | 0, _ => []
  | n + 1, s =>
    match s with
    | [] => []
    | _ :: _ =>
      s.take (utf8.DecodeRuneInString s).2
        :: explodeLoop n (s.drop (utf8.DecodeRuneInString s).2)

/-- The loop of `genSplit` for a non-empty separator: cut at each instance of `sep`,
left to right. -/
def splitLoop (sep : Str) : Nat → Str → List Str
  | 0, s => [s]
  | n + 1, s =>
    match Index s sep with
    | none => [s]
    | some m => s.take m :: splitLoop sep n (s.drop (m + sep.length))

/-- The function `strings.Split`: the substrings of `s` between the instances of `sep`; a
non-empty `sep` has at most `s.length` disjoint instances. -/
def Split (s sep : Str) : List Str :=
  if sep = [] then explodeLoop s.length s else splitLoop sep s.length s

end strings

/-! ## `server/thinking.go` -/

namespace server

/-- The type `thinkingParseState`. -/
inductive thinkingParseState where
  | LookingForOpening
  | Thinking
  | ThinkingDoneEatingWhitespace
  | ThinkingDone
  deriving DecidableEq, Repr

/-- The integer value of a state (`iota`). -/
def thinkingParseState.toNat : thinkingParseState → Nat
  | .LookingForOpening => 0
  | .Thinking => 1
  | .ThinkingDoneEatingWhitespace => 2
  | .ThinkingDone => 3

/-- The struct `thinkingParser`; `acc` is the content of the `strings.Builder`. -/
structure thinkingParser where
  state : thinkingParseState
  openingTag : Str
  closingTag : Str
  acc : Str
  deriving DecidableEq, Repr

/-- The loop of `overlap`, counting `i` down. -/
def overlapLoop (s delim : Str) : Nat → Nat
  | 0 => 0
  | i + 1 => if strings.HasSuffix s (delim.take (i + 1)) then i + 1 else overlapLoop s delim i

/-- The function `overlap`: longest overlap between suffix of `s` and prefix of `delim`. -/
def overlap (s delim : Str) : Nat := overlapLoop s delim (min delim.length s.length)

/-- The function `eat`: one step of the parser.  Returns the thinking text, the regular
content, whether to continue eating, and the parser after the step.  The slice
expressions `Split(..)[1:]` and `split[0]` panic on an empty slice. -/
def eat (s : thinkingParser) : Except Fault (Str × Str × Bool × thinkingParser) :=
  match s.state with
  | .LookingForOpening =>
    let trimmed := strings.TrimLeftFunc s.acc unicode.IsSpace
    if strings.HasPrefix trimmed s.openingTag then
      match strings.Split trimmed s.openingTag with
      | [] => .error .panic
      | _ :: parts =>
        let after := strings.Join parts s.openingTag
        let after := strings.TrimLeftFunc after unicode.IsSpace
        .ok ([], [], true, { s with acc := after, state := .Thinking })
    else if strings.HasPrefix s.openingTag trimmed then
      .ok ([], [], false, s)
    else if trimmed = [] then
      .ok ([], [], false, s)
    else
      .ok ([], s.acc, false, { s with state := .ThinkingDone })
  | .Thinking =>
    let acc := s.acc
    if strings.Contains acc s.closingTag then
      match strings.Split acc s.closingTag with
      | [] => .error .panic
      | thinking :: rest =>
        let remaining := strings.Join rest s.closingTag
        let remaining := strings.TrimLeftFunc remaining unicode.IsSpace
        if remaining = [] then
          .ok (thinking, remaining, false,
            { s with acc := [], state := .ThinkingDoneEatingWhitespace })
        else
          .ok (thinking, remaining, false, { s with acc := [], state := .ThinkingDone })
    else
      let overlapLen := overlap acc s.closingTag
      if overlapLen > 0 then
        let thinking := acc.take (acc.length - overlapLen)
        let remaining := acc.drop (acc.length - overlapLen)
        .ok (thinking, [], false, { s with acc := remaining })
      else
        .ok (acc, [], false, { s with acc := [] })
  | .ThinkingDoneEatingWhitespace =>
    let trimmed := strings.TrimLeftFunc s.acc unicode.IsSpace
    if trimmed ≠ [] then
      .ok ([], trimmed, false, { s with acc := [], state := .ThinkingDone })
    else
      .ok ([], trimmed, false, { s with acc := [] })
  | .ThinkingDone =>
    .ok ([], s.acc, false, { s with acc := [] })

/-- The loop `for keepLooping` of `addContent`, with the two accumulators `thinkingAcc`
and `remainingAcc`; the first argument bounds the number of calls of `eat`. -/
def addContentLoop : Nat → thinkingParser → Str → Str → Except Fault (Str × Str × thinkingParser)
  | 0, _, _, _ => .error .outOfFuel
  | n + 1, s, thinkingAcc, remainingAcc =>
    match eat s with
    | .error e => .error e
    | .ok (thinking, remaining, keepLooping, s1) =>
      if keepLooping then addContentLoop n s1 (thinkingAcc ++ thinking) (remainingAcc ++ remaining)
      else .ok (thinkingAcc ++ thinking, remainingAcc ++ remaining, s1)

/-- The method `thinkingParser.addContent`: the thinking content and the normal content
to send now, and the parser afterwards.  `eat` asks to continue only when it moves from
`LookingForOpening` to `Thinking`, so two calls of `eat` always suffice
(`addContentLoop_fuel`). -/
def addContent (s : thinkingParser) (content : Str) : Except Fault (Str × Str × thinkingParser) :=
  addContentLoop 2 { s with acc := s.acc ++ content } [] []

/-- A parser as the callers construct it: `thinkingParser{openingTag: o, closingTag: c}`. -/
def fresh (o c : Str) : thinkingParser :=
  { state := .LookingForOpening, openingTag := o, closingTag := c, acc := [] }

/-- Feeding fragments in order: the pair returned by each call and the final parser. -/
def feed : thinkingParser → List Str → Except Fault (List (Str × Str) × thinkingParser)
  | s, [] => .ok ([], s)
  | s, f :: fs =>
    match addContent s f with
    | .error e => .error e
    | .ok (thinking, remaining, s1) =>
      match feed s1 fs with
      | .error e => .error e
      | .ok (outs, s2) => .ok ((thinking, remaining) :: outs, s2)

/-- A string that starts with a complete rune (`utf8.FullRuneInString`) which is not a
space: its first rune is decided, and is not whitespace, however the string continues. -/
def startsNonSpace (s : Str) : Bool :=
  utf8.FullRuneInString s && !unicode.IsSpace (utf8.DecodeRuneInString s).1

end server

/-! ## `runner/common/response.go` -/

namespace common

/-- Modelled from the spec: the struct `llm.CompletionResponse` is declared outside the
sources at hand; the pending response record of the spec is
`{ content, isTerminal, terminalReason }`, here under the field names the code and its
test use. `DoneReason` is the integer value of the enumeration. -/
structure CompletionResponse where
  Content : Str
  Done : Bool
  DoneReason : Nat
  deriving DecidableEq, Repr

/-- The interface `ResponseSequence` over a sequence state `σ`: the pending responses, the
state after `Clear`, and for `Send` the answer together with the state afterwards. -/
structure ResponseSequence (σ : Type) where
  Pending : σ → List CompletionResponse
  Clear : σ → σ
  Send : σ → CompletionResponse → Bool × σ

/-- The calls that `FlushPending` makes on the sequence, in order. -/
inductive Event where
  | send (resp : CompletionResponse)
  | clear
  deriving DecidableEq, Repr

/-- The search for the first response with `Done`: `(hasDoneResponse, doneIndex)`, the
index being `-1` when there is none. -/
def findDone : List CompletionResponse → Nat → Bool × Int
  | [], _ => (false, -1)
  | resp :: rest, i => if resp.Done then (true, (i : Int)) else findDone rest (i + 1)

/-- The loop `for !utf8.ValidString(t) && len(t) > 0 { t = t[:len(t)-1] }`; the first
argument bounds the number of iterations. -/
def trimLoop : Nat → Str → Str
  | 0, t => t
  | n + 1, t =>
    if !utf8.ValidString t && t.length > 0 then trimLoop n (t.take (t.length - 1)) else t

/-- The trimming loop run to its end: each iteration removes one byte, so `t.length`
iterations suffice. -/
def trimInvalid (t : Str) : Str := trimLoop t.length t

/-- The main loop of `FlushPending` from index `i` on, with the carried bytes
`pendingUTF8`; `n` is `len(pending)`.  Returns the result of `FlushPending`, the state of
the sequence and the calls made. -/
def flushLoop {σ : Type} (seq : ResponseSequence σ) (n : Nat) (hasDoneResponse : Bool)
    (doneIndex : Int) : Nat → List CompletionResponse → Str → σ → Bool × σ × List Event
  | _, [], _, st => (true, seq.Clear st, [Event.clear])
  | i, resp :: rest, pendingUTF8, st =>
    let combinedContent := pendingUTF8 ++ resp.Content
    if utf8.ValidString combinedContent then
      let currentResp := { resp with Content := combinedContent }
      let r := seq.Send st currentResp
      if !r.1 then (false, r.2, [Event.send currentResp])
      else
        let out := flushLoop seq n hasDoneResponse doneIndex (i + 1) rest [] r.2
        (out.1, out.2.1, Event.send currentResp :: out.2.2)
    else if i = n - 1 || (hasDoneResponse && (i : Int) = doneIndex) then
      let currentResp := { resp with Content := trimInvalid combinedContent }
      let r := seq.Send st currentResp
      if !r.1 then (false, r.2, [Event.send currentResp])
      else
        let out := flushLoop seq n hasDoneResponse doneIndex (i + 1) rest [] r.2
        (out.1, out.2.1, Event.send currentResp :: out.2.2)
    else
      let validPrefix := trimInvalid combinedContent
      if validPrefix.length > 0 then
        let currentResp := { resp with Content := validPrefix }
        let r := seq.Send st currentResp
        if !r.1 then (false, r.2, [Event.send currentResp])
        else
          let out := flushLoop seq n hasDoneResponse doneIndex (i + 1) rest
            (combinedContent.drop validPrefix.length) r.2
          (out.1, out.2.1, Event.send currentResp :: out.2.2)
      else
        flushLoop seq n hasDoneResponse doneIndex (i + 1) rest combinedContent st

/-- The function `FlushPending`: its result, the state of the sequence afterwards, and the
calls it made on the sequence. -/
def FlushPending {σ : Type} (seq : ResponseSequence σ) (st : σ) : Bool × σ × List Event :=
  let pending := seq.Pending st
  if pending.length = 0 then (true, st, [])
  else
    let d := findDone pending 0
    flushLoop seq pending.length d.1 d.2 0 pending [] st

/-- The responses passed to `Send`, in order. -/
def sent : List Event → List CompletionResponse
  | [] => []
  | Event.send resp :: rest => resp :: sent rest
  | Event.clear :: rest => sent rest

/-- The concatenation of the `Content` fields. -/
def contents (rs : List CompletionResponse) : Str := (rs.map (·.Content)).flatten

/-- The sequence of the test: a queue of pending responses and the responses delivered so
far; `Send` always succeeds, as for a channel with room. -/
def testSequence : ResponseSequence (List CompletionResponse × List CompletionResponse) where
  Pending := fun st => st.1
  Clear := fun st => ([], st.2)
  Send := fun st resp => (true, (st.1, st.2 ++ [resp]))

end common

namespace common

/-- The value of `pendingUTF8` after the loop of `FlushPending` has gone through the
responses `rs`, none of them the last one or the `Done` one, starting from `pendingUTF8`. -/
def carryOver : Str → List CompletionResponse → Str
  | pendingUTF8, [] => pendingUTF8
  | pendingUTF8, resp :: rest =>
    let combinedContent := pendingUTF8 ++ resp.Content
    if utf8.ValidString combinedContent then carryOver [] rest
    else
      let validPrefix := trimInvalid combinedContent
      if validPrefix.length > 0 then carryOver (combinedContent.drop validPrefix.length) rest
      else carryOver combinedContent rest

/-- The answers of `Send` to the calls of a trace, replayed on the sequence from the state
`st`. -/
def sendResults {σ : Type} (seq : ResponseSequence σ) : σ → List Event → List Bool
  | _, [] => []
  | st, Event.send resp :: rest => (seq.Send st resp).1 :: sendResults seq (seq.Send st resp).2 rest
  | st, Event.clear :: rest => sendResults seq (seq.Clear st) rest

/-- A sequence whose sink stops the stream after `k` deliveries: the state holds the
pending responses and the responses delivered so far, and `Send` answers `false` once `k`
responses have been delivered (the `quit` case of the runner's `select`). -/
def limitedSequence (k : Nat) :
    ResponseSequence (List CompletionResponse × List CompletionResponse) where
  Pending := fun st => st.1
  Clear := fun st => ([], st.2)
  Send := fun st resp => if st.2.length < k then (true, (st.1, st.2 ++ [resp])) else (false, st)

end common

/-! ## Go standard library: trimming on the right -/

namespace utf8

/-- The function `utf8.RuneStart`: the byte is not a continuation byte
(`b&0xC0 != 0x80`). -/
def RuneStart (b : UInt8) : Bool := !isCont b.toNat

/-- The backward scan of `utf8.DecodeLastRuneInString`: from `start` down to `lim`, stop at
a byte that can start a rune; the first argument bounds the number of iterations. -/
def lastStartLoop (s : Str) (lim : Int) : Nat → Int → Int
  | 0, start => start
  | n + 1, start =>
    if start ≥ lim then
      if RuneStart (s.getD start.toNat 0) then start else lastStartLoop s lim n (start - 1)
    else start

/-- The function `utf8.DecodeLastRuneInString`: the last rune of `s` and its width; an
empty string gives `(RuneError, 0)`, an invalid encoding `(RuneError, 1)`.  The scan looks
at most `UTFMax = 4` bytes back. -/
def DecodeLastRuneInString (s : Str) : Nat × Nat :=
  if s.length = 0 then (RuneError, 0)
  else
    let r := (s.getD (s.length - 1) 0).toNat
    if r < 0x80 then (r, 1)
    else
      let lim : Int := if (s.length : Int) - 4 < 0 then 0 else (s.length : Int) - 4
      let start := lastStartLoop s lim 4 ((s.length : Int) - 2)
      let start := if start < 0 then 0 else start
      let d := DecodeRuneInString (s.drop start.toNat)
      if start + (d.2 : Int) ≠ (s.length : Int) then (RuneError, 1) else d

end utf8

namespace strings

/-- The function `strings.CutPrefix`. -/
def CutPrefix (s pre : Str) : Str × Bool :=
  if HasPrefix s pre then (s.drop pre.length, true) else (s, false)

/-- The loop of `strings.TrimRightFunc`: drop trailing runes while `f` holds.  The first
argument bounds the number of runes dropped. -/
def trimRightLoop (f : Nat → Bool) : Nat → Str → Str
  | 0, s => s
  | n + 1, s =>
    match s with
    | [] => []
    | _ :: _ =>
      if f (utf8.DecodeLastRuneInString s).1 then
        trimRightLoop f n (s.take (s.length - (utf8.DecodeLastRuneInString s).2))
      else s

/-- The function `strings.TrimRightFunc`: `s` with all trailing runes satisfying `f`
removed. -/
def TrimRightFunc (s : Str) (f : Nat → Bool) : Str := trimRightLoop f s.length s

/-- The function `strings.TrimSpace`: `s` with all leading and trailing white space
removed, as defined by Unicode. -/
def TrimSpace (s : Str) : Str := TrimRightFunc (TrimLeftFunc s unicode.IsSpace) unicode.IsSpace

end strings

/-! ## `tools/tools.go` -/

namespace tools

/-- The sentinel errors of the package, and `other` for any other error value that the
decoder may return. -/
inductive Err where
  | ErrPartialPrefix
  | ErrPrefixNotFound
  | ErrInvalidToolCall
  | ErrAccumulateMore
  | other (code : Nat)
  deriving DecidableEq, Repr

/-- Modelled from the spec: the struct `api.ToolCallFunction` is declared outside the
sources at hand; the tool call of the spec is the record
`{ name: string, arguments: structured-value, index: integer }`.  The structured value is
kept as text. -/
structure ToolCallFunction where
  Index : Int
  Name : Str
  Arguments : Str
  deriving DecidableEq, Repr

/-- Modelled from the spec: the struct `api.ToolCall`, a record holding its
`Function` by value; `Add` returns a slice `[]api.ToolCall` of such records. -/
structure ToolCall where
  Function : ToolCallFunction
  deriving DecidableEq, Repr

/-- The struct `Parser`; `sb` is the content of the `strings.Builder`, `prefixStr` the field
`prefix`.  The field `tmpl` is not used by `Add`. -/
structure Parser where
  greedyParse : Bool
  prefixFound : Bool
  sb : Str
  prefixStr : Str
  index : Int
  name : Str
  arguments : Str
  Done : Bool
  deriving DecidableEq, Repr

/-- The decoder `parseJSONToolCalls(s, name, arguments)`, declared outside the sources at
hand: a list of calls, or an error. -/
abbrev Decoder := Str → Str → Str → Except Err (List ToolCall)

/-- Modelled from the spec: the helper `suffixOverlap` is declared outside the sources at
hand. The spec gives the overlap computation as the longest `k` such that the last `k`
characters of the buffer equal the first `k` characters of the delimiter,
`0 ≤ k ≤ min(len(buffer), len(delimiter))`, scanned from the largest candidate down. -/
def suffixOverlapLoop (s delim : Str) : Nat → Nat
  | 0 => 0
  | i + 1 =>
    if strings.HasSuffix s (delim.take (i + 1)) then i + 1 else suffixOverlapLoop s delim i

/-- Modelled from the spec: `suffixOverlap(s, delim)`, the scan of `suffixOverlapLoop`
from `min(len(delim), len(s))` down. -/
def suffixOverlap (s delim : Str) : Nat := suffixOverlapLoop s delim (min delim.length s.length)

/-- The method `Parser.checkPrefix`: the parser afterwards, the processed string and the
error (`none` for `nil`). -/
def checkPrefix (p : Parser) (s : Str) : Parser × Str × Option Err :=
  let original := s
  if s = [] then (p, [], none)
  else if p.prefixStr = [] then (p, s, none)
  else
    match strings.CutPrefix s p.prefixStr with
    | (processedStr, true) => ({ p with prefixFound := true }, processedStr, none)
    | (_, false) =>
      let overlap := suffixOverlap original p.prefixStr
      if overlap > 0 then
        ({ p with sb := original.drop (original.length - overlap) },
          original.take (original.length - overlap), some .ErrAccumulateMore)
      else
        match strings.Index original p.prefixStr with
        | some idx =>
          ({ p with sb := strings.TrimSpace (original.drop idx) }, original.take idx,
            some .ErrAccumulateMore)
        | none => (p, s, none)

/-- The loop `for _, tc := range toolCalls { tc.Function.Index = p.index; p.index++ }`.
The range variable `tc` is a copy of the slice element, a record held by value, so the
assignment changes the copy, which is dropped at the end of the iteration; what the loop
leaves behind is the new value of `p.index`. -/
def indexLoop : List ToolCall → Int → Int
  | [], index => index
  | tc :: rest, index =>
    let _tc : ToolCall := { tc with Function := { tc.Function with Index := index } }
    indexLoop rest (index + 1)

/-- The method `Parser.Add`: the parser afterwards, the tool calls, the content and the
error (`none` for `nil`; a `nil` slice of tool calls is the empty list). -/
def Add (parseJSONToolCalls : Decoder) (p : Parser) (s : Str) :
    Parser × List ToolCall × Str × Option Err :=
  if s = [] then (p, [], [], some .ErrAccumulateMore)
  else
    let p := { p with sb := p.sb ++ s }
    let s := p.sb
    match checkPrefix p s with
    | (p, s, some _) =>
      if s ≠ [] then (p, [], s, none)
      else (p, [], [], some .ErrAccumulateMore)
    | (p, s, none) =>
      if !p.greedyParse && !p.prefixFound then
        ({ p with sb := [] }, [], [], some .ErrPrefixNotFound)
      else
        match parseJSONToolCalls s p.name p.arguments with
        | .error err =>
          if err = .ErrAccumulateMore then (p, [], [], some err)
          else
            let p := { p with sb := [], greedyParse := false }
            let p := if p.prefixStr = [] then { p with Done := true } else p
            if p.prefixFound then (p, [], [], some .ErrAccumulateMore)
            else (p, [], s, none)
        | .ok toolCalls =>
          let p := { p with index := indexLoop toolCalls p.index }
          let p := if p.prefixStr = [] then { p with Done := true } else p
          ({ p with sb := [] }, toolCalls, [], none)

/-- The parser that `NewParser` returns for the prefix `tp` and the field names `name`
and `arguments` taken from the template. -/
def newParser (tp name arguments : Str) : Parser :=
  { greedyParse := true, prefixFound := false, sb := [], prefixStr := tp, index := 0,
    name := name, arguments := arguments, Done := false }

/-- Successive calls of `Add`: the result of each call and the parser at the end. -/
def addAll (parseJSONToolCalls : Decoder) :
    Parser → List Str → List (List ToolCall × Str × Option Err) × Parser
  | p, [] => ([], p)
  | p, s :: rest =>
    let r := Add parseJSONToolCalls p s
    let out := addAll parseJSONToolCalls r.1 rest
    (r.2 :: out.1, out.2)

end tools

/-! ## Go standard library: `text/template/parse` -/

namespace parse

mutual
/-- A node of a parsed template, `parse.Node`.  The embedded `BranchNode` of an `if`,
`range` or `with` node is given by its three fields; `OtherNode` stands for the node kinds
without children that the code does not look at (number, string, variable, identifier,
dot, nil, bool, chain, comment, break, continue).  `NilPipeNode` and `NilListNode` are the
nil pointers of type `*PipeNode` and `*ListNode`: a pipeline or list that is absent. -/
inductive Node where
  | ListNode (Nodes : NodeList)
  | TextNode (Text : Str)
  | ActionNode (Pipe : Node)
  | IfNode (Pipe List ElseList : Node)
  | RangeNode (Pipe List ElseList : Node)
  | WithNode (Pipe List ElseList : Node)
  | BranchNode (Pipe List ElseList : Node)
  | TemplateNode (Name : Str) (Pipe : Node)
  | PipeNode (Cmds : NodeList)
  | CommandNode (Args : NodeList)
  | FieldNode (Ident : List Str)
  | OtherNode (kind : Nat)
  | NilPipeNode
  | NilListNode
/-- A slice of nodes, `[]Node`. -/
inductive NodeList where
  | nil
  | cons (head : Node) (tail : NodeList)
end

/-- The elements of a slice of nodes. -/
def NodeList.toList : NodeList → List Node
  | .nil => []
  | .cons n ns => n :: ns.toList

/-- The slice with the given elements. -/
def NodeList.ofList : List Node → NodeList
  | [] => .nil
  | n :: ns => .cons n (NodeList.ofList ns)

/-- The comparison of a pointer field with `nil`. -/
def Node.isNil : Node → Bool
  | .NilPipeNode => true
  | .NilListNode => true
  | _ => false

end parse

/-! ## `server/thinking.go`: inference of the thinking tags -/

namespace server

open parse

/-- The body of the case `*parse.BranchNode` of `templateVisit`, for the node `self` with
the visits of its pipeline, list and else list. -/
def visitBranch {σ : Type} (enterFn : σ → Node → Except Fault (Bool × σ))
    (exitFn : Option (σ → Node → σ)) (self Pipe List ElseList : Node)
    (visitPipe visitList visitElse : σ → Except Fault σ) (st : σ) : Except Fault σ :=
  match enterFn st self with
  | .error e => .error e
  | .ok (shouldContinue, st) =>
    if !shouldContinue then .ok st
    else
      match (if Pipe.isNil then .ok st else visitPipe st) with
      | .error e => .error e
      | .ok st =>
        match (if List.isNil then .ok st else visitList st) with
        | .error e => .error e
        | .ok st =>
          match (if ElseList.isNil then .ok st else visitElse st) with
          | .error e => .error e
          | .ok st =>
            match exitFn with
            | some f => .ok (f st self)
            | none => .ok st

/-- What `templateVisit` does around the children of `n`: call `enterFn`, stop if it
answers `false`, visit the children, call `exitFn` if there is one. -/
def visitWith {σ : Type} (enterFn : σ → Node → Except Fault (Bool × σ))
    (exitFn : Option (σ → Node → σ)) (n : Node) (children : σ → Except Fault σ) (st : σ) :
    Except Fault σ :=
  match enterFn st n with
  | .error e => .error e
  | .ok (shouldContinue, st) =>
    if !shouldContinue then .ok st
    else
      match children st with
      | .error e => .error e
      | .ok st =>
        match exitFn with
        | some f => .ok (f st n)
        | none => .ok st

mutual
/-- The function `templateVisit`, with the variables that `enterFn` and `exitFn` capture
as the state `σ`.  The argument of each call in the source is a typed pointer, so it is
never the nil interface, also when the pointer is nil: visiting a nil `*PipeNode` or
`*ListNode` calls `enterFn` and then dereferences the pointer (`x.Cmds`, `x.Nodes`), which
panics.  An `if`, `range` or `with` node is entered, then its embedded `BranchNode` is
visited as a node of its own. -/
def templateVisit {σ : Type} (enterFn : σ → Node → Except Fault (Bool × σ))
    (exitFn : Option (σ → Node → σ)) : Node → σ → Except Fault σ
  | .ListNode Nodes, st =>
    visitWith enterFn exitFn (.ListNode Nodes) (templateVisitAll enterFn exitFn Nodes) st
  | .BranchNode Pipe List ElseList, st =>
    visitBranch enterFn exitFn (.BranchNode Pipe List ElseList) Pipe List ElseList
      (templateVisit enterFn exitFn Pipe) (templateVisit enterFn exitFn List)
      (templateVisit enterFn exitFn ElseList) st
  | .ActionNode Pipe, st =>
    visitWith enterFn exitFn (.ActionNode Pipe) (templateVisit enterFn exitFn Pipe) st
  | .WithNode Pipe List ElseList, st =>
    visitWith enterFn exitFn (.WithNode Pipe List ElseList)
      (visitBranch enterFn exitFn (.BranchNode Pipe List ElseList) Pipe List ElseList
        (templateVisit enterFn exitFn Pipe) (templateVisit enterFn exitFn List)
        (templateVisit enterFn exitFn ElseList)) st
  | .RangeNode Pipe List ElseList, st =>
    visitWith enterFn exitFn (.RangeNode Pipe List ElseList)
      (visitBranch enterFn exitFn (.BranchNode Pipe List ElseList) Pipe List ElseList
        (templateVisit enterFn exitFn Pipe) (templateVisit enterFn exitFn List)
        (templateVisit enterFn exitFn ElseList)) st
  | .IfNode Pipe List ElseList, st =>
    visitWith enterFn exitFn (.IfNode Pipe List ElseList)
      (visitBranch enterFn exitFn (.BranchNode Pipe List ElseList) Pipe List ElseList
        (templateVisit enterFn exitFn Pipe) (templateVisit enterFn exitFn List)
        (templateVisit enterFn exitFn ElseList)) st
  | .TemplateNode Name Pipe, st =>
    visitWith enterFn exitFn (.TemplateNode Name Pipe) (templateVisit enterFn exitFn Pipe) st
  | .PipeNode Cmds, st =>
    visitWith enterFn exitFn (.PipeNode Cmds) (templateVisitAll enterFn exitFn Cmds) st
  | .CommandNode Args, st =>
    visitWith enterFn exitFn (.CommandNode Args) (templateVisitAll enterFn exitFn Args) st
  | .TextNode Text, st => visitWith enterFn exitFn (.TextNode Text) (fun st => .ok st) st
  | .FieldNode Ident, st => visitWith enterFn exitFn (.FieldNode Ident) (fun st => .ok st) st
  | .OtherNode kind, st => visitWith enterFn exitFn (.OtherNode kind) (fun st => .ok st) st
  | .NilPipeNode, st =>
    visitWith enterFn exitFn .NilPipeNode (fun _ => .error .panic) st
  | .NilListNode, st =>
    visitWith enterFn exitFn .NilListNode (fun _ => .error .panic) st
/-- The loops `for _, c := range ...` of `templateVisit` over the children. -/
def templateVisitAll {σ : Type} (enterFn : σ → Node → Except Fault (Bool × σ))
    (exitFn : Option (σ → Node → σ)) : NodeList → σ → Except Fault σ
  | .nil, st => .ok st
  | .cons c rest, st =>
    match templateVisit enterFn exitFn c st with
    | .error e => .error e
    | .ok st => templateVisitAll enterFn exitFn rest st
end

/-- The function `rangeUsesField`, for the pipeline of the range node: the given field name
is present in the pipeline.  `x.Ident[0]` panics on an empty `Ident`. -/
def rangeUsesField (Pipe : Node) (field : Str) : Except Fault Bool :=
  templateVisit
    (fun (found : Bool) n =>
      match n with
      | .FieldNode Ident =>
        match Ident with
        | [] => .error .panic
        | id0 :: _ => if id0 = field then .ok (true, true) else .ok (true, found)
      | _ => .ok (true, found))
    none Pipe false

/-- The variables that the closures of `inferThinkingTags` capture. -/
structure inferState where
  ancestors : List parse.Node
  openingTag : Str
  closingTag : Str

/-- The loop `for i := len(ancestors) - 1; i >= 0; i--` that looks for the most recent
`*parse.RangeNode`: the pipeline of that node. -/
def mostRecentRange : List Node → Option Node
  | [] => none
  | n :: rest =>
    match mostRecentRange rest with
    | some r => some r
    | none =>
      match n with
      | .RangeNode Pipe _ _ => some Pipe
      | _ => none

/-- The loop that goes up to the nearest ancestor that is a `*parse.ListNode`: the nodes
of that list. -/
def nearestList : List Node → Option NodeList
  | [] => none
  | n :: rest =>
    match nearestList rest with
    | some l => some l
    | none =>
      match n with
      | .ListNode Nodes => some Nodes
      | _ => none

/-- The closure `enterFn` of `inferThinkingTags`.  `l.Nodes[0]` panics on an empty list;
`t.String()` of a text node is its text. -/
def inferEnterFn (st : inferState) (n : Node) : Except Fault (Bool × inferState) :=
  let st := { st with ancestors := st.ancestors ++ [n] }
  match n with
  | .FieldNode Ident =>
    if Ident.length > 0 ∧ Ident.head? = some (str "Thinking") then
      match mostRecentRange st.ancestors with
      | none => .ok (true, st)
      | some Pipe =>
        match rangeUsesField Pipe (str "Messages") with
        | .error e => .error e
        | .ok false => .ok (true, st)
        | .ok true =>
          match nearestList st.ancestors with
          | none => .ok (true, st)
          | some Nodes =>
            match Nodes.toList with
            | [] => .error .panic
            | firstNode :: rest =>
              let st :=
                match firstNode with
                | .TextNode Text => { st with openingTag := strings.TrimSpace Text }
                | _ => st
              let st :=
                match (firstNode :: rest).getLast? with
                | some (.TextNode Text) => { st with closingTag := strings.TrimSpace Text }
                | _ => st
              .ok (true, st)
    else .ok (true, st)
  | _ => .ok (true, st)

/-- The closure `exitFn` of `inferThinkingTags`: `ancestors = ancestors[:len(ancestors)-1]`. -/
def inferExitFn (st : inferState) (_n : parse.Node) : inferState :=
  { st with ancestors := st.ancestors.dropLast }

/-- The function `inferThinkingTags`, for the root `t.Root` of the template: the opening
and the closing tag. -/
def inferThinkingTags (Root : parse.Node) : Except Fault (Str × Str) :=
  match templateVisit inferEnterFn (some inferExitFn) Root
      { ancestors := [], openingTag := [], closingTag := [] } with
  | .error e => .error e
  | .ok st => .ok (st.openingTag, st.closingTag)

end server


/-! ## `template/pretty.go` -/

namespace template

open parse

/-- The function `indent`: the loop writes two spaces `level` times. -/
def indent : Nat → Str
  | 0 => []
  | level + 1 => str "  " ++ indent level

/-- The text written by the cases `*parse.IfNode`, `*parse.RangeNode` and `*parse.WithNode`
of `printNode`, which differ in the keyword only: `pipe` is the result of
`n.Pipe.String()`, `list` and `elseList` those of printing the two lists one level deeper,
`hasElse` the test `n.ElseList != nil`. -/
def printBranch (keyword : Str) (pipe list elseList : Except Fault Str) (hasElse : Bool)
    (level : Nat) : Except Fault Str :=
  match pipe with
  | .error e => .error e
  | .ok pipe =>
    match list with
    | .error e => .error e
    | .ok list =>
      let head := indent level ++ str "\x7b\x7b " ++ keyword ++ str " " ++ pipe
        ++ str " \x7d\x7d\n" ++ list
      if hasElse then
        match elseList with
        | .error e => .error e
        | .ok elseList =>
          .ok (head ++ indent level ++ str "\x7b\x7b else \x7d\x7d\n" ++ elseList
            ++ indent level ++ str "\x7b\x7b end \x7d\x7d\n")
      else .ok (head ++ indent level ++ str "\x7b\x7b end \x7d\x7d\n")

mutual
/-- The function `printNodes`, with what it appends to the builder as its result.  The
argument is a `*parse.ListNode`: a list node, or the nil pointer, for which nothing is
written.  `nodeString` is the method `String()` of the library for the nodes, which gives
the text of a node or panics. -/
def printNodes (nodeString : Node → Except Fault Str) : Node → Nat → Except Fault Str
  | .ListNode Nodes, level => printNodeList nodeString Nodes level
  | _, _ => .ok []
/-- The loop `for _, n := range list.Nodes` of `printNodes`. -/
def printNodeList (nodeString : Node → Except Fault Str) : NodeList → Nat → Except Fault Str
  | .nil, _ => .ok []
  | .cons n rest, level =>
    match printNode nodeString n level with
    | .error e => .error e
    | .ok first =>
      match printNodeList nodeString rest level with
      | .error e => .error e
      | .ok others => .ok (first ++ others)
/-- The function `printNode`, with what it appends to the builder as its result. -/
def printNode (nodeString : Node → Except Fault Str) : Node → Nat → Except Fault Str
  | .TextNode Text, level =>
    let text := strings.TrimSpace Text
    if text = [] then .ok []
    else .ok (indent level ++ text ++ str "\n")
  | .ActionNode Pipe, level =>
    match nodeString (.ActionNode Pipe) with
    | .error e => .error e
    | .ok s => .ok (indent level ++ s ++ str "\n")
  | .IfNode Pipe List ElseList, level =>
    printBranch (str "if") (nodeString Pipe) (printNodes nodeString List (level + 1))
      (printNodes nodeString ElseList (level + 1)) (!ElseList.isNil) level
  | .RangeNode Pipe List ElseList, level =>
    printBranch (str "range") (nodeString Pipe) (printNodes nodeString List (level + 1))
      (printNodes nodeString ElseList (level + 1)) (!ElseList.isNil) level
  | .WithNode Pipe List ElseList, level =>
    printBranch (str "with") (nodeString Pipe) (printNodes nodeString List (level + 1))
      (printNodes nodeString ElseList (level + 1)) (!ElseList.isNil) level
  | .TemplateNode Name _, level =>
    .ok (indent level ++ str "\x7b\x7b template " ++ Name ++ str " \x7d\x7d\n")
  | n, level =>
    match nodeString n with
    | .error e => .error e
    | .ok s => .ok (indent level ++ s ++ str "\n")
end

/-- The function `Format`, from the parsed template on: `Root` is `tmpl.Tree.Root`.  The
parser of the library, and with it the error that `Format` returns for a source that does
not parse, is outside the model. -/
def Format (nodeString : Node → Except Fault Str) (Root : Node) : Except Fault Str :=
  printNodes nodeString Root 0

end template

/-! ## Tag inference: what the traversal computes

The definitions of this section are not taken from the code: they say, on the tree, what
a well-formed template, a reference to a field, a qualifying reference and the tags taken
at it are.  The theorems compare `inferThinkingTags` with them. -/

namespace server

open parse

mutual
/-- Specification side: a tree on which the traversal dereferences no nil pointer and
indexes no empty `Ident`: the pipeline of an action, of a template call and of a range is
present, no element of a slice of nodes is a nil pointer, and a field node has an
identifier. -/
def wellFormed : Node → Bool
  | .ListNode Nodes => wellFormedAll Nodes
  | .TextNode _ => true
  | .ActionNode Pipe => wellFormed Pipe
  | .IfNode Pipe List ElseList =>
    (Pipe.isNil || wellFormed Pipe) && (List.isNil || wellFormed List)
      && (ElseList.isNil || wellFormed ElseList)
  | .RangeNode Pipe List ElseList =>
    wellFormed Pipe && (List.isNil || wellFormed List)
      && (ElseList.isNil || wellFormed ElseList)
  | .WithNode Pipe List ElseList =>
    (Pipe.isNil || wellFormed Pipe) && (List.isNil || wellFormed List)
      && (ElseList.isNil || wellFormed ElseList)
  | .BranchNode Pipe List ElseList =>
    (Pipe.isNil || wellFormed Pipe) && (List.isNil || wellFormed List)
      && (ElseList.isNil || wellFormed ElseList)
  | .TemplateNode _ Pipe => wellFormed Pipe
  | .PipeNode Cmds => wellFormedAll Cmds
  | .CommandNode Args => wellFormedAll Args
  | .FieldNode Ident => !Ident.isEmpty
  | .OtherNode _ => true
  | .NilPipeNode => false
  | .NilListNode => false
/-- Specification side: every node of the slice is well formed. -/
def wellFormedAll : NodeList → Bool
  | .nil => true
  | .cons n rest => wellFormed n && wellFormedAll rest
end

mutual
/-- Specification side: some field node of the tree has `field` as its first
identifier. -/
def usesField (field : Str) : Node → Bool
  | .ListNode Nodes => usesFieldAll field Nodes
  | .ActionNode Pipe => usesField field Pipe
  | .IfNode Pipe List ElseList =>
    usesField field Pipe || usesField field List || usesField field ElseList
  | .RangeNode Pipe List ElseList =>
    usesField field Pipe || usesField field List || usesField field ElseList
  | .WithNode Pipe List ElseList =>
    usesField field Pipe || usesField field List || usesField field ElseList
  | .BranchNode Pipe List ElseList =>
    usesField field Pipe || usesField field List || usesField field ElseList
  | .TemplateNode _ Pipe => usesField field Pipe
  | .PipeNode Cmds => usesFieldAll field Cmds
  | .CommandNode Args => usesFieldAll field Args
  | .FieldNode Ident => Ident.head? = some field
  | _ => false
/-- Specification side: some field node of the slice has `field` as its first
identifier. -/
def usesFieldAll (field : Str) : NodeList → Bool
  | .nil => false
  | .cons n rest => usesField field n || usesFieldAll field rest
end

mutual
/-- Specification side: the qualifying references of the tree in depth-first order, each
given by the nodes of its nearest enclosing list: a field node whose first identifier is
"Thinking", whose nearest enclosing range node has a pipeline that uses the field
"Messages", and which has an enclosing list node.  `rng` is the pipeline of the nearest range node around the tree
and `lst` the nodes of the nearest list node around it. -/
def qualifying (rng : Option Node) (lst : Option NodeList) : Node → List NodeList
  | .ListNode Nodes => qualifyingAll rng (some Nodes) Nodes
  | .ActionNode Pipe => qualifying rng lst Pipe
  | .IfNode Pipe List ElseList =>
    qualifying rng lst Pipe ++ qualifying rng lst List ++ qualifying rng lst ElseList
  | .RangeNode Pipe List ElseList =>
    qualifying (some Pipe) lst Pipe ++ qualifying (some Pipe) lst List
      ++ qualifying (some Pipe) lst ElseList
  | .WithNode Pipe List ElseList =>
    qualifying rng lst Pipe ++ qualifying rng lst List ++ qualifying rng lst ElseList
  | .BranchNode Pipe List ElseList =>
    qualifying rng lst Pipe ++ qualifying rng lst List ++ qualifying rng lst ElseList
  | .TemplateNode _ Pipe => qualifying rng lst Pipe
  | .PipeNode Cmds => qualifyingAll rng lst Cmds
  | .CommandNode Args => qualifyingAll rng lst Args
  | .FieldNode Ident =>
    if Ident.head? = some (str "Thinking") then
      match rng, lst with
      | some Pipe, some Nodes => if usesField (str "Messages") Pipe then [Nodes] else []
      | _, _ => []
    else []
  | _ => []
/-- Specification side: the qualifying references of the nodes of a slice, in order. -/
def qualifyingAll (rng : Option Node) (lst : Option NodeList) : NodeList → List NodeList
  | .nil => []
  | .cons n rest => qualifying rng lst n ++ qualifyingAll rng lst rest
end

/-- Specification side: the tags after a qualifying reference with the nearest list `l`:
the opening tag is the trimmed text of the first node of `l` if that is a text node, the
closing tag the trimmed text of the last node of `l` if that is a text node; otherwise the
tag stays as it was. -/
def tagsFrom (l : NodeList) (tags : Str × Str) : Str × Str :=
  (match l.toList.head? with
    | some (.TextNode Text) => strings.TrimSpace Text
    | _ => tags.1,
   match l.toList.getLast? with
    | some (.TextNode Text) => strings.TrimSpace Text
    | _ => tags.2)

/-- Specification side: the tags after the given qualifying references, taken in
order. -/
def tagsFromAll (ls : List NodeList) (tags : Str × Str) : Str × Str :=
  ls.foldl (fun t l => tagsFrom l t) tags

/-- The variables of `inferThinkingTags` when the ancestors are `anc` and the two tags
are `tags`. -/
def withTags (anc : List Node) (tags : Str × Str) : inferState :=
  { ancestors := anc, openingTag := tags.1, closingTag := tags.2 }

end server

/-! ## Lemmas on the library model -/

namespace utf8

theorem first_size (b : Nat) (sz lo hi : Nat) (h : first b = some (sz, lo, hi)) :
    sz = 2 ∨ sz = 3 ∨ sz = 4 := by
  unfold first at h
  repeat' split at h
  all_goals simp at h
  all_goals omega

/-- A full rune at the head of a string is decoded the same way whatever follows. -/
theorem DecodeRuneInString_append (s x : Str) (h : FullRuneInString s = true) :
    DecodeRuneInString (s ++ x) = DecodeRuneInString s := by
  cases s with
  | nil => simp [FullRuneInString] at h
  | cons s0 t =>
    simp only [List.cons_append, DecodeRuneInString, FullRuneInString] at h ⊢
    split
    · rfl
    · rename_i h0
      simp only [h0, if_false] at h
      split
      · rfl
      · rename_i sz lo hi hf
        simp only [hf] at h
        rcases first_size _ _ _ _ hf with rfl | rfl | rfl
        all_goals
          rcases t with _ | ⟨s1, _ | ⟨s2, _ | ⟨s3, t3⟩⟩⟩ <;>
          simp [isCont] at h ⊢ <;>
          (try (intros; omega)) <;>
          (try (split <;> first | rfl | omega))

/-- The width of the first rune of a non-empty string is at least one byte. -/
theorem DecodeRuneInString_size_pos (b : UInt8) (t : Str) :
    1 ≤ (DecodeRuneInString (b :: t)).2 := by
  simp only [DecodeRuneInString]
  repeat' split
  all_goals simp

end utf8

namespace strings

theorem trimLeftLoop_length_le (f : Nat → Bool) (n : Nat) (s : Str) :
    (trimLeftLoop f n s).length ≤ s.length := by
  induction n generalizing s with
  | zero => simp [trimLeftLoop]
  | succ n ih =>
    cases s with
    | nil => simp [trimLeftLoop]
    | cons b t =>
      simp only [trimLeftLoop]
      split
      · exact le_trans (ih _) (by simp)
      · exact le_rfl

theorem TrimLeftFunc_length_le (s : Str) (f : Nat → Bool) :
    (TrimLeftFunc s f).length ≤ s.length :=
  trimLeftLoop_length_le f _ s

theorem TrimLeftFunc_nil (f : Nat → Bool) : TrimLeftFunc [] f = [] := rfl

theorem trimLeftLoop_done (f : Nat → Bool) (n : Nat) (s : Str) (h : s.length ≤ n) :
    trimLeftLoop f n s = [] ∨ f (utf8.DecodeRuneInString (trimLeftLoop f n s)).1 = false := by
  induction n generalizing s with
  | zero =>
    have : s = [] := List.eq_nil_of_length_eq_zero (by omega)
    subst this
    exact Or.inl rfl
  | succ n ih =>
    cases s with
    | nil => exact Or.inl rfl
    | cons b t =>
      simp only [trimLeftLoop]
      split
      · apply ih
        have := utf8.DecodeRuneInString_size_pos b t
        rw [List.length_drop]
        simp only [List.length_cons] at h ⊢
        omega
      · rename_i hf
        exact Or.inr (by simpa using hf)

/-- The loop of `TrimLeftFunc` runs to its end within `s.length` iterations: the result is
empty or starts with a rune that does not satisfy `f`. -/
theorem TrimLeftFunc_done (s : Str) (f : Nat → Bool) :
    TrimLeftFunc s f = [] ∨ f (utf8.DecodeRuneInString (TrimLeftFunc s f)).1 = false :=
  trimLeftLoop_done f _ s le_rfl

/-- A string whose first rune does not satisfy `f` is left as it is. -/
theorem TrimLeftFunc_of_not (s : Str) (f : Nat → Bool)
    (h : f (utf8.DecodeRuneInString s).1 = false) : TrimLeftFunc s f = s := by
  cases s with
  | nil => rfl
  | cons b t => simp [TrimLeftFunc, trimLeftLoop, h]

end strings

namespace server

/-- A string that starts with a complete non-space rune is not trimmed, whatever
follows it. -/
theorem TrimLeftFunc_startsNonSpace (s x : Str) (h : startsNonSpace s = true) :
    strings.TrimLeftFunc (s ++ x) unicode.IsSpace = s ++ x := by
  simp only [startsNonSpace, Bool.and_eq_true, Bool.not_eq_true'] at h
  apply strings.TrimLeftFunc_of_not
  rw [utf8.DecodeRuneInString_append s x h.1]
  exact h.2

theorem startsNonSpace_ne_nil (s : Str) (h : startsNonSpace s = true) : s ≠ [] := by
  rintro rfl
  simp [startsNonSpace, utf8.FullRuneInString] at h

end server

namespace strings

theorem Index_le_length (s sub : Str) (m : Nat) (h : Index s sub = some m) :
    m + sub.length ≤ s.length := by
  induction s generalizing m with
  | nil =>
    simp only [Index] at h
    split at h
    · rename_i hp
      have : sub = [] := by simpa using hp
      simp at h; subst h; simp [this]
    · simp at h
  | cons b t ih =>
    simp only [Index] at h
    split at h
    · rename_i hp
      simp at h; subst h
      have := (List.isPrefixOf_iff_prefix.mp hp).length_le
      simpa using this
    · simp only [Option.map_eq_some'] at h
      obtain ⟨k, hk, rfl⟩ := h
      have := ih k hk
      simp; omega

/-- The string splits around the instance that `Index` finds. -/
theorem Index_split (s sub : Str) (m : Nat) (h : Index s sub = some m) :
    s = s.take m ++ sub ++ s.drop (m + sub.length) := by
  induction s generalizing m with
  | nil =>
    simp only [Index] at h
    split at h
    · rename_i hp
      have : sub = [] := by simpa using hp
      simp [this]
    · simp at h
  | cons b t ih =>
    simp only [Index] at h
    split at h
    · rename_i hp
      simp at h; subst h
      obtain ⟨r, hr⟩ := List.isPrefixOf_iff_prefix.mp hp
      rw [← hr]; simp
    · simp only [Option.map_eq_some'] at h
      obtain ⟨k, hk, rfl⟩ := h
      have := ih k hk
      simp only [List.take_succ_cons, List.cons_append]
      rw [show k + 1 + sub.length = (k + sub.length) + 1 by omega, List.drop_succ_cons]
      simpa using this

theorem Index_of_HasPrefix (s sub : Str) (h : HasPrefix s sub = true) : Index s sub = some 0 := by
  unfold HasPrefix at h
  cases s with
  | nil => simp [Index, h]
  | cons b t => simp [Index, h]

/-- An instance found in `a` is still the first one when `a` is continued. -/
theorem Index_append (a sub r : Str) (m : Nat) (h : Index a sub = some m) :
    Index (a ++ r) sub = some m := by
  induction a generalizing m with
  | nil =>
    simp only [Index] at h
    split at h
    · rename_i hp
      have hs : sub = [] := by simpa using hp
      simp at h; subst h; subst hs
      cases r <;> simp [Index]
    · simp at h
  | cons b t ih =>
    simp only [Index] at h
    split at h
    · rename_i hp
      simp at h; subst h
      have hp2 : sub.isPrefixOf (b :: (t ++ r)) = true := by
        rw [List.isPrefixOf_iff_prefix] at hp ⊢
        exact hp.trans (by simp)
      simp [Index, hp2]
    · rename_i hp
      simp only [Option.map_eq_some'] at h
      obtain ⟨k, hk, rfl⟩ := h
      have hlen := Index_le_length t sub k hk
      have hp2 : ¬ sub.isPrefixOf (b :: (t ++ r)) = true := by
        intro hc
        apply hp
        rw [List.isPrefixOf_iff_prefix] at hc ⊢
        have h1 : b :: t <+: b :: (t ++ r) := by simp
        exact List.prefix_of_prefix_length_le hc h1 (by simp; omega)
      simp [Index, hp2, ih k hk]

/-- A string that has `sub` inside contains it. -/
theorem Contains_append (a sub r : Str) : Contains (a ++ sub ++ r) sub = true := by
  unfold Contains
  induction a with
  | nil =>
    have : HasPrefix (sub ++ r) sub = true := by simp [HasPrefix]
    simp [Index_of_HasPrefix _ _ this]
  | cons b t ih =>
    simp only [List.cons_append, Index]
    split
    · rfl
    · simpa using ih

theorem Join_nil (sep : Str) : Join [] sep = [] := rfl

theorem Join_singleton (a sep : Str) : Join [a] sep = a := by
  simp [Join, List.intercalate, List.intersperse]

theorem Join_cons_cons (a b : Str) (l : List Str) (sep : Str) :
    Join (a :: b :: l) sep = a ++ sep ++ Join (b :: l) sep := by
  simp [Join, List.intercalate, List.intersperse]

theorem Join_length_le (a : Str) (l : List Str) (sep : Str) :
    (Join l sep).length ≤ (Join (a :: l) sep).length := by
  cases l with
  | nil => simp [Join_nil]
  | cons b l => rw [Join_cons_cons]; simp only [List.length_append]; omega

theorem splitLoop_ne_nil (sep : Str) (n : Nat) (s : Str) : splitLoop sep n s ≠ [] := by
  cases n with
  | zero => simp [splitLoop]
  | succ n =>
    simp only [splitLoop]
    split <;> simp

/-- The pieces of `splitLoop` joined by the separator give the string back. -/
theorem Join_splitLoop (sep : Str) (n : Nat) (s : Str) : Join (splitLoop sep n s) sep = s := by
  induction n generalizing s with
  | zero => simp [splitLoop, Join_singleton]
  | succ n ih =>
    simp only [splitLoop]
    split
    · exact Join_singleton _ _
    · rename_i m hm
      have hrec := ih (s.drop (m + sep.length))
      cases hl : splitLoop sep n (s.drop (m + sep.length)) with
      | nil => exact absurd hl (splitLoop_ne_nil _ _ _)
      | cons b l =>
        rw [Join_cons_cons, ← hl, hrec]
        exact (Index_split s sep m hm).symm

/-- With a non-empty separator that occurs in `s`, `Split` returns the text before the
first instance, and the other pieces join back to the text after it. -/
theorem Split_of_Index (s sep : Str) (m : Nat) (hsep : sep ≠ []) (h : Index s sep = some m) :
    ∃ rest, Split s sep = s.take m :: rest ∧ Join rest sep = s.drop (m + sep.length) := by
  have hlen := Index_le_length s sep m h
  have hpos : 0 < sep.length := List.length_pos.mpr hsep
  obtain ⟨n, hn⟩ : ∃ n, s.length = n + 1 := ⟨s.length - 1, by omega⟩
  refine ⟨splitLoop sep n (s.drop (m + sep.length)), ?_, Join_splitLoop _ _ _⟩
  simp [Split, hsep, hn, splitLoop, h]

/-- With a non-empty separator `Split` returns at least one piece, and the pieces join
back to the string. -/
theorem Split_nonempty (s sep : Str) (hsep : sep ≠ []) :
    ∃ a rest, Split s sep = a :: rest ∧ Join (a :: rest) sep = s := by
  have hj : Join (Split s sep) sep = s := by simp [Split, hsep, Join_splitLoop]
  cases hs : Split s sep with
  | nil =>
    exfalso
    simp only [Split, hsep, if_false] at hs
    cases hn : s.length with
    | zero => rw [hn] at hs; simp [splitLoop] at hs
    | succ n =>
      rw [hn] at hs
      simp only [splitLoop] at hs
      split at hs <;> simp at hs
  | cons a rest => exact ⟨a, rest, rfl, by rw [← hs]; exact hj⟩

theorem Join_explodeLoop_length (n : Nat) (s : Str) :
    (Join (explodeLoop n s) []).length ≤ s.length := by
  induction n generalizing s with
  | zero => simp [explodeLoop, Join_nil]
  | succ n ih =>
    cases s with
    | nil => simp [explodeLoop, Join_nil]
    | cons b t =>
      simp only [explodeLoop]
      have hrec := ih ((b :: t).drop (utf8.DecodeRuneInString (b :: t)).2)
      cases hl : explodeLoop n ((b :: t).drop (utf8.DecodeRuneInString (b :: t)).2) with
      | nil =>
        rw [Join_singleton]
        simp only [List.length_take]
        omega
      | cons c l =>
        rw [Join_cons_cons]
        rw [hl] at hrec
        have h2 : ((b :: t).take (utf8.DecodeRuneInString (b :: t)).2).length
            + ((b :: t).drop (utf8.DecodeRuneInString (b :: t)).2).length = (b :: t).length := by
          rw [← List.length_append, List.take_append_drop]
        simp only [List.length_append, List.length_nil, Nat.add_zero] at hrec ⊢
        omega

end strings

/-! ## Lemmas on the thinking parser -/

namespace server

/-- A step of `eat` never moves to an earlier state. -/
theorem eat_state_le (p : thinkingParser) (t r : Str) (k : Bool) (q : thinkingParser)
    (h : eat p = .ok (t, r, k, q)) : p.state.toNat ≤ q.state.toNat := by
  obtain ⟨st, o, c, acc⟩ := p
  cases st <;> simp only [eat] at h <;> (repeat' split at h) <;>
    simp only [Except.ok.injEq, Prod.mk.injEq, reduceCtorEq] at h <;>
    (try obtain ⟨-, -, -, rfl⟩ := h) <;> simp [thinkingParseState.toNat]

/-- A step of `eat` asks to continue only when it has just found the opening tag. -/
theorem eat_keep (p : thinkingParser) (t r : Str) (q : thinkingParser)
    (h : eat p = .ok (t, r, true, q)) :
    p.state = .LookingForOpening ∧ q.state = .Thinking ∧ t = [] ∧ r = [] := by
  obtain ⟨st, o, c, acc⟩ := p
  cases st <;> simp only [eat] at h <;> (repeat' split at h) <;>
    simp only [Except.ok.injEq, Prod.mk.injEq, reduceCtorEq, Bool.false_eq_true, false_and,
      and_false] at h <;>
    (try obtain ⟨rfl, rfl, -, rfl⟩ := h) <;> simp

/-- A step of `eat` leaves the tags alone. -/
theorem eat_tags (p : thinkingParser) (t r : Str) (k : Bool) (q : thinkingParser)
    (h : eat p = .ok (t, r, k, q)) :
    q.openingTag = p.openingTag ∧ q.closingTag = p.closingTag := by
  obtain ⟨st, o, c, acc⟩ := p
  cases st <;> simp only [eat] at h <;> (repeat' split at h) <;>
    simp only [Except.ok.injEq, Prod.mk.injEq, reduceCtorEq] at h <;>
    (try obtain ⟨-, -, -, rfl⟩ := h) <;> simp

/-- A step that ends in `Thinking` without asking to continue started in `Thinking`. -/
theorem eat_to_thinking (p : thinkingParser) (t r : Str) (q : thinkingParser)
    (h : eat p = .ok (t, r, false, q)) (hq : q.state = .Thinking) : p.state = .Thinking := by
  obtain ⟨st, o, c, acc⟩ := p
  cases st <;> simp only [eat] at h <;> (repeat' split at h) <;>
    simp only [Except.ok.injEq, Prod.mk.injEq, reduceCtorEq, Bool.true_eq_false, false_and,
      and_false] at h <;>
    first
      | rfl
      | (obtain ⟨-, -, -, h3⟩ := h
         rw [← h3] at hq
         simp at hq)

/-- The loop of `addContent` never needs more than two calls of `eat`. -/
theorem addContentLoop_fuel (n : Nat) (p : thinkingParser) (a b : Str) :
    addContentLoop (n + 2) p a b = addContentLoop 2 p a b := by
  simp only [addContentLoop]
  cases h1 : eat p with
  | error e => rfl
  | ok v =>
    obtain ⟨t1, r1, k1, p1⟩ := v
    cases k1 with
    | false => rfl
    | true =>
      simp only [if_true]
      have hk := eat_keep p t1 r1 p1 h1
      cases h2 : eat p1 with
      | error e => rfl
      | ok w =>
        obtain ⟨t2, r2, k2, p2⟩ := w
        cases k2 with
        | false => rfl
        | true =>
          have := (eat_keep p1 t2 r2 p2 h2).1
          rw [hk.2.1] at this
          cases this

/-- The only fault of `eat` is a panic. -/
theorem eat_error (p : thinkingParser) (e : Fault) (h : eat p = .error e) : e = .panic := by
  obtain ⟨st, o, c, acc⟩ := p
  cases st <;> simp only [eat] at h <;> (repeat' split at h)
  all_goals
    simp only [Except.error.injEq, reduceCtorEq] at h
    try exact h.symm

/-- With two calls of `eat` the loop of `addContent` does not run out of fuel. -/
theorem addContent_ne_outOfFuel (p : thinkingParser) (f : Str) :
    addContent p f ≠ .error .outOfFuel := by
  simp only [addContent, addContentLoop]
  cases h1 : eat { p with acc := p.acc ++ f } with
  | error e =>
    have := eat_error _ e h1
    simp [this]
  | ok v =>
    obtain ⟨t1, r1, k1, p1⟩ := v
    cases k1 with
    | false => simp
    | true =>
      simp only [if_true]
      have hk := eat_keep _ t1 r1 p1 h1
      cases h2 : eat p1 with
      | error e =>
        have := eat_error _ e h2
        simp [this]
      | ok w =>
        obtain ⟨t2, r2, k2, p2⟩ := w
        cases k2 with
        | false => simp
        | true =>
          have := (eat_keep p1 t2 r2 p2 h2).1
          rw [hk.2.1] at this
          cases this

/-- The step that finds the opening tag: the tag and the whitespace around it are
dropped and the parser moves to `Thinking`. -/
theorem eat_opening (p : thinkingParser) (hs : p.state = .LookingForOpening)
    (ho : p.openingTag ≠ [])
    (hp : strings.HasPrefix (strings.TrimLeftFunc p.acc unicode.IsSpace) p.openingTag = true) :
    eat p = .ok ([], [], true,
      { p with
        acc := strings.TrimLeftFunc
          ((strings.TrimLeftFunc p.acc unicode.IsSpace).drop p.openingTag.length) unicode.IsSpace
        state := .Thinking }) := by
  obtain ⟨rest, h1, h2⟩ := strings.Split_of_Index _ _ 0 ho (strings.Index_of_HasPrefix _ _ hp)
  obtain ⟨st, o, c, acc⟩ := p
  simp only at hs ho hp h1 h2
  subst hs
  simp only [eat, hp, if_true, h1, h2, Nat.zero_add]

/-- The step that finds the closing tag at index `m`. -/
theorem eat_closing (p : thinkingParser) (hs : p.state = .Thinking) (hc : p.closingTag ≠ [])
    (m : Nat) (hm : strings.Index p.acc p.closingTag = some m) :
    eat p = .ok (p.acc.take m,
      strings.TrimLeftFunc (p.acc.drop (m + p.closingTag.length)) unicode.IsSpace, false,
      { p with
        acc := []
        state :=
          if strings.TrimLeftFunc (p.acc.drop (m + p.closingTag.length)) unicode.IsSpace = []
          then .ThinkingDoneEatingWhitespace else .ThinkingDone }) := by
  obtain ⟨rest, h1, h2⟩ := strings.Split_of_Index _ _ m hc hm
  obtain ⟨st, o, c, acc⟩ := p
  simp only at hs hc hm h1 h2
  subst hs
  have hcont : strings.Contains acc c = true := by simp [strings.Contains, hm]
  simp only [eat, hcont, if_true, h1, h2]
  split <;> simp_all

end server

namespace server

theorem overlapLoop_le (s delim : Str) (i : Nat) : overlapLoop s delim i ≤ i := by
  induction i with
  | zero => simp [overlapLoop]
  | succ i ih =>
    simp only [overlapLoop]
    split
    · exact le_rfl
    · exact Nat.le_succ_of_le ih

theorem overlapLoop_suffix (s delim : Str) (i : Nat) (h : 0 < overlapLoop s delim i) :
    strings.HasSuffix s (delim.take (overlapLoop s delim i)) = true := by
  induction i with
  | zero => simp [overlapLoop] at h
  | succ i ih =>
    simp only [overlapLoop] at h ⊢
    split
    · assumption
    · rename_i hn
      simp only [hn] at h
      exact ih h

theorem overlap_le (s delim : Str) : overlap s delim ≤ min delim.length s.length :=
  overlapLoop_le _ _ _

/-- A positive overlap is a suffix of `s` that is a prefix of `delim`. -/
theorem overlap_suffix (s delim : Str) (h : 0 < overlap s delim) :
    delim.take (overlap s delim) <:+ s := by
  have := overlapLoop_suffix s delim _ h
  exact List.isSuffixOf_iff_suffix.mp this

/-- When `delim` is not inside `s`, the overlap is shorter than `delim`. -/
theorem overlap_lt (s delim : Str) (hd : delim ≠ []) (hc : strings.Contains s delim = false) :
    overlap s delim < delim.length := by
  have hle := overlap_le s delim
  by_contra hge
  have heq : overlap s delim = delim.length := by omega
  have hpos : 0 < overlap s delim := by
    rw [heq]; exact List.length_pos.mpr hd
  have hsuf := overlap_suffix s delim hpos
  rw [heq, List.take_length] at hsuf
  obtain ⟨pre, hpre⟩ := hsuf
  have := strings.Contains_append pre delim []
  rw [List.append_nil, hpre, hc] at this
  cases this

/-- What a step from `Thinking` leaves in the buffer while the state stays `Thinking`: a
proper prefix of the closing tag. -/
theorem eat_thinking_acc (p : thinkingParser) (t r : Str) (k : Bool) (q : thinkingParser)
    (hs : p.state = .Thinking) (hc : p.closingTag ≠ []) (h : eat p = .ok (t, r, k, q))
    (hq : q.state = .Thinking) :
    q.acc <+: p.closingTag ∧ q.acc.length < p.closingTag.length := by
  obtain ⟨st, o, c, acc⟩ := p
  simp only at hs hc
  subst hs
  simp only [eat] at h
  split at h
  · split at h
    · cases h
    · split at h <;>
        (simp only [Except.ok.injEq, Prod.mk.injEq] at h
         obtain ⟨-, -, -, h3⟩ := h
         rw [← h3] at hq
         simp at hq)
  · rename_i hcont
    have hcont2 : strings.Contains acc c = false := by simpa using hcont
    split at h
    · rename_i hpos
      simp only [Except.ok.injEq, Prod.mk.injEq] at h
      obtain ⟨-, -, -, h3⟩ := h
      subst h3
      simp only
      have hlt := overlap_lt acc c hc hcont2
      have hsuf := overlap_suffix acc c hpos
      have hlen : (c.take (overlap acc c)).length = overlap acc c := by
        rw [List.length_take]; omega
      have hdrop : acc.drop (acc.length - overlap acc c) = c.take (overlap acc c) := by
        have := List.suffix_iff_eq_drop.mp hsuf
        rw [hlen] at this
        exact this.symm
      rw [hdrop]
      exact ⟨List.take_prefix _ _, by rw [hlen]; exact hlt⟩
    · simp only [Except.ok.injEq, Prod.mk.injEq] at h
      obtain ⟨-, -, -, h3⟩ := h
      subst h3
      exact ⟨List.nil_prefix, List.length_pos.mpr hc⟩

/-- The regular content returned by a step from `Thinking` is no longer than the
buffer. -/
theorem eat_thinking_remaining (p : thinkingParser) (t r : Str) (k : Bool) (q : thinkingParser)
    (hs : p.state = .Thinking) (h : eat p = .ok (t, r, k, q)) : r.length ≤ p.acc.length := by
  obtain ⟨st, o, c, acc⟩ := p
  simp only at hs
  subst hs
  simp only [eat] at h
  have key : ∀ a rest, strings.Split acc c = a :: rest →
      (strings.TrimLeftFunc (strings.Join rest c) unicode.IsSpace).length ≤ acc.length := by
    intro a rest hsp
    refine le_trans (strings.TrimLeftFunc_length_le _ _) ?_
    refine le_trans (strings.Join_length_le a rest c) ?_
    rw [← hsp]
    unfold strings.Split
    split
    · rename_i hnil
      rw [hnil]
      exact strings.Join_explodeLoop_length _ _
    · rw [strings.Join_splitLoop]
  split at h
  · split at h
    · cases h
    · rename_i a rest hsp
      have := key a rest hsp
      split at h <;>
        (simp only [Except.ok.injEq, Prod.mk.injEq] at h
         obtain ⟨-, h2, -, -⟩ := h
         rw [← h2]
         exact this)
  · split at h <;>
      (simp only [Except.ok.injEq, Prod.mk.injEq] at h
       obtain ⟨-, h2, -, -⟩ := h
       rw [← h2]
       simp)

/-- A call of `addContent` leaves the tags alone. -/
theorem addContent_tags (p : thinkingParser) (f t r : Str) (q : thinkingParser)
    (h : addContent p f = .ok (t, r, q)) :
    q.openingTag = p.openingTag ∧ q.closingTag = p.closingTag := by
  simp only [addContent, addContentLoop] at h
  cases h1 : eat { p with acc := p.acc ++ f } with
  | error e => rw [h1] at h; cases h
  | ok v =>
    obtain ⟨t1, r1, k1, p1⟩ := v
    rw [h1] at h
    have htag1 := eat_tags _ _ _ _ _ h1
    simp only at htag1
    cases k1 with
    | false =>
      simp only [Bool.false_eq_true, if_false, Except.ok.injEq, Prod.mk.injEq] at h
      obtain ⟨-, -, rfl⟩ := h
      exact htag1
    | true =>
      simp only [if_true] at h
      cases h2 : eat p1 with
      | error e => rw [h2] at h; cases h
      | ok w =>
        obtain ⟨t2, r2, k2, p2⟩ := w
        rw [h2] at h
        have htag2 := eat_tags _ _ _ _ _ h2
        cases k2 with
        | true => simp at h
        | false =>
          simp only [Bool.false_eq_true, if_false, Except.ok.injEq, Prod.mk.injEq] at h
          obtain ⟨-, -, rfl⟩ := h
          exact ⟨htag2.1.trans htag1.1, htag2.2.trans htag1.2⟩

/-- After `addContent`, a parser in state `Thinking` holds a proper prefix of the closing
tag. -/
theorem addContent_thinking_acc (p : thinkingParser) (f t r : Str) (q : thinkingParser)
    (hc : p.closingTag ≠ []) (h : addContent p f = .ok (t, r, q)) (hq : q.state = .Thinking) :
    q.closingTag = p.closingTag ∧ q.acc <+: p.closingTag ∧ q.acc.length < p.closingTag.length := by
  simp only [addContent, addContentLoop] at h
  cases h1 : eat { p with acc := p.acc ++ f } with
  | error e => rw [h1] at h; cases h
  | ok v =>
    obtain ⟨t1, r1, k1, p1⟩ := v
    rw [h1] at h
    have htag1 := eat_tags _ _ _ _ _ h1
    simp only at htag1
    cases k1 with
    | false =>
      simp only [Bool.false_eq_true, if_false, Except.ok.injEq, Prod.mk.injEq] at h
      obtain ⟨-, -, rfl⟩ := h
      have hst := eat_to_thinking _ _ _ _ h1 hq
      have := eat_thinking_acc _ _ _ _ _ hst hc h1 hq
      exact ⟨htag1.2, this⟩
    | true =>
      simp only [if_true] at h
      have hk := eat_keep _ t1 r1 p1 h1
      cases h2 : eat p1 with
      | error e => rw [h2] at h; cases h
      | ok w =>
        obtain ⟨t2, r2, k2, p2⟩ := w
        rw [h2] at h
        have htag2 := eat_tags _ _ _ _ _ h2
        cases k2 with
        | true => simp at h
        | false =>
          simp only [Bool.false_eq_true, if_false, Except.ok.injEq, Prod.mk.injEq] at h
          obtain ⟨-, -, rfl⟩ := h
          have hc1 : p1.closingTag ≠ [] := by rw [htag1.2]; exact hc
          have := eat_thinking_acc p1 _ _ _ _ hk.2.1 hc1 h2 hq
          rw [htag1.2] at this
          exact ⟨htag2.2.trans htag1.2, this⟩

/-- The invariant of `addContent_thinking_acc` along a sequence of fragments. -/
theorem feed_thinking_acc (p : thinkingParser) (frags : List Str) (outs : List (Str × Str))
    (q : thinkingParser) (hc : p.closingTag ≠ [])
    (hp : p.state = .Thinking → p.acc <+: p.closingTag ∧ p.acc.length < p.closingTag.length)
    (h : feed p frags = .ok (outs, q)) (hq : q.state = .Thinking) :
    q.acc <+: p.closingTag ∧ q.acc.length < p.closingTag.length := by
  induction frags generalizing p outs with
  | nil =>
    simp only [feed, Except.ok.injEq, Prod.mk.injEq] at h
    obtain ⟨-, rfl⟩ := h
    exact hp hq
  | cons f fs ih =>
    simp only [feed] at h
    cases h1 : addContent p f with
    | error e => rw [h1] at h; cases h
    | ok v =>
      obtain ⟨t1, r1, p1⟩ := v
      rw [h1] at h
      simp only at h
      cases h2 : feed p1 fs with
      | error e => rw [h2] at h; cases h
      | ok w =>
        obtain ⟨outs2, q2⟩ := w
        rw [h2] at h
        simp only [Except.ok.injEq, Prod.mk.injEq] at h
        obtain ⟨-, rfl⟩ := h
        have htag := (addContent_tags p f t1 r1 p1 h1).2
        have hinv := fun hst => (addContent_thinking_acc p f t1 r1 p1 hc h1 hst).2
        rw [← htag] at hinv hc ⊢
        exact ih p1 outs2 hc hinv h2

end server

/-! ## The thinking parser: claims -/

namespace server

/-- C1 (defect of the code): content is returned twice. With the tags `<think>` and
`</think>`, the fragments "Hello" and " world" fed to a fresh parser are returned as the
regular content "Hello" and then "Hello world": the branch of `eat` that skips the opening
tag returns the buffer without resetting it, so the bytes of the first fragment are
returned by two different calls and the outputs concatenate to "HelloHello world". -/
theorem feed_duplicates_content_after_skip :
    feed (fresh (str "<think>") (str "</think>")) [str "Hello", str " world"]
      = .ok ([([], str "Hello"), ([], str "Hello world")],
          { state := .ThinkingDone, openingTag := str "<think>", closingTag := str "</think>",
            acc := [] }) := by
  decide

/-- C2 (defect of the code): `ThinkingDone` reached without an opening tag is not a
pass-through state. After "just text" a fresh parser is in `ThinkingDone` with the text
still in its buffer, and the next call `addContent(" more")` returns the regular content
"just text more" instead of " more". -/
theorem thinkingDone_after_skip_not_pass_through :
    feed (fresh (str "<think>") (str "</think>")) [str "just text"]
      = .ok ([([], str "just text")],
          { state := .ThinkingDone, openingTag := str "<think>", closingTag := str "</think>",
            acc := str "just text" })
    ∧ addContent
        { state := .ThinkingDone, openingTag := str "<think>", closingTag := str "</think>",
          acc := str "just text" } (str " more")
      = .ok ([], str "just text more",
          { state := .ThinkingDone, openingTag := str "<think>", closingTag := str "</think>",
            acc := [] }) := by
  decide

/-- C3: the state is monotonic. In the order `LookingForOpening < Thinking <
ThinkingDoneEatingWhitespace < ThinkingDone` (the integer values of the states), the state
after every step of `eat` and after every call of `addContent` is greater than or equal
to the state before it. -/
theorem state_monotonic (p : thinkingParser) (f : Str) :
    (∀ t r k q, eat p = .ok (t, r, k, q) → p.state.toNat ≤ q.state.toNat) ∧
    (∀ t r q, addContent p f = .ok (t, r, q) → p.state.toNat ≤ q.state.toNat) := by
  refine ⟨fun t r k q h => eat_state_le p t r k q h, ?_⟩
  intro t r q h
  simp only [addContent, addContentLoop] at h
  cases h1 : eat { p with acc := p.acc ++ f } with
  | error e => rw [h1] at h; cases h
  | ok v =>
    obtain ⟨t1, r1, k1, p1⟩ := v
    rw [h1] at h
    have hle1 := eat_state_le _ _ _ _ _ h1
    simp only at hle1
    cases k1 with
    | false =>
      simp only [Bool.false_eq_true, if_false, Except.ok.injEq, Prod.mk.injEq] at h
      obtain ⟨-, -, rfl⟩ := h
      exact hle1
    | true =>
      simp only [if_true] at h
      cases h2 : eat p1 with
      | error e => rw [h2] at h; cases h
      | ok w =>
        obtain ⟨t2, r2, k2, p2⟩ := w
        rw [h2] at h
        have hle2 := eat_state_le _ _ _ _ _ h2
        cases k2 with
        | true => simp at h
        | false =>
          simp only [Bool.false_eq_true, if_false, Except.ok.injEq, Prod.mk.injEq] at h
          obtain ⟨-, -, rfl⟩ := h
          exact le_trans hle1 hle2

/-- C3, at the call that crosses three states at once. -/
theorem state_monotonic_witness :
    addContent (fresh (str "<think>") (str "</think>")) (str "<think>a</think>b")
      = .ok (str "a", str "b",
          { state := .ThinkingDone, openingTag := str "<think>", closingTag := str "</think>",
            acc := [] })
    ∧ (fresh (str "<think>") (str "</think>")).state.toNat
      ≤ thinkingParseState.ThinkingDone.toNat :=
  ⟨by decide,
   (state_monotonic (fresh (str "<think>") (str "</think>")) (str "<think>a</think>b")).2
     (str "a") (str "b")
     { state := .ThinkingDone, openingTag := str "<think>", closingTag := str "</think>",
       acc := [] }
     (by decide)⟩

/-- C4: single-call split. For an opening tag `o` and a thinking text `t` that each start
with a complete rune that is not whitespace, a non-empty closing tag `c` whose first
instance in `t ++ c` is at offset `len(t)`, and a non-empty content `r` whose first rune is
not whitespace, `addContent(o + t + c + r)` on a fresh parser returns `(t, r)` and ends in
`ThinkingDone`. -/
theorem single_call_split (o c t r : Str) (ho : startsNonSpace o = true) (hc : c ≠ [])
    (ht : startsNonSpace t = true) (hidx : strings.Index (t ++ c) c = some t.length)
    (hr : r ≠ []) (hrs : unicode.IsSpace (utf8.DecodeRuneInString r).1 = false) :
    addContent (fresh o c) (o ++ t ++ c ++ r)
      = .ok (t, r, { state := .ThinkingDone, openingTag := o, closingTag := c, acc := [] }) := by
  have ho1 := startsNonSpace_ne_nil o ho
  have htrim1 : strings.TrimLeftFunc (o ++ t ++ c ++ r) unicode.IsSpace = o ++ t ++ c ++ r := by
    rw [List.append_assoc, List.append_assoc]
    exact TrimLeftFunc_startsNonSpace o _ ho
  have htrim2 : strings.TrimLeftFunc (t ++ c ++ r) unicode.IsSpace = t ++ c ++ r := by
    rw [List.append_assoc]
    exact TrimLeftFunc_startsNonSpace t _ ht
  have htrim3 : strings.TrimLeftFunc r unicode.IsSpace = r := strings.TrimLeftFunc_of_not r _ hrs
  have hpre : strings.HasPrefix (o ++ t ++ c ++ r) o = true := by
    rw [List.append_assoc, List.append_assoc]
    simp [strings.HasPrefix]
  have hdrop1 : (o ++ t ++ c ++ r).drop o.length = t ++ c ++ r := by
    rw [List.append_assoc, List.append_assoc, List.drop_left, List.append_assoc]
  have e1 := eat_opening
    { state := .LookingForOpening, openingTag := o, closingTag := c, acc := o ++ t ++ c ++ r }
    rfl ho1 (by simp only [htrim1]; exact hpre)
  simp only [htrim1, hdrop1, htrim2] at e1
  have e2 := eat_closing
    { state := .Thinking, openingTag := o, closingTag := c, acc := t ++ c ++ r }
    rfl hc t.length (strings.Index_append (t ++ c) c r _ hidx)
  have htake : (t ++ c ++ r).take t.length = t := by
    rw [List.append_assoc, List.take_left]
  have hdrop2 : (t ++ c ++ r).drop (t.length + c.length) = r := by
    rw [← List.length_append, List.drop_left]
  simp only [htake, hdrop2, htrim3, hr, if_false] at e2
  simp only [addContent, addContentLoop, fresh, List.nil_append, e1, if_true, e2,
    Bool.false_eq_true, if_false]

/-- C4, at the scenario of the specification. -/
theorem single_call_split_witness :
    addContent (fresh (str "<think>") (str "</think>")) (str "<think>reasoning</think>answer")
      = .ok (str "reasoning", str "answer",
          { state := .ThinkingDone, openingTag := str "<think>", closingTag := str "</think>",
            acc := [] }) :=
  single_call_split (str "<think>") (str "</think>") (str "reasoning") (str "answer")
    (by decide) (by decide) (by decide) (by decide) (by decide) (by decide)

/-- C5 fails as stated: the three calls do not return `("", "")`,
`("partial reasoning", "")` and `("", "done")`. -/
theorem three_fragments_not_as_claimed :
    ¬ ∃ q, feed (fresh (str "<think>") (str "</think>"))
        [str "<thi", str "nk>partial reason", str "ing</think> done"]
      = .ok ([([], []), (str "partial reasoning", []), ([], str "done")], q) := by
  have e : feed (fresh (str "<think>") (str "</think>"))
        [str "<thi", str "nk>partial reason", str "ing</think> done"]
      = .ok ([([], []), (str "partial reason", []), (str "ing", str "done")],
          { state := .ThinkingDone, openingTag := str "<think>", closingTag := str "</think>",
            acc := [] }) := by decide
  rintro ⟨q, h⟩
  rw [e] at h
  have h1 : [(([] : Str), ([] : Str)), (str "partial reason", []), (str "ing", str "done")]
      = [([], []), (str "partial reasoning", []), ([], str "done")] :=
    congrArg Prod.fst (Except.ok.inj h)
  exact absurd h1 (by decide)

/-- C5 as amended: with the tags `<think>` and `</think>`, feeding a fresh parser "<thi",
then "nk>partial reason", then "ing</think> done": the first call returns `("", "")`, the
second returns the thinking text "partial reason" and no content, the third returns the
thinking text "ing" and the content "done", and the parser ends in `ThinkingDone`. -/
theorem three_fragments :
    feed (fresh (str "<think>") (str "</think>"))
        [str "<thi", str "nk>partial reason", str "ing</think> done"]
      = .ok ([([], []), (str "partial reason", []), (str "ing", str "done")],
          { state := .ThinkingDone, openingTag := str "<think>", closingTag := str "</think>",
            acc := [] }) := by
  decide

/-- C6: a skipped opening tag keeps the content untrimmed. For a fragment `f` whose
trimmed form is non-empty, does not start with the opening tag and is not a prefix of it,
`addContent(f)` on a fresh parser returns `("", f)`, leading whitespace included, and moves
to `ThinkingDone`. -/
theorem skipped_opening_tag (o c f : Str)
    (h1 : strings.TrimLeftFunc f unicode.IsSpace ≠ [])
    (h2 : strings.HasPrefix (strings.TrimLeftFunc f unicode.IsSpace) o = false)
    (h3 : strings.HasPrefix o (strings.TrimLeftFunc f unicode.IsSpace) = false) :
    ∃ q, addContent (fresh o c) f = .ok ([], f, q) ∧ q.state = .ThinkingDone := by
  refine ⟨{ state := .ThinkingDone, openingTag := o, closingTag := c, acc := f }, ?_, rfl⟩
  simp [addContent, addContentLoop, fresh, eat, h1, h2, h3]

/-- C6, at the scenario of the specification and at a fragment with leading whitespace. -/
theorem skipped_opening_tag_witness :
    (∃ q, addContent (fresh (str "<think>") (str "</think>")) (str "just text")
        = .ok ([], str "just text", q) ∧ q.state = .ThinkingDone)
    ∧ (∃ q, addContent (fresh (str "<think>") (str "</think>")) (str "  \n text")
        = .ok ([], str "  \n text", q) ∧ q.state = .ThinkingDone) :=
  ⟨skipped_opening_tag _ _ (str "just text") (by decide) (by decide) (by decide),
   skipped_opening_tag _ _ (str "  \n text") (by decide) (by decide) (by decide)⟩

/-- C7: the overlap bound. With a non-empty closing tag `c`, whenever a sequence of
fragments fed to a fresh parser leaves it in state `Thinking`, the buffer is a proper
prefix of `c`: a prefix of `c`, different from `c`, of at most `len(c) - 1` bytes. -/
theorem overlap_bound (o c : Str) (frags : List Str) (outs : List (Str × Str))
    (q : thinkingParser) (hc : c ≠ []) (h : feed (fresh o c) frags = .ok (outs, q))
    (hq : q.state = .Thinking) :
    q.acc <+: c ∧ q.acc ≠ c ∧ q.acc.length ≤ c.length - 1 := by
  have := feed_thinking_acc (fresh o c) frags outs q hc (by intro hs; cases hs) h hq
  simp only [fresh] at this
  refine ⟨this.1, ?_, by omega⟩
  intro heq
  rw [heq] at this
  exact Nat.lt_irrefl _ this.2

/-- C7, at a parser holding back the candidate closing tag "</th". -/
theorem overlap_bound_witness :
    feed (fresh (str "<think>") (str "</think>")) [str "<think>abc", str "de</th"]
      = .ok ([(str "abc", []), (str "de", [])],
          { state := .Thinking, openingTag := str "<think>", closingTag := str "</think>",
            acc := str "</th" })
    ∧ str "</th" <+: str "</think>" ∧ str "</th" ≠ str "</think>"
    ∧ (str "</th").length ≤ (str "</think>").length - 1 :=
  ⟨by decide,
   overlap_bound (str "<think>") (str "</think>") [str "<think>abc", str "de</th"]
     [(str "abc", []), (str "de", [])]
     { state := .Thinking, openingTag := str "<think>", closingTag := str "</think>",
       acc := str "</th" }
     (by decide) (by decide) rfl⟩

end server

namespace strings

/-- The pieces that `explode` cuts a string into, joined without a separator, are the
string. -/
theorem Join_explodeLoop (n : Nat) (s : Str) (h : s.length ≤ n) :
    Join (explodeLoop n s) [] = s := by
  induction n generalizing s with
  | zero =>
    have : s = [] := List.eq_nil_of_length_eq_zero (by omega)
    subst this
    rfl
  | succ n ih =>
    cases s with
    | nil => rfl
    | cons b t =>
      simp only [explodeLoop]
      have hpos := utf8.DecodeRuneInString_size_pos b t
      have hlen : ((b :: t).drop (utf8.DecodeRuneInString (b :: t)).2).length ≤ n := by
        rw [List.length_drop]
        simp only [List.length_cons] at h ⊢
        omega
      have hrec := ih _ hlen
      cases hl : explodeLoop n ((b :: t).drop (utf8.DecodeRuneInString (b :: t)).2) with
      | nil =>
        rw [hl, Join_nil] at hrec
        rw [Join_singleton]
        conv_rhs => rw [← List.take_append_drop (utf8.DecodeRuneInString (b :: t)).2 (b :: t)]
        rw [← hrec, List.append_nil]
      | cons c l =>
        rw [hl] at hrec
        rw [Join_cons_cons, hrec, List.append_nil, List.take_append_drop]

end strings

namespace server

/-- C8 fails as stated: with an empty opening tag, `addContent("abc")` on a fresh parser
does not return `("", "abc")`. -/
theorem empty_opening_tag_not_pass_through :
    ¬ ∃ q, addContent (fresh [] (str "</think>")) (str "abc") = .ok ([], str "abc", q) := by
  have e : addContent (fresh [] (str "</think>")) (str "abc")
      = .ok (str "bc", [],
          { state := .Thinking, openingTag := [], closingTag := str "</think>", acc := [] }) := by
    decide
  rintro ⟨q, h⟩
  rw [e] at h
  have h1 : str "bc" = ([] : Str) := congrArg Prod.fst (Except.ok.inj h)
  exact absurd h1 (by decide)

/-- With a non-empty closing tag a step in the state `Thinking` returns normally and does
not ask to continue. -/
theorem eat_thinking_ok (p : thinkingParser) (hs : p.state = .Thinking)
    (hc : p.closingTag ≠ []) : ∃ t r q, eat p = .ok (t, r, false, q) := by
  obtain ⟨st, o, c, acc⟩ := p
  simp only at hs hc
  subst hs
  simp only [eat]
  split
  · obtain ⟨a, rest, h1, -⟩ := strings.Split_nonempty acc c hc
    rw [h1]
    simp only
    split <;> exact ⟨_, _, _, rfl⟩
  · split <;> exact ⟨_, _, _, rfl⟩

/-- The step of `eat` on a parser with an empty opening tag that is looking for it, when
the buffer has a rune that is not whitespace: the empty tag matches, and the first rune of
the trimmed buffer is consumed in its place. -/
theorem eat_empty_opening (c f : Str) (h : strings.TrimLeftFunc f unicode.IsSpace ≠ []) :
    eat { state := .LookingForOpening, openingTag := [], closingTag := c, acc := f }
      = .ok ([], [], true,
          { state := .Thinking, openingTag := [], closingTag := c,
            acc := strings.TrimLeftFunc
              ((strings.TrimLeftFunc f unicode.IsSpace).drop
                (utf8.DecodeRuneInString (strings.TrimLeftFunc f unicode.IsSpace)).2)
              unicode.IsSpace }) := by
  have hpre : strings.HasPrefix (strings.TrimLeftFunc f unicode.IsSpace) [] = true := by
    simp [strings.HasPrefix]
  simp only [eat, hpre, if_true]
  cases htr : strings.TrimLeftFunc f unicode.IsSpace with
  | nil => exact absurd htr h
  | cons b s =>
    simp only [strings.Split, if_true, List.length_cons, strings.explodeLoop]
    have hpos := utf8.DecodeRuneInString_size_pos b s
    rw [strings.Join_explodeLoop s.length _ (by
      rw [List.length_drop]
      simp only [List.length_cons]
      omega)]

/-- C8 as amended: an empty opening tag does not disable thinking. On a fresh parser whose
opening tag is empty, `addContent(f)` fails with a slice-bounds panic when `f` is empty or
only whitespace. For every other `f` the empty tag matches at once: the step in
`LookingForOpening` consumes the first rune of the trimmed `f` in its place, moves to
`Thinking` and leaves the rest, trimmed on the left, as the buffer; the call returns what
the step in `Thinking` makes of that buffer; whenever it returns, the parser has left
`LookingForOpening` and the regular content is strictly shorter than `f`, so the call
never returns `("", f)`; and with a non-empty closing tag it does return. -/
theorem empty_opening_tag (c f : Str) :
    (strings.TrimLeftFunc f unicode.IsSpace = [] →
      addContent (fresh [] c) f = .error .panic)
    ∧ (strings.TrimLeftFunc f unicode.IsSpace ≠ [] →
      eat { state := .LookingForOpening, openingTag := [], closingTag := c, acc := f }
        = .ok ([], [], true,
            { state := .Thinking, openingTag := [], closingTag := c,
              acc := strings.TrimLeftFunc
                ((strings.TrimLeftFunc f unicode.IsSpace).drop
                  (utf8.DecodeRuneInString (strings.TrimLeftFunc f unicode.IsSpace)).2)
                unicode.IsSpace })
      ∧ addContent (fresh [] c) f
        = (match eat
            { state := .Thinking, openingTag := [], closingTag := c,
              acc := strings.TrimLeftFunc
                ((strings.TrimLeftFunc f unicode.IsSpace).drop
                  (utf8.DecodeRuneInString (strings.TrimLeftFunc f unicode.IsSpace)).2)
                unicode.IsSpace } with
          | .error e => .error e
          | .ok (t, r, _, q) => .ok (t, r, q))
      ∧ (∀ t r q, addContent (fresh [] c) f = .ok (t, r, q) →
          q.state ≠ .LookingForOpening ∧ r.length < f.length)
      ∧ (c ≠ [] → ∃ t r q, addContent (fresh [] c) f = .ok (t, r, q) ∧
          q.state ≠ .LookingForOpening ∧ r.length < f.length)) := by
  constructor
  · intro h
    simp [addContent, addContentLoop, fresh, eat, h, strings.HasPrefix, strings.Split,
      strings.explodeLoop]
  · intro h
    have h1 := eat_empty_opening c f h
    have hadd : addContent (fresh [] c) f
        = (match eat
            { state := .Thinking, openingTag := [], closingTag := c,
              acc := strings.TrimLeftFunc
                ((strings.TrimLeftFunc f unicode.IsSpace).drop
                  (utf8.DecodeRuneInString (strings.TrimLeftFunc f unicode.IsSpace)).2)
                unicode.IsSpace } with
          | .error e => .error e
          | .ok (t, r, _, q) => .ok (t, r, q)) := by
      simp only [addContent, addContentLoop, fresh, List.nil_append, h1, if_true]
      cases h2 : eat
          { state := .Thinking, openingTag := [], closingTag := c,
            acc := strings.TrimLeftFunc
              ((strings.TrimLeftFunc f unicode.IsSpace).drop
                (utf8.DecodeRuneInString (strings.TrimLeftFunc f unicode.IsSpace)).2)
              unicode.IsSpace } with
      | error e => rfl
      | ok w =>
        obtain ⟨t2, r2, k2, p2⟩ := w
        cases k2 with
        | false => rfl
        | true =>
          have := (eat_keep _ _ _ _ h2).1
          cases this
    have hall : ∀ t r q, addContent (fresh [] c) f = .ok (t, r, q) →
        q.state ≠ .LookingForOpening ∧ r.length < f.length := by
      intro t r q hres
      rw [hadd] at hres
      cases h2 : eat
          { state := .Thinking, openingTag := [], closingTag := c,
            acc := strings.TrimLeftFunc
              ((strings.TrimLeftFunc f unicode.IsSpace).drop
                (utf8.DecodeRuneInString (strings.TrimLeftFunc f unicode.IsSpace)).2)
              unicode.IsSpace } with
      | error e => rw [h2] at hres; cases hres
      | ok w =>
        obtain ⟨t2, r2, k2, p2⟩ := w
        rw [h2] at hres
        simp only [Except.ok.injEq, Prod.mk.injEq] at hres
        obtain ⟨-, rfl, rfl⟩ := hres
        have hst := eat_state_le _ _ _ _ _ h2
        have hrem := eat_thinking_remaining _ _ _ _ _ rfl h2
        simp only at hrem
        constructor
        · intro hq
          rw [hq] at hst
          simp [thinkingParseState.toNat] at hst
        · have a1 := strings.TrimLeftFunc_length_le
            ((strings.TrimLeftFunc f unicode.IsSpace).drop
              (utf8.DecodeRuneInString (strings.TrimLeftFunc f unicode.IsSpace)).2)
            unicode.IsSpace
          have a5 := strings.TrimLeftFunc_length_le f unicode.IsSpace
          cases htr : strings.TrimLeftFunc f unicode.IsSpace with
          | nil => exact absurd htr h
          | cons b s =>
            rw [htr] at a1 a5 hrem
            have a3 := utf8.DecodeRuneInString_size_pos b s
            rw [List.length_drop] at a1
            simp only [List.length_cons] at a1 a5
            omega
    refine ⟨h1, hadd, hall, ?_⟩
    intro hc
    obtain ⟨t, r, q, h2⟩ := eat_thinking_ok
      { state := .Thinking, openingTag := [], closingTag := c,
        acc := strings.TrimLeftFunc
          ((strings.TrimLeftFunc f unicode.IsSpace).drop
            (utf8.DecodeRuneInString (strings.TrimLeftFunc f unicode.IsSpace)).2)
          unicode.IsSpace } rfl hc
    have hres : addContent (fresh [] c) f = .ok (t, r, q) := by rw [hadd, h2]
    exact ⟨t, r, q, hres, hall t r q hres⟩

/-- C8 as amended, at a whitespace fragment and at "abc": the first rune "a" is consumed,
"bc" is returned as thinking text, and the parser is left in `Thinking`. -/
theorem empty_opening_tag_witness :
    addContent (fresh [] (str "</think>")) (str " ") = .error .panic
    ∧ eat { state := .LookingForOpening, openingTag := [], closingTag := str "</think>",
            acc := str "abc" }
        = .ok ([], [], true,
            { state := .Thinking, openingTag := [], closingTag := str "</think>",
              acc := strings.TrimLeftFunc
                ((strings.TrimLeftFunc (str "abc") unicode.IsSpace).drop
                  (utf8.DecodeRuneInString
                    (strings.TrimLeftFunc (str "abc") unicode.IsSpace)).2)
                unicode.IsSpace })
    ∧ addContent (fresh [] (str "</think>")) (str "abc")
        = .ok (str "bc", [],
            { state := .Thinking, openingTag := [], closingTag := str "</think>", acc := [] })
    ∧ addContent (fresh [] []) (str "a") = .error .panic :=
  ⟨(empty_opening_tag (str "</think>") (str " ")).1 (by decide),
   ((empty_opening_tag (str "</think>") (str "abc")).2 (by decide)).1,
   ((empty_opening_tag (str "</think>") (str "abc")).2 (by decide)).2.1.trans (by decide),
   ((empty_opening_tag [] (str "a")).2 (by decide)).2.1.trans (by decide)⟩

end server

/-! ## Lemmas on the flusher -/

namespace utf8

/-- A valid encoding at the head of `s` is between one byte and `s.length` bytes wide, and
is found again whatever follows `s`. -/
theorem validRuneSize_some (s : Str) (sz : Nat) (h : validRuneSize s = some sz) :
    1 ≤ sz ∧ sz ≤ s.length ∧ ∀ x, validRuneSize (s ++ x) = some sz := by
  cases s with
  | nil => simp [validRuneSize] at h
  | cons s0 t =>
    by_cases h0 : s0.toNat < 0x80
    · simp only [validRuneSize, h0, if_true, Option.some.injEq] at h
      subst h
      simp [validRuneSize, h0]
    · cases hf : first s0.toNat with
      | none => simp [validRuneSize, h0, hf] at h
      | some v =>
        obtain ⟨n, lo, hi⟩ := v
        simp only [List.cons_append, validRuneSize, h0, hf, if_false] at h ⊢
        rcases first_size _ _ _ _ hf with rfl | rfl | rfl
        all_goals
          rcases t with _ | ⟨s1, _ | ⟨s2, _ | ⟨s3, t3⟩⟩⟩ <;>
          simp [isCont] at h ⊢ <;>
          (try (obtain ⟨h1, h2⟩ := h; subst h2; simp [h1])) <;>
          (try omega)

theorem validLoop_nil (n : Nat) : validLoop n [] = true := by
  cases n <;> rfl

/-- The loop of `ValidString` gives the same answer for every budget of at least
`s.length` iterations. -/
theorem validLoop_fuel (n m : Nat) (s : Str) (hn : s.length ≤ n) (hm : s.length ≤ m) :
    validLoop n s = validLoop m s := by
  induction n generalizing m s with
  | zero =>
    have : s = [] := List.eq_nil_of_length_eq_zero (by omega)
    subst this
    rw [validLoop_nil, validLoop_nil]
  | succ n ih =>
    cases s with
    | nil => rw [validLoop_nil, validLoop_nil]
    | cons b t =>
      obtain ⟨m, rfl⟩ : ∃ k, m = k + 1 := ⟨m - 1, by simp at hm; omega⟩
      simp only [validLoop]
      cases hv : validRuneSize (b :: t) with
      | none => rfl
      | some sz =>
        have := validRuneSize_some _ _ hv
        simp only
        apply ih
        · rw [List.length_drop]; simp at hn ⊢; omega
        · rw [List.length_drop]; simp at hm ⊢; omega

theorem ValidString_nil : ValidString [] = true := rfl

/-- The recursion equation of `ValidString` on a non-empty string. -/
theorem ValidString_cons (b : UInt8) (t : Str) :
    ValidString (b :: t) =
      match validRuneSize (b :: t) with
      | none => false
      | some sz => ValidString ((b :: t).drop sz) := by
  simp only [ValidString, List.length_cons, validLoop]
  cases hv : validRuneSize (b :: t) with
  | none => rfl
  | some sz =>
    have := validRuneSize_some _ _ hv
    simp only
    apply validLoop_fuel
    · rw [List.length_drop]; simp; omega
    · exact le_rfl

theorem ValidString_append_aux (n : Nat) :
    ∀ a b : Str, a.length ≤ n → ValidString a = true → ValidString (a ++ b) = ValidString b := by
  induction n with
  | zero =>
    intro a b hn _
    have : a = [] := List.eq_nil_of_length_eq_zero (by omega)
    subst this; rfl
  | succ n ih =>
    intro a b hn h
    rcases a with _ | ⟨s0, t⟩
    · rfl
    · rw [ValidString_cons] at h
      cases hv : validRuneSize (s0 :: t) with
      | none => rw [hv] at h; cases h
      | some sz =>
        rw [hv] at h
        simp only at h
        obtain ⟨h1, h2, h3⟩ := validRuneSize_some _ _ hv
        rw [List.cons_append, ValidString_cons, ← List.cons_append, h3 b]
        simp only
        rw [List.drop_append_of_le_length h2]
        apply ih _ _ _ h
        rw [List.length_drop]
        simp at hn ⊢; omega

/-- After a valid string, validity of the whole is validity of the rest. -/
theorem ValidString_append (a b : Str) (h : ValidString a = true) :
    ValidString (a ++ b) = ValidString b :=
  ValidString_append_aux a.length a b le_rfl h

end utf8

namespace common

theorem trimLoop_valid (n : Nat) (t : Str) (h : t.length ≤ n) :
    utf8.ValidString (trimLoop n t) = true := by
  induction n generalizing t with
  | zero =>
    have : t = [] := List.eq_nil_of_length_eq_zero (by omega)
    subst this; rfl
  | succ n ih =>
    simp only [trimLoop]
    split
    · apply ih
      rw [List.length_take]; omega
    · rename_i hc
      simp only [Bool.and_eq_true, Bool.not_eq_true', decide_eq_true_eq, not_and, not_lt,
        Nat.le_zero_eq] at hc
      cases hv : utf8.ValidString t with
      | true => rfl
      | false =>
        have : t = [] := List.eq_nil_of_length_eq_zero (by simpa using hc hv)
        subst this
        cases hv

/-- The trimming loop ends on a valid string. -/
theorem trimInvalid_valid (t : Str) : utf8.ValidString (trimInvalid t) = true :=
  trimLoop_valid _ _ le_rfl

theorem trimLoop_isPrefix (n : Nat) (t : Str) : trimLoop n t <+: t := by
  induction n generalizing t with
  | zero => exact List.prefix_refl _
  | succ n ih =>
    simp only [trimLoop]
    split
    · exact (ih _).trans (List.take_prefix _ _)
    · exact List.prefix_refl _

/-- The trimming loop returns a prefix of its argument. -/
theorem trimInvalid_isPrefix (t : Str) : trimInvalid t <+: t := trimLoop_isPrefix _ _

theorem trimInvalid_append_drop (t : Str) :
    trimInvalid t ++ t.drop (trimInvalid t).length = t := by
  have h := List.prefix_iff_eq_take.mp (trimInvalid_isPrefix t)
  conv_lhs => lhs; rw [h]
  exact List.take_append_drop _ _

/-- Every response passed to `Send` by the main loop has valid UTF-8 content. -/
theorem flushLoop_sent_valid {σ : Type} (seq : ResponseSequence σ) (n : Nat) (hd : Bool)
    (di : Int) (l : List CompletionResponse) :
    ∀ (i : Nat) (carry : Str) (st : σ),
      ∀ r ∈ sent (flushLoop seq n hd di i l carry st).2.2, utf8.ValidString r.Content = true := by
  induction l with
  | nil =>
    intro i carry st r hr
    simp [flushLoop, sent] at hr
  | cons resp rest ih =>
    intro i carry st r hr
    simp only [flushLoop] at hr
    split at hr
    · rename_i hv
      split at hr
      · simp only [sent, List.mem_singleton] at hr
        subst hr; exact hv
      · simp only [sent, List.mem_cons] at hr
        rcases hr with rfl | hr
        · exact hv
        · exact ih _ _ _ r hr
    · split at hr
      · split at hr
        · simp only [sent, List.mem_singleton] at hr
          subst hr; exact trimInvalid_valid _
        · simp only [sent, List.mem_cons] at hr
          rcases hr with rfl | hr
          · exact trimInvalid_valid _
          · exact ih _ _ _ r hr
      · split at hr
        · split at hr
          · simp only [sent, List.mem_singleton] at hr
            subst hr; exact trimInvalid_valid _
          · simp only [sent, List.mem_cons] at hr
            rcases hr with rfl | hr
            · exact trimInvalid_valid _
            · exact ih _ _ _ r hr
        · exact ih _ _ _ r hr

end common

namespace common

theorem contents_nil : contents [] = [] := rfl

theorem contents_cons (r : CompletionResponse) (rs : List CompletionResponse) :
    contents (r :: rs) = r.Content ++ contents rs := by
  simp [contents]

/-- When no response before the last is `Done`, the first `Done` response, if there is
one, is the last. -/
theorem findDone_last (l : List CompletionResponse) (k : Nat)
    (h : ∀ r ∈ l.dropLast, r.Done = false) (hd : (findDone l k).1 = true) :
    (findDone l k).2 = ((k + l.length - 1 : Nat) : Int) := by
  induction l generalizing k with
  | nil => simp [findDone] at hd
  | cons r rest ih =>
    cases rest with
    | nil =>
      simp only [findDone] at hd ⊢
      split
      · simp
      · rename_i hn
        simp [hn] at hd
    | cons r2 rest2 =>
      have hr : r.Done = false := h r (by simp [List.dropLast])
      have e : findDone (r :: r2 :: rest2) k = findDone (r2 :: rest2) (k + 1) := by
        conv_lhs => rw [findDone]
        simp [hr]
      rw [e] at hd ⊢
      rw [ih (k + 1) (fun x hx => h x (by simp [List.dropLast] at hx ⊢; exact Or.inr hx)) hd]
      simp only [List.length_cons]
      congr 1
      omega

/-- With a sink that accepts everything, and the only response that can be trimmed being
the last, the main loop sends the carried bytes and all pending content, provided they
form valid UTF-8. -/
theorem flushLoop_contents {σ : Type} (seq : ResponseSequence σ)
    (hsend : ∀ s r, (seq.Send s r).1 = true) (n : Nat) (hd : Bool) (di : Int)
    (hdi : hd = true → di = ((n - 1 : Nat) : Int)) (l : List CompletionResponse) :
    ∀ (i : Nat) (carry : Str) (st : σ), i + l.length = n → (l = [] → carry = []) →
      utf8.ValidString (carry ++ contents l) = true →
      contents (sent (flushLoop seq n hd di i l carry st).2.2) = carry ++ contents l := by
  induction l with
  | nil =>
    intro i carry st _ hc _
    simp [flushLoop, sent, contents_nil, hc rfl]
  | cons resp rest ih =>
    intro i carry st hlen _ hv
    rw [contents_cons] at hv ⊢
    rw [← List.append_assoc] at hv ⊢
    simp only [List.length_cons] at hlen
    simp only [flushLoop, hsend, Bool.not_true, Bool.false_eq_true, if_false]
    split
    · rename_i hval
      have hrest : utf8.ValidString ([] ++ contents rest) = true := by
        rw [utf8.ValidString_append _ _ hval] at hv
        exact hv
      simp only [sent, contents_cons]
      rw [ih (i + 1) [] _ (by omega) (fun _ => rfl) hrest]
      simp
    · rename_i hinv
      split
      · rename_i hcond
        exfalso
        have hi : i = n - 1 := by
          simp only [Bool.or_eq_true, decide_eq_true_eq, Bool.and_eq_true] at hcond
          rcases hcond with h1 | ⟨h1, h2⟩
          · exact h1
          · rw [hdi h1] at h2
            exact_mod_cast h2
        have hnil : rest = [] := List.eq_nil_of_length_eq_zero (by omega)
        subst hnil
        rw [contents_nil, List.append_nil] at hv
        exact hinv hv
      · rename_i hcond
        have hne : rest ≠ [] := by
          intro hnil
          subst hnil
          simp only [Bool.or_eq_true, decide_eq_true_eq, Bool.and_eq_true, not_or] at hcond
          simp only [List.length_nil] at hlen
          exact hcond.1 (by omega)
        have hsplit := trimInvalid_append_drop (carry ++ resp.Content)
        split
        · have hrest : utf8.ValidString
              ((carry ++ resp.Content).drop (trimInvalid (carry ++ resp.Content)).length
                ++ contents rest) = true := by
            rw [← hsplit, List.append_assoc,
              utf8.ValidString_append _ _ (trimInvalid_valid _)] at hv
            exact hv
          simp only [sent, contents_cons]
          rw [ih (i + 1) _ _ (by omega) (fun h => absurd h hne) hrest, ← List.append_assoc, hsplit]
        · exact ih (i + 1) _ _ (by omega) (fun h => absurd h hne) hv

/-! ## The flusher: claims -/

/-- C9: UTF-8 safety of the flusher. For every list of pending responses and every
behaviour of the sequence, every response that `FlushPending` passes to `Send` has a
`Content` that is valid UTF-8. -/
theorem flushPending_sent_valid {σ : Type} (seq : ResponseSequence σ) (st : σ) :
    ∀ r ∈ sent (FlushPending seq st).2.2, utf8.ValidString r.Content = true := by
  intro r hr
  simp only [FlushPending] at hr
  split at hr
  · simp [sent] at hr
  · exact flushLoop_sent_valid seq _ _ _ _ _ _ _ r hr

/-- C9, at the test `incomplete_unicode_at_end_with_done`: the incomplete emoji of the
last response is trimmed away. -/
theorem flushPending_sent_valid_witness :
    sent (FlushPending testSequence
        ([⟨str "Hello", false, 0⟩, ⟨[0xF0, 0x9F], true, 0⟩], [])).2.2
      = [⟨str "Hello", false, 0⟩, ⟨[], true, 0⟩]
    ∧ utf8.ValidString (CompletionResponse.Content ⟨[], true, 0⟩) = true :=
  ⟨by decide,
   flushPending_sent_valid testSequence
     ([⟨str "Hello", false, 0⟩, ⟨[0xF0, 0x9F], true, 0⟩], []) ⟨[], true, 0⟩ (by decide)⟩

/-- C10: carry-forward loses nothing when characters are merely split. For a non-empty
list of pending responses in which no response before the last is `Done` and whose
contents concatenate to valid UTF-8, and a sink that accepts every `Send`, the contents
sent by `FlushPending` concatenate to the concatenation of the pending contents. -/
theorem flushPending_contents {σ : Type} (seq : ResponseSequence σ) (st : σ)
    (hne : seq.Pending st ≠ [])
    (hdone : ∀ r ∈ (seq.Pending st).dropLast, r.Done = false)
    (hvalid : utf8.ValidString (contents (seq.Pending st)) = true)
    (hsend : ∀ s r, (seq.Send s r).1 = true) :
    contents (sent (FlushPending seq st).2.2) = contents (seq.Pending st) := by
  have hlen : (seq.Pending st).length ≠ 0 := fun h => hne (List.eq_nil_of_length_eq_zero h)
  simp only [FlushPending, hlen, if_false]
  have := flushLoop_contents seq hsend (seq.Pending st).length
    (findDone (seq.Pending st) 0).1 (findDone (seq.Pending st) 0).2
    (fun h => by
      rw [findDone_last _ 0 hdone h]
      simp)
    (seq.Pending st) 0 [] st (by simp) (fun _ => rfl) (by simpa using hvalid)
  simpa using this

/-- C10, at the test `split_unicode_across_responses`: "Hello " with the first two bytes
of an emoji, then its last two bytes with " world!", are sent as "Hello " and
"😀 world!". -/
theorem flushPending_contents_witness :
    sent (FlushPending testSequence
        ([⟨str "Hello " ++ [0xF0, 0x9F], false, 0⟩, ⟨[0x98, 0x80] ++ str " world!", true, 0⟩],
          [])).2.2
      = [⟨str "Hello ", false, 0⟩, ⟨str "😀 world!", true, 0⟩]
    ∧ contents (sent (FlushPending testSequence
        ([⟨str "Hello " ++ [0xF0, 0x9F], false, 0⟩, ⟨[0x98, 0x80] ++ str " world!", true, 0⟩],
          [])).2.2)
      = contents
          [⟨str "Hello " ++ [0xF0, 0x9F], false, 0⟩, ⟨[0x98, 0x80] ++ str " world!", true, 0⟩] :=
  ⟨by decide,
   flushPending_contents testSequence
     ([⟨str "Hello " ++ [0xF0, 0x9F], false, 0⟩, ⟨[0x98, 0x80] ++ str " world!", true, 0⟩], [])
     (by decide) (by decide) (by decide) (fun _ _ => rfl)⟩

end common

/-! ## The flusher: terminal records, order, stop signal -/

namespace common

theorem trimLoop_of_valid (n : Nat) (t : Str) (h : utf8.ValidString t = true) :
    trimLoop n t = t := by
  cases n with
  | zero => rfl
  | succ n => simp [trimLoop, h]

/-- A valid string is not trimmed. -/
theorem trimInvalid_of_valid (t : Str) (h : utf8.ValidString t = true) : trimInvalid t = t :=
  trimLoop_of_valid _ _ h

/-- The search for the `Done` response stops at the first one. -/
theorem findDone_first (pre post : List CompletionResponse) (r : CompletionResponse) (k : Nat)
    (hpre : ∀ x ∈ pre, x.Done = false) (hr : r.Done = true) :
    findDone (pre ++ r :: post) k = (true, ((k + pre.length : Nat) : Int)) := by
  induction pre generalizing k with
  | nil => simp [findDone, hr]
  | cons x pre ih =>
    have hx : x.Done = false := hpre x (by simp)
    rw [List.cons_append, findDone]
    simp only [hx, Bool.false_eq_true, if_false]
    rw [ih (k + 1) (fun y hy => hpre y (by simp [hy]))]
    simp only [List.length_cons, Prod.mk.injEq, true_and]
    congr 1
    omega

/-- The trimming loop stops at the longest valid prefix: it returns the first `k` bytes of
the text, these are valid UTF-8, and no longer prefix of the text is. -/
theorem trimLoop_longest (n : Nat) (t : Str) (h : t.length ≤ n) :
    ∃ k, k ≤ t.length ∧ trimLoop n t = t.take k ∧ utf8.ValidString (t.take k) = true ∧
      ∀ j, k < j → j ≤ t.length → utf8.ValidString (t.take j) = false := by
  induction n generalizing t with
  | zero =>
    have : t = [] := List.eq_nil_of_length_eq_zero (by omega)
    subst this
    exact ⟨0, le_rfl, rfl, by decide, fun j h1 h2 => by simp at h2; omega⟩
  | succ n ih =>
    simp only [trimLoop]
    split
    · rename_i hc
      simp only [Bool.and_eq_true, Bool.not_eq_true', decide_eq_true_eq] at hc
      obtain ⟨k, hk, heq, hv, hmax⟩ := ih (t.take (t.length - 1))
        (by simp only [List.length_take]; omega)
      simp only [List.length_take] at hk
      have hk2 : k ≤ t.length - 1 := by omega
      have htk : ∀ j, j ≤ t.length - 1 → (t.take (t.length - 1)).take j = t.take j := by
        intro j hj
        rw [List.take_take, Nat.min_eq_left hj]
      refine ⟨k, by omega, by rw [heq, htk k hk2], by rw [← htk k hk2]; exact hv, ?_⟩
      intro j hj hjl
      by_cases hlast : j = t.length
      · subst hlast
        rw [List.take_length]
        exact hc.1
      · have hj2 : j ≤ t.length - 1 := by omega
        rw [← htk j hj2]
        exact hmax j hj (by simp only [List.length_take]; omega)
    · rename_i hc
      have hv : utf8.ValidString t = true := by
        simp only [Bool.and_eq_true, Bool.not_eq_true', decide_eq_true_eq, not_and,
          Nat.not_lt, Nat.le_zero_eq] at hc
        cases hval : utf8.ValidString t with
        | true => rfl
        | false =>
          have : t = [] := List.eq_nil_of_length_eq_zero (by simpa using hc hval)
          subst this
          exact absurd hval (by decide)
      exact ⟨t.length, le_rfl, by rw [List.take_length], by rw [List.take_length]; exact hv,
        fun j h1 h2 => by omega⟩

/-- The trimming of `FlushPending` keeps the longest valid prefix of the text. -/
theorem trimInvalid_longest (t : Str) :
    ∃ k, k ≤ t.length ∧ trimInvalid t = t.take k ∧ utf8.ValidString (t.take k) = true ∧
      ∀ j, k < j → j ≤ t.length → utf8.ValidString (t.take j) = false :=
  trimLoop_longest t.length t le_rfl

/-- With a sink that accepts everything, the main loop reaches the first `Done` response
and sends it, trimmed, after responses that are not `Done`; what was sent before it and
the bytes carried to it make up the carried bytes and the contents of the responses before
it. -/
theorem flushLoop_done_sent {σ : Type} (seq : ResponseSequence σ)
    (hsend : ∀ s x, (seq.Send s x).1 = true) (n : Nat) (post : List CompletionResponse)
    (r : CompletionResponse) (hr : r.Done = true) (pre : List CompletionResponse) :
    ∀ (i : Nat) (carry : Str) (st : σ), (∀ x ∈ pre, x.Done = false) →
      i + (pre ++ r :: post).length = n →
      ∃ before after,
        sent (flushLoop seq n true ((i + pre.length : Nat) : Int) i (pre ++ r :: post)
          carry st).2.2
          = before ++ { Content := trimInvalid (carryOver carry pre ++ r.Content), Done := true,
                        DoneReason := r.DoneReason } :: after
        ∧ (∀ x ∈ before, x.Done = false)
        ∧ contents before ++ carryOver carry pre = carry ++ contents pre := by
  induction pre with
  | nil =>
    intro i carry st _ _
    simp only [List.nil_append, List.length_nil, Nat.add_zero, carryOver, flushLoop, hsend,
      Bool.not_true, Bool.false_eq_true, if_false, Bool.true_and, decide_True, Bool.or_true,
      if_true]
    split
    · rename_i hv
      simp only [sent, List.nil_append, trimInvalid_of_valid _ hv, hr]
      exact ⟨[], _, rfl, by simp, by simp [contents_nil]⟩
    · simp only [sent, List.nil_append, hr]
      exact ⟨[], _, rfl, by simp, by simp [contents_nil]⟩
  | cons x pre ih =>
    intro i carry st hpre hlen
    have hx : x.Done = false := hpre x (by simp)
    have hpre2 : ∀ y ∈ pre, y.Done = false := fun y hy => hpre y (by simp [hy])
    simp only [List.cons_append, List.length_cons] at hlen ⊢
    have hidx : ((i + (pre.length + 1) : Nat) : Int) = ((i + 1 + pre.length : Nat) : Int) := by
      congr 1; omega
    have hcond : (decide (i = n - 1) || (true && decide ((i : Int) = ((i + (pre.length + 1) : Nat) : Int))))
        = false := by
      simp only [Bool.true_and, Bool.or_eq_false_iff, decide_eq_false_iff_not]
      constructor
      · simp only [List.length_append, List.length_cons] at hlen
        omega
      · intro h
        have : i = i + (pre.length + 1) := by exact_mod_cast h
        omega
    simp only [flushLoop, carryOver, hsend, Bool.not_true, Bool.false_eq_true, if_false, hcond]
    rw [hidx]
    split
    · obtain ⟨before, after, h1, h2, h3⟩ := ih (i + 1) [] (seq.Send st
        { Content := carry ++ x.Content, Done := x.Done, DoneReason := x.DoneReason }).2 hpre2
        (by omega)
      refine ⟨{ x with Content := carry ++ x.Content } :: before, after, ?_, ?_, ?_⟩
      · simp only [sent, List.cons_append, h1]
      · intro y hy
        simp only [List.mem_cons] at hy
        rcases hy with rfl | hy
        · exact hx
        · exact h2 y hy
      · rw [contents_cons, contents_cons, List.append_assoc, h3]
        simp
    · split
      · obtain ⟨before, after, h1, h2, h3⟩ := ih (i + 1)
          ((carry ++ x.Content).drop (trimInvalid (carry ++ x.Content)).length)
          (seq.Send st
            { Content := trimInvalid (carry ++ x.Content), Done := x.Done,
              DoneReason := x.DoneReason }).2 hpre2 (by omega)
        refine ⟨{ x with Content := trimInvalid (carry ++ x.Content) } :: before, after,
          ?_, ?_, ?_⟩
        · simp only [sent, List.cons_append, h1]
        · intro y hy
          simp only [List.mem_cons] at hy
          rcases hy with rfl | hy
          · exact hx
          · exact h2 y hy
        · rw [contents_cons, contents_cons, List.append_assoc, h3, ← List.append_assoc,
            trimInvalid_append_drop, List.append_assoc]
      · obtain ⟨before, after, h1, h2, h3⟩ := ih (i + 1) (carry ++ x.Content) st hpre2
          (by omega)
        exact ⟨before, after, h1, h2, by rw [h3, contents_cons, List.append_assoc]⟩

/-- What the main loop sends is, in order, a subsequence of the responses it is given,
each sent response differing from its source at most in `Content`. -/
theorem flushLoop_frame {σ : Type} (seq : ResponseSequence σ) (n : Nat) (hd : Bool) (di : Int)
    (l : List CompletionResponse) :
    ∀ (i : Nat) (carry : Str) (st : σ),
      ∃ src, List.Sublist src l ∧
        List.Forall₂ (fun s p => s = { p with Content := s.Content })
          (sent (flushLoop seq n hd di i l carry st).2.2) src := by
  induction l with
  | nil =>
    intro i carry st
    exact ⟨[], List.Sublist.slnil, by simp [flushLoop, sent]⟩
  | cons resp rest ih =>
    intro i carry st
    have hsend : ∀ (c : Str) (carry2 : Str),
        ∃ src, List.Sublist src (resp :: rest) ∧
          List.Forall₂ (fun s p => s = { p with Content := s.Content })
            (sent (if (!(seq.Send st { resp with Content := c }).1) = true then
                (false, (seq.Send st { resp with Content := c }).2,
                  [Event.send { resp with Content := c }])
              else
                ((flushLoop seq n hd di (i + 1) rest carry2
                    (seq.Send st { resp with Content := c }).2).1,
                 (flushLoop seq n hd di (i + 1) rest carry2
                    (seq.Send st { resp with Content := c }).2).2.1,
                 Event.send { resp with Content := c }
                   :: (flushLoop seq n hd di (i + 1) rest carry2
                        (seq.Send st { resp with Content := c }).2).2.2)).2.2) src := by
      intro c carry2
      split
      · refine ⟨[resp], ?_, ?_⟩
        · exact List.Sublist.cons₂ _ (List.nil_sublist _)
        · simp [sent]
      · obtain ⟨src, h1, h2⟩ := ih (i + 1) carry2 (seq.Send st { resp with Content := c }).2
        refine ⟨resp :: src, List.Sublist.cons₂ _ h1, ?_⟩
        simp only [sent]
        exact List.Forall₂.cons rfl h2
    simp only [flushLoop]
    split
    · exact hsend _ _
    · split
      · exact hsend _ _
      · split
        · exact hsend _ _
        · obtain ⟨src, h1, h2⟩ := ih (i + 1) (carry ++ resp.Content) st
          exact ⟨src, List.Sublist.cons _ h1, h2⟩

/-- The trace of the main loop: either every `Send` was accepted and the trace ends with
the one call of `Clear`, or the trace ends with the `Send` that was refused and `Clear`
was not called. -/
theorem flushLoop_trace {σ : Type} (seq : ResponseSequence σ) (n : Nat) (hd : Bool) (di : Int)
    (l : List CompletionResponse) :
    ∀ (i : Nat) (carry : Str) (st : σ),
      ((flushLoop seq n hd di i l carry st).1 = true ∧
        ∃ rs : List CompletionResponse, (flushLoop seq n hd di i l carry st).2.2 = rs.map Event.send ++ [Event.clear] ∧
          sendResults seq st (flushLoop seq n hd di i l carry st).2.2
            = List.replicate rs.length true)
      ∨ ((flushLoop seq n hd di i l carry st).1 = false ∧
        ∃ (rs : List CompletionResponse) (r : CompletionResponse), (flushLoop seq n hd di i l carry st).2.2 = rs.map Event.send ++ [Event.send r] ∧
          sendResults seq st (flushLoop seq n hd di i l carry st).2.2
            = List.replicate rs.length true ++ [false]) := by
  induction l with
  | nil =>
    intro i carry st
    exact Or.inl ⟨rfl, [], rfl, rfl⟩
  | cons resp rest ih =>
    intro i carry st
    have hsend : ∀ (c : Str) (carry2 : Str) (out : Bool × σ × List Event),
        out = (if (!(seq.Send st { resp with Content := c }).1) = true then
                (false, (seq.Send st { resp with Content := c }).2,
                  [Event.send { resp with Content := c }])
              else
                ((flushLoop seq n hd di (i + 1) rest carry2
                    (seq.Send st { resp with Content := c }).2).1,
                 (flushLoop seq n hd di (i + 1) rest carry2
                    (seq.Send st { resp with Content := c }).2).2.1,
                 Event.send { resp with Content := c }
                   :: (flushLoop seq n hd di (i + 1) rest carry2
                        (seq.Send st { resp with Content := c }).2).2.2)) →
        (out.1 = true ∧ ∃ rs : List CompletionResponse, out.2.2 = rs.map Event.send ++ [Event.clear] ∧
            sendResults seq st out.2.2 = List.replicate rs.length true)
        ∨ (out.1 = false ∧ ∃ (rs : List CompletionResponse) (r : CompletionResponse), out.2.2 = rs.map Event.send ++ [Event.send r] ∧
            sendResults seq st out.2.2 = List.replicate rs.length true ++ [false]) := by
      intro c carry2 out hout
      cases hs : (seq.Send st { resp with Content := c }).1 with
      | false =>
        rw [hs] at hout
        simp only [Bool.not_false, if_true] at hout
        subst hout
        exact Or.inr ⟨rfl, [], _, rfl, by simp [sendResults, hs]⟩
      | true =>
        rw [hs] at hout
        simp only [Bool.not_true, Bool.false_eq_true, if_false] at hout
        subst hout
        rcases ih (i + 1) carry2 (seq.Send st { resp with Content := c }).2 with
          ⟨h1, rs, h2, h3⟩ | ⟨h1, rs, r, h2, h3⟩
        · refine Or.inl ⟨h1, { resp with Content := c } :: rs, ?_, ?_⟩
          · simp only [h2, List.map_cons, List.cons_append]
          · simp only [sendResults, hs, h3, List.length_cons, List.replicate_succ]
        · refine Or.inr ⟨h1, { resp with Content := c } :: rs, r, ?_, ?_⟩
          · simp only [h2, List.map_cons, List.cons_append]
          · simp only [sendResults, hs, h3, List.length_cons, List.replicate_succ,
              List.cons_append]
    simp only [flushLoop]
    split
    · exact hsend _ _ _ rfl
    · split
      · exact hsend _ _ _ rfl
      · split
        · exact hsend _ _ _ rfl
        · exact ih (i + 1) (carry ++ resp.Content) st

/-- C11: terminal records are always emitted. When the pending list is `pre ++ r :: post`
with `r` its first `Done` response, and the sink accepts every `Send`, `FlushPending`
sends, after responses `before` that are not `Done`, the response `r` with `Done = true`
and its `DoneReason` unchanged. With `carry` the bytes of the responses before `r` that
were not sent (the contents of `before` followed by `carry` are the contents of `pre`),
the `Content` sent for `r` is the first `k` bytes of `carry ++ r.Content`, where `k` is
the largest length at which that text is valid UTF-8: the trailing bytes are removed one
at a time until the text is valid, possibly all of them. -/
theorem flushPending_done_sent {σ : Type} (seq : ResponseSequence σ) (st : σ)
    (pre post : List CompletionResponse) (r : CompletionResponse)
    (hp : seq.Pending st = pre ++ r :: post) (hpre : ∀ x ∈ pre, x.Done = false)
    (hr : r.Done = true) (hsend : ∀ s x, (seq.Send s x).1 = true) :
    ∃ before after carry k,
      sent (FlushPending seq st).2.2
        = before ++ { Content := (carry ++ r.Content).take k, Done := true,
                      DoneReason := r.DoneReason } :: after
      ∧ (∀ x ∈ before, x.Done = false)
      ∧ contents before ++ carry = contents pre
      ∧ carry = carryOver [] pre
      ∧ k ≤ (carry ++ r.Content).length
      ∧ utf8.ValidString ((carry ++ r.Content).take k) = true
      ∧ ∀ j, k < j → j ≤ (carry ++ r.Content).length →
          utf8.ValidString ((carry ++ r.Content).take j) = false := by
  have hlen : (seq.Pending st).length ≠ 0 := by rw [hp]; simp
  obtain ⟨k, hk, heq, hv, hmax⟩ := trimInvalid_longest (carryOver [] pre ++ r.Content)
  obtain ⟨before, after, h1, h2, h3⟩ :=
    flushLoop_done_sent seq hsend (pre ++ r :: post).length post r hr pre 0 [] st hpre
      (by simp)
  refine ⟨before, after, carryOver [] pre, k, ?_, h2, by simpa using h3, rfl, hk, hv, hmax⟩
  simp only [FlushPending, hlen, if_false]
  rw [hp, findDone_first pre post r 0 hpre hr, ← heq]
  exact h1

/-- C11, at the pending list of the test, whose last response is `Done` with an incomplete
emoji as content: it is sent with empty content, `Done` and its `DoneReason`. On a second
list the `Done` response comes second: the byte carried over from the first response
completes a character, and only the two bytes of the incomplete character at the end are
removed. -/
theorem flushPending_done_sent_witness :
    (∃ before after carry k,
      sent (FlushPending testSequence
          ([⟨str "Hello", false, 0⟩, ⟨[0xF0, 0x9F], true, 1⟩], [])).2.2
        = before ++ { Content := (carry ++ [0xF0, 0x9F]).take k, Done := true,
                      DoneReason := 1 } :: after
      ∧ (∀ x ∈ before, x.Done = false)
      ∧ contents before ++ carry = contents [⟨str "Hello", false, 0⟩]
      ∧ carry = carryOver [] [⟨str "Hello", false, 0⟩]
      ∧ k ≤ (carry ++ [0xF0, 0x9F]).length
      ∧ utf8.ValidString ((carry ++ [0xF0, 0x9F]).take k) = true
      ∧ ∀ j, k < j → j ≤ (carry ++ [0xF0, 0x9F]).length →
          utf8.ValidString ((carry ++ [0xF0, 0x9F]).take j) = false)
    ∧ sent (FlushPending testSequence
          ([⟨str "Hello", false, 0⟩, ⟨[0xF0, 0x9F], true, 1⟩], [])).2.2
        = [⟨str "Hello", false, 0⟩, ⟨[], true, 1⟩]
    ∧ sent (FlushPending testSequence
          ([⟨[0x48, 0xC3], false, 0⟩, ⟨[0xA9, 0x21, 0xF0, 0x9F], true, 2⟩,
            ⟨str "x", false, 0⟩], [])).2.2
        = [⟨[0x48], false, 0⟩, ⟨[0xC3, 0xA9, 0x21], true, 2⟩, ⟨str "x", false, 0⟩] :=
  ⟨flushPending_done_sent testSequence
      ([⟨str "Hello", false, 0⟩, ⟨[0xF0, 0x9F], true, 1⟩], [])
      [⟨str "Hello", false, 0⟩] [] ⟨[0xF0, 0x9F], true, 1⟩ rfl (by decide) rfl
      (fun _ _ => rfl),
   by decide, by decide⟩

/-- C12: order and frame of the flusher. For every pending list and every behaviour of
the sequence, the responses passed to `Send` correspond, in order, to a subsequence `src`
of the pending list, and each sent response equals its source response in every field
other than `Content`. -/
theorem flushPending_frame {σ : Type} (seq : ResponseSequence σ) (st : σ) :
    ∃ src, List.Sublist src (seq.Pending st) ∧
      List.Forall₂ (fun s p => s = { p with Content := s.Content })
        (sent (FlushPending seq st).2.2) src := by
  simp only [FlushPending]
  split
  · exact ⟨[], List.nil_sublist _, by simp [sent]⟩
  · exact flushLoop_frame seq _ _ _ _ _ _ _

/-- C13: stop signal and consumption. `FlushPending` returns `false` exactly when some
`Send` answered `false`; then the refused `Send` is the last call, every earlier call is
an accepted `Send`, and `Clear` is not called. When it returns `true` on a non-empty
pending list the trace is a run of calls of `Send` followed by exactly one call of `Clear`.
On an empty pending list it returns `true` and makes no call. -/
theorem flushPending_stop_signal {σ : Type} (seq : ResponseSequence σ) (st : σ) :
    ((FlushPending seq st).1 = false ↔
      false ∈ sendResults seq st (FlushPending seq st).2.2)
    ∧ ((FlushPending seq st).1 = false →
      ∃ (rs : List CompletionResponse) (r : CompletionResponse), (FlushPending seq st).2.2 = rs.map Event.send ++ [Event.send r] ∧
        sendResults seq st (FlushPending seq st).2.2 = List.replicate rs.length true ++ [false])
    ∧ ((FlushPending seq st).1 = true → seq.Pending st ≠ [] →
      ∃ rs : List CompletionResponse, (FlushPending seq st).2.2 = rs.map Event.send ++ [Event.clear])
    ∧ (seq.Pending st = [] →
      (FlushPending seq st).1 = true ∧ (FlushPending seq st).2.2 = []) := by
  by_cases hl : (seq.Pending st).length = 0
  · have hnil : seq.Pending st = [] := List.eq_nil_of_length_eq_zero hl
    simp [FlushPending, hl, hnil, sendResults]
  · have hne : seq.Pending st ≠ [] := fun h => hl (by simp [h])
    simp only [FlushPending, hl, if_false, hne, false_implies, and_true, ne_eq,
      not_false_eq_true, true_implies]
    rcases flushLoop_trace seq (seq.Pending st).length (findDone (seq.Pending st) 0).1
        (findDone (seq.Pending st) 0).2 (seq.Pending st) 0 [] st with
      ⟨h1, rs, h2, h3⟩ | ⟨h1, rs, r, h2, h3⟩
    · refine ⟨?_, ?_, ?_⟩
      · rw [h1, h3]
        simp
      · rw [h1]
        intro h
        cases h
      · intro _
        exact ⟨rs, h2⟩
    · refine ⟨?_, ?_, ?_⟩
      · rw [h1, h3]
        simp
      · intro _
        exact ⟨rs, r, h2, h3⟩
      · rw [h1]
        intro h
        cases h

/-- C13, at a sink that stops the stream after one delivery and at a sink that accepts
everything. -/
theorem flushPending_stop_signal_witness :
    (∃ (rs : List CompletionResponse) (r : CompletionResponse),
      (FlushPending (limitedSequence 1)
          ([⟨str "a", false, 0⟩, ⟨str "b", false, 0⟩, ⟨str "c", true, 0⟩], [])).2.2
        = rs.map Event.send ++ [Event.send r] ∧
      sendResults (limitedSequence 1)
          ([⟨str "a", false, 0⟩, ⟨str "b", false, 0⟩, ⟨str "c", true, 0⟩], [])
          (FlushPending (limitedSequence 1)
            ([⟨str "a", false, 0⟩, ⟨str "b", false, 0⟩, ⟨str "c", true, 0⟩], [])).2.2
        = List.replicate rs.length true ++ [false])
    ∧ (∃ rs : List CompletionResponse,
      (FlushPending testSequence
          ([⟨str "a", false, 0⟩, ⟨str "b", false, 0⟩, ⟨str "c", true, 0⟩], [])).2.2
        = rs.map Event.send ++ [Event.clear]) :=
  ⟨(flushPending_stop_signal (limitedSequence 1)
      ([⟨str "a", false, 0⟩, ⟨str "b", false, 0⟩, ⟨str "c", true, 0⟩], [])).2.1 (by decide),
   (flushPending_stop_signal testSequence
      ([⟨str "a", false, 0⟩, ⟨str "b", false, 0⟩, ⟨str "c", true, 0⟩], [])).2.2.1
      (by decide) (by decide)⟩

end common

/-! ## The tool-call extractor -/

namespace tools

/-- What `checkPrefix` never changes. -/
theorem checkPrefix_frame (p : Parser) (s : Str) :
    (checkPrefix p s).1.prefixStr = p.prefixStr ∧ (checkPrefix p s).1.Done = p.Done ∧
    (checkPrefix p s).1.index = p.index ∧ (checkPrefix p s).1.name = p.name ∧
    (checkPrefix p s).1.arguments = p.arguments ∧
    (checkPrefix p s).1.greedyParse = p.greedyParse := by
  simp only [checkPrefix]
  repeat' split
  all_goals simp

/-- When `checkPrefix` returns no error it has not touched the buffer. -/
theorem checkPrefix_none_sb (p p1 : Parser) (s rest : Str)
    (h : checkPrefix p s = (p1, rest, none)) : p1.sb = p.sb := by
  simp only [checkPrefix] at h
  repeat' split at h
  all_goals
    simp only [Prod.mk.injEq, reduceCtorEq, and_false] at h
    try (obtain ⟨rfl, -, -⟩ := h; rfl)

/-- C14 (defect of the code): the indexes of the tool calls that `Add` returns are not
assigned. With the prefix `<tool>` and a decoder that returns one call with the index 0 at
each attempt, two successive calls of `Add` each return a call whose `Function.Index` is 0,
where the claim requires 0 and then 1; the counter `p.index` itself has advanced to 2. -/
theorem add_returns_unassigned_indexes :
    (addAll (fun _ _ _ => .ok [⟨⟨0, str "get_weather", str "args"⟩⟩])
        (newParser (str "<tool>") (str "name") (str "arguments"))
        [str "<tool>call one", str "<tool>call two"]).1.map
      (fun r => r.1.map (fun tc => tc.Function.Index)) = [[0], [0]]
    ∧ (addAll (fun _ _ _ => .ok [⟨⟨0, str "get_weather", str "args"⟩⟩])
        (newParser (str "<tool>") (str "name") (str "arguments"))
        [str "<tool>call one", str "<tool>call two"]).2.index = 2 := by
  decide

/-- C15: the success postcondition. When `checkPrefix` returns no error on the buffer
`p.sb ++ s`, the parser is greedy or has found its prefix, and the decoder returns `calls`
without error, `Add` returns exactly `calls` with empty content and a nil error, the buffer
is empty afterwards, and `Done` is `true` afterwards if the prefix is empty and unchanged
otherwise. Moreover no call of `Add` resets `Done` from `true` to `false`. -/
theorem add_success (dec : Decoder) (p p1 : Parser) (s rest : Str) (calls : List ToolCall) :
    (s ≠ [] → checkPrefix { p with sb := p.sb ++ s } (p.sb ++ s) = (p1, rest, none) →
      (p1.greedyParse = true ∨ p1.prefixFound = true) →
      dec rest p1.name p1.arguments = .ok calls →
      (Add dec p s).2.1 = calls ∧ (Add dec p s).2.2.1 = [] ∧ (Add dec p s).2.2.2 = none ∧
      (Add dec p s).1.sb = [] ∧
      (Add dec p s).1.Done = (if p.prefixStr = [] then true else p.Done))
    ∧ (p.Done = true → (Add dec p s).1.Done = true) := by
  constructor
  · intro hs hcp hgate hdec
    have hfr := checkPrefix_frame { p with sb := p.sb ++ s } (p.sb ++ s)
    rw [hcp] at hfr
    simp only at hfr
    have hg : (!p1.greedyParse && !p1.prefixFound) = false := by
      rcases hgate with h | h <;> simp [h]
    simp only [Add, hs, if_false, hcp, hg, Bool.false_eq_true, hdec]
    by_cases hpre : p.prefixStr = []
    · have : p1.prefixStr = [] := by rw [hfr.1]; exact hpre
      simp [this, hpre]
    · have : p1.prefixStr ≠ [] := by rw [hfr.1]; exact hpre
      simp [this, hpre, hfr.2.1]
  · intro hd
    by_cases hs : s = []
    · simp [Add, hs, hd]
    · have hfr := checkPrefix_frame { p with sb := p.sb ++ s } (p.sb ++ s)
      simp only at hfr
      have hd1 : (checkPrefix { p with sb := p.sb ++ s } (p.sb ++ s)).1.Done = true := by
        rw [hfr.2.1]; exact hd
      simp only [Add, hs, if_false]
      generalize checkPrefix { p with sb := p.sb ++ s } (p.sb ++ s) = r at hd1
      obtain ⟨q, t, e⟩ := r
      simp only at hd1
      cases e with
      | some e => simp only; split <;> exact hd1
      | none =>
        simp only
        split
        · exact hd1
        · split
          · split
            · exact hd1
            · split <;> split <;> simp_all
          · split <;> simp_all

/-- C15, at a call that completes a tool call after the prefix. -/
theorem add_success_witness :
    (Add (fun _ _ _ => .ok [⟨⟨0, str "get_weather", str "args"⟩⟩])
        (newParser (str "<tool>") (str "name") (str "arguments")) (str "<tool>call")).2.1
      = [⟨⟨0, str "get_weather", str "args"⟩⟩]
    ∧ (Add (fun _ _ _ => .ok [⟨⟨0, str "get_weather", str "args"⟩⟩])
        (newParser (str "<tool>") (str "name") (str "arguments")) (str "<tool>call")).2.2.1 = []
    ∧ (Add (fun _ _ _ => .ok [⟨⟨0, str "get_weather", str "args"⟩⟩])
        (newParser (str "<tool>") (str "name") (str "arguments")) (str "<tool>call")).2.2.2 = none
    ∧ (Add (fun _ _ _ => .ok [⟨⟨0, str "get_weather", str "args"⟩⟩])
        (newParser (str "<tool>") (str "name") (str "arguments")) (str "<tool>call")).1.sb = []
    ∧ (Add (fun _ _ _ => .ok [⟨⟨0, str "get_weather", str "args"⟩⟩])
        (newParser (str "<tool>") (str "name") (str "arguments")) (str "<tool>call")).1.Done
      = (if (newParser (str "<tool>") (str "name") (str "arguments")).prefixStr = [] then true
         else (newParser (str "<tool>") (str "name") (str "arguments")).Done) :=
  (add_success (fun _ _ _ => .ok [⟨⟨0, str "get_weather", str "args"⟩⟩])
    (newParser (str "<tool>") (str "name") (str "arguments"))
    { newParser (str "<tool>") (str "name") (str "arguments") with
      sb := str "<tool>call", prefixFound := true }
    (str "<tool>call") (str "call") [⟨⟨0, str "get_weather", str "args"⟩⟩]).1
    (by decide) (by decide) (by decide) rfl

/-- C16 fails as stated: with the prefix `<tool>` and the buffer "hi <tool>call", which
does not start with the prefix, has no overlapping tail and contains the prefix at index 3,
`Add` returns a nil error, not `ErrAccumulateMore`; and from the buffer
"hi <tool>call \n" it retains "<tool>call", not the text from the match point onward. -/
theorem add_mid_buffer_not_as_claimed :
    strings.HasPrefix (str "hi <tool>call") (str "<tool>") = false
    ∧ suffixOverlap (str "hi <tool>call") (str "<tool>") = 0
    ∧ strings.Index (str "hi <tool>call") (str "<tool>") = some 3
    ∧ (Add (fun _ _ _ => .error .ErrAccumulateMore)
        (newParser (str "<tool>") (str "name") (str "arguments")) (str "hi <tool>call")).2.2.2
      ≠ some .ErrAccumulateMore
    ∧ (Add (fun _ _ _ => .error .ErrAccumulateMore)
        (newParser (str "<tool>") (str "name") (str "arguments")) (str "hi <tool>call \n")).1.sb
      ≠ (str "hi <tool>call \n").drop 3 := by
  decide

/-- C16 as amended: the prefix found mid-buffer. For a parser with a non-empty prefix and a
call of `Add` whose buffer text `s` (old buffer and fragment) does not start with the
prefix, has no suffix overlapping a prefix of it, and contains it first at index
`idx > 0`, `Add` returns no tool calls, returns `s[:idx]` as content with a nil error, and
retains `strings.TrimSpace(s[idx:])` as the buffer for the next call. -/
theorem add_prefix_mid_buffer (dec : Decoder) (p : Parser) (frag : Str) (idx : Nat)
    (hp : p.prefixStr ≠ []) (hfrag : frag ≠ [])
    (hnp : strings.HasPrefix (p.sb ++ frag) p.prefixStr = false)
    (hov : suffixOverlap (p.sb ++ frag) p.prefixStr = 0)
    (hidx : strings.Index (p.sb ++ frag) p.prefixStr = some idx) (hpos : 0 < idx) :
    Add dec p frag
      = ({ p with sb := strings.TrimSpace ((p.sb ++ frag).drop idx) }, [],
          (p.sb ++ frag).take idx, none) := by
  have hbuf : p.sb ++ frag ≠ [] := by simp [hfrag]
  have hlen := strings.Index_le_length _ _ _ hidx
  have htake : (p.sb ++ frag).take idx ≠ [] := by
    intro h
    have := congrArg List.length h
    rw [List.length_take] at this
    simp only [List.length_nil] at this
    omega
  simp only [Add, hfrag, if_false, checkPrefix, hbuf, hp, strings.CutPrefix, hnp,
    Bool.false_eq_true, hov, Nat.lt_irrefl, gt_iff_lt, hidx, ne_eq, htake, not_false_eq_true,
    if_true]

/-- C16 as amended, at the buffer "hi <tool>call \n". -/
theorem add_prefix_mid_buffer_witness :
    Add (fun _ _ _ => .error .ErrAccumulateMore)
        (newParser (str "<tool>") (str "name") (str "arguments")) (str "hi <tool>call \n")
      = ({ newParser (str "<tool>") (str "name") (str "arguments") with
            sb := strings.TrimSpace ((([] : Str) ++ str "hi <tool>call \n").drop 3) }, [],
          (([] : Str) ++ str "hi <tool>call \n").take 3, none) :=
  add_prefix_mid_buffer _ (newParser (str "<tool>") (str "name") (str "arguments"))
    (str "hi <tool>call \n") 3 (by decide) (by decide) (by decide) (by decide) (by decide)
    (by decide)

/-- C17: the definitive prefix failure. For a parser with `greedyParse = false` and
`prefixFound = false` and a non-empty fragment, when the prefix is empty, or the buffer
does not start with it, has no suffix overlapping a prefix of it and does not contain it,
`Add` returns no calls, empty content and `ErrPrefixNotFound`, and the buffer is empty
afterwards, whatever the decoder is. -/
theorem add_prefix_not_found (dec : Decoder) (p : Parser) (s : Str)
    (hg : p.greedyParse = false) (hf : p.prefixFound = false) (hs : s ≠ [])
    (hno : p.prefixStr = [] ∨
      (strings.HasPrefix (p.sb ++ s) p.prefixStr = false ∧
        suffixOverlap (p.sb ++ s) p.prefixStr = 0 ∧
        strings.Index (p.sb ++ s) p.prefixStr = none)) :
    Add dec p s = ({ p with sb := [] }, [], [], some .ErrPrefixNotFound) := by
  have hbuf : p.sb ++ s ≠ [] := by simp [hs]
  rcases hno with h | ⟨h1, h2, h3⟩
  · simp [Add, hs, checkPrefix, hbuf, h, hg, hf]
  · by_cases hp : p.prefixStr = []
    · simp [Add, hs, checkPrefix, hbuf, hp, hg, hf]
    · simp [Add, hs, checkPrefix, hbuf, hp, strings.CutPrefix, h1, h2, h3, hg, hf]

/-- C17, at a parser that has given up greedy parsing and receives plain text. -/
theorem add_prefix_not_found_witness :
    Add (fun _ _ _ => .ok [⟨⟨0, str "get_weather", str "args"⟩⟩])
        { newParser (str "<tool>") (str "name") (str "arguments") with greedyParse := false }
        (str "plain text")
      = ({ newParser (str "<tool>") (str "name") (str "arguments") with
            greedyParse := false, sb := [] }, [], [], some .ErrPrefixNotFound) :=
  add_prefix_not_found _
    { newParser (str "<tool>") (str "name") (str "arguments") with greedyParse := false }
    (str "plain text") rfl rfl (by decide) (Or.inr (by decide))

/-- C18: the structural decode failure. When `checkPrefix` returns no error on the buffer
`p.sb ++ s`, leaving the text `rest`, the parser is greedy or has found its prefix, and the
decoder returns an error other than `ErrAccumulateMore`, `Add` clears the buffer, sets
`greedyParse = false` and returns no calls; if no prefix was ever matched it returns `rest`
as content with a nil error, and if a prefix was matched it returns empty content with
`ErrAccumulateMore`. -/
theorem add_decode_failure (dec : Decoder) (p p1 : Parser) (s rest : Str) (e : Err)
    (hs : s ≠ []) (hcp : checkPrefix { p with sb := p.sb ++ s } (p.sb ++ s) = (p1, rest, none))
    (hgate : p1.greedyParse = true ∨ p1.prefixFound = true)
    (hdec : dec rest p1.name p1.arguments = .error e) (he : e ≠ .ErrAccumulateMore) :
    (Add dec p s).1.sb = [] ∧ (Add dec p s).1.greedyParse = false ∧ (Add dec p s).2.1 = [] ∧
    (p1.prefixFound = false →
      (Add dec p s).2.2.1 = rest ∧ (Add dec p s).2.2.2 = none) ∧
    (p1.prefixFound = true →
      (Add dec p s).2.2.1 = [] ∧ (Add dec p s).2.2.2 = some .ErrAccumulateMore) := by
  have hg : (!p1.greedyParse && !p1.prefixFound) = false := by
    rcases hgate with h | h <;> simp [h]
  simp only [Add, hs, if_false, hcp, hg, Bool.false_eq_true, hdec, he]
  by_cases hpre : p1.prefixStr = [] <;> by_cases hpf : p1.prefixFound = true <;>
    simp [hpre, hpf]

/-- C18, at a failed decode without a prefix match and at one after a prefix match. -/
theorem add_decode_failure_witness :
    ((Add (fun _ _ _ => .error (.other 1))
        (newParser (str "<tool>") (str "name") (str "arguments")) (str "plain text")).2.2.1
        = str "plain text"
      ∧ (Add (fun _ _ _ => .error (.other 1))
        (newParser (str "<tool>") (str "name") (str "arguments")) (str "plain text")).2.2.2
        = none)
    ∧ ((Add (fun _ _ _ => .error (.other 1))
        (newParser (str "<tool>") (str "name") (str "arguments")) (str "<tool>oops")).2.2.1
        = []
      ∧ (Add (fun _ _ _ => .error (.other 1))
        (newParser (str "<tool>") (str "name") (str "arguments")) (str "<tool>oops")).2.2.2
        = some .ErrAccumulateMore) :=
  ⟨(add_decode_failure (fun _ _ _ => .error (.other 1))
      (newParser (str "<tool>") (str "name") (str "arguments"))
      { newParser (str "<tool>") (str "name") (str "arguments") with sb := str "plain text" }
      (str "plain text") (str "plain text") (.other 1)
      (by decide) (by decide) (by decide) rfl (by decide)).2.2.2.1 rfl,
   (add_decode_failure (fun _ _ _ => .error (.other 1))
      (newParser (str "<tool>") (str "name") (str "arguments"))
      { newParser (str "<tool>") (str "name") (str "arguments") with
        sb := str "<tool>oops", prefixFound := true }
      (str "<tool>oops") (str "oops") (.other 1)
      (by decide) (by decide) (by decide) rfl (by decide)).2.2.2.2 rfl⟩

end tools

namespace strings

/-- An instance at index 0 is a prefix. -/
theorem HasPrefix_of_Index_zero (s sub : Str) (h : Index s sub = some 0) :
    HasPrefix s sub = true := by
  unfold HasPrefix
  cases s with
  | nil =>
    simp only [Index] at h
    split at h
    · assumption
    · cases h
  | cons b t =>
    simp only [Index] at h
    split at h
    · assumption
    · cases hi : Index t sub with
      | none => rw [hi] at h; cases h
      | some m => rw [hi] at h; simp at h

end strings

namespace tools

/-- The result of `checkPrefix` when the string does not start with the prefix and ends
with the beginning of it: the overlapping tail is kept, the rest is handed back. -/
theorem checkPrefix_overlap (p : Parser) (s : Str) (hs : s ≠ []) (hp : p.prefixStr ≠ [])
    (hnp : strings.HasPrefix s p.prefixStr = false) (hk : 0 < suffixOverlap s p.prefixStr) :
    checkPrefix p s
      = ({ p with sb := s.drop (s.length - suffixOverlap s p.prefixStr) },
          s.take (s.length - suffixOverlap s p.prefixStr), some .ErrAccumulateMore) := by
  simp only [checkPrefix, hs, if_false, hp, strings.CutPrefix, hnp]
  simp [hk]

/-- The result of `checkPrefix` when the prefix is found inside the string. -/
theorem checkPrefix_index (p : Parser) (s : Str) (idx : Nat) (hs : s ≠ [])
    (hp : p.prefixStr ≠ []) (hnp : strings.HasPrefix s p.prefixStr = false)
    (hk : suffixOverlap s p.prefixStr = 0) (hidx : strings.Index s p.prefixStr = some idx) :
    checkPrefix p s
      = ({ p with sb := strings.TrimSpace (s.drop idx) }, s.take idx,
          some .ErrAccumulateMore) := by
  simp only [checkPrefix, hs, if_false, hp, strings.CutPrefix, hnp]
  simp [hk, hidx]

/-- The result of `checkPrefix` when it returns no error: the prefix is empty, or the
string starts with it, or the string has no part of it. -/
theorem checkPrefix_pass (p : Parser) (s : Str) (hs : s ≠ [])
    (hc : p.prefixStr = [] ∨ strings.HasPrefix s p.prefixStr = true ∨
      (suffixOverlap s p.prefixStr = 0 ∧ strings.Index s p.prefixStr = none)) :
    checkPrefix p s
      = ({ p with
            prefixFound := p.prefixFound ||
              (decide (p.prefixStr ≠ []) && strings.HasPrefix s p.prefixStr) },
          if p.prefixStr ≠ [] ∧ strings.HasPrefix s p.prefixStr = true then
            s.drop p.prefixStr.length
          else s, none) := by
  obtain ⟨g, pf, sb, pre, i, nm, ar, d⟩ := p
  simp only at hc ⊢
  by_cases hp : pre = []
  · subst hp
    simp [checkPrefix, hs]
  · cases hh : strings.HasPrefix s pre with
    | true => simp [checkPrefix, hs, hp, strings.CutPrefix, hh]
    | false =>
      rcases hc with h | h | ⟨h1, h2⟩
      · exact absurd h hp
      · rw [hh] at h; cases h
      · simp [checkPrefix, hs, hp, strings.CutPrefix, hh, h1, h2]

/-- The result of `Add` when `checkPrefix` answers with an error: no tool calls, the
processed string as content, and `ErrAccumulateMore` only when that content is empty. -/
theorem add_of_checkPrefix_error (dec : Decoder) (p p1 : Parser) (frag c : Str) (e : Err)
    (hfrag : frag ≠ [])
    (h : checkPrefix { p with sb := p.sb ++ frag } (p.sb ++ frag) = (p1, c, some e)) :
    Add dec p frag = (p1, [], c, if c = [] then some .ErrAccumulateMore else none) := by
  simp only [Add, hfrag, if_false, h]
  by_cases hc : c = []
  · rw [if_neg (not_not.mpr hc), if_pos hc, hc]
  · rw [if_pos hc, if_neg hc]

/-- The result of `Add` when `checkPrefix` answers without error and the gate is closed:
the parser is not greedy and has matched no prefix. -/
theorem add_gate_closed (dec : Decoder) (p p1 : Parser) (frag rest : Str) (hfrag : frag ≠ [])
    (h : checkPrefix { p with sb := p.sb ++ frag } (p.sb ++ frag) = (p1, rest, none))
    (hg : p1.greedyParse = false) (hf : p1.prefixFound = false) :
    Add dec p frag = ({ p1 with sb := [] }, [], [], some .ErrPrefixNotFound) := by
  simp [Add, hfrag, h, hg, hf]

/-- The result of `Add` when the decoder is reached and asks for more input. -/
theorem add_decoder_more (dec : Decoder) (p p1 : Parser) (frag rest : Str) (hfrag : frag ≠ [])
    (h : checkPrefix { p with sb := p.sb ++ frag } (p.sb ++ frag) = (p1, rest, none))
    (hg : p1.greedyParse = true ∨ p1.prefixFound = true)
    (hd : dec rest p1.name p1.arguments = .error .ErrAccumulateMore) :
    Add dec p frag = (p1, [], [], some .ErrAccumulateMore) := by
  have hgate : (!p1.greedyParse && !p1.prefixFound) = false := by
    rcases hg with h | h <;> simp [h]
  simp [Add, hfrag, h, hgate, hd]

/-- The result of `Add` when the decoder is reached and fails. -/
theorem add_decoder_fails (dec : Decoder) (p p1 : Parser) (frag rest : Str) (e : Err)
    (hfrag : frag ≠ [])
    (h : checkPrefix { p with sb := p.sb ++ frag } (p.sb ++ frag) = (p1, rest, none))
    (hg : p1.greedyParse = true ∨ p1.prefixFound = true)
    (hd : dec rest p1.name p1.arguments = .error e) (he : e ≠ .ErrAccumulateMore) :
    (Add dec p frag).2.1 = [] ∧ (Add dec p frag).1.sb = [] ∧
    (p1.prefixFound = true →
      (Add dec p frag).2.2.1 = [] ∧ (Add dec p frag).2.2.2 = some .ErrAccumulateMore) ∧
    (p1.prefixFound = false →
      (Add dec p frag).2.2.1 = rest ∧ (Add dec p frag).2.2.2 = none) := by
  have hgate : (!p1.greedyParse && !p1.prefixFound) = false := by
    rcases hg with h | h <;> simp [h]
  simp only [Add, hfrag, if_false, h, hgate, Bool.false_eq_true, hd, he]
  by_cases hpre : p1.prefixStr = [] <;> by_cases hpf : p1.prefixFound = true <;>
    simp [hpre, hpf]

/-- The result of `Add` when the decoder is reached and returns a list of calls. -/
theorem add_decoder_ok (dec : Decoder) (p p1 : Parser) (frag rest : Str)
    (calls : List ToolCall) (hfrag : frag ≠ [])
    (h : checkPrefix { p with sb := p.sb ++ frag } (p.sb ++ frag) = (p1, rest, none))
    (hg : p1.greedyParse = true ∨ p1.prefixFound = true)
    (hd : dec rest p1.name p1.arguments = .ok calls) :
    (Add dec p frag).2.1 = calls ∧ (Add dec p frag).1.sb = [] ∧
    (Add dec p frag).2.2.1 = [] ∧ (Add dec p frag).2.2.2 = none := by
  have hgate : (!p1.greedyParse && !p1.prefixFound) = false := by
    rcases hg with h | h <;> simp [h]
  simp only [Add, hfrag, if_false, h, hgate, Bool.false_eq_true, hd]
  by_cases hpre : p1.prefixStr = [] <;> simp [hpre]

/-- C19 fails as stated: text that fails to become a tool call is dropped. With the prefix
`<tool>` and a decoder that fails, `Add("<tool>not a call")` returns no tool calls and no
content, and leaves the buffer empty: the bytes of "not a call" are neither returned nor
held. -/
theorem add_drops_text_after_prefix :
    (Add (fun _ _ _ => .error .ErrInvalidToolCall)
        (newParser (str "<tool>") (str "name") (str "arguments")) (str "<tool>not a call")).2.1
      = []
    ∧ (Add (fun _ _ _ => .error .ErrInvalidToolCall)
        (newParser (str "<tool>") (str "name") (str "arguments")) (str "<tool>not a call")).2.2.1
      = []
    ∧ (Add (fun _ _ _ => .error .ErrInvalidToolCall)
        (newParser (str "<tool>") (str "name") (str "arguments")) (str "<tool>not a call")).1.sb
      = [] := by
  decide

/-- C19 as amended: where the text goes when `Add` returns no tool calls. For every
parser, non-empty fragment and decoder, with `s` the old buffer followed by the fragment,
`k` the overlap of the end of `s` with the prefix, `found` telling that a prefix was
matched before or that `s` starts with the non-empty prefix, and `rest` the text `s`
without that leading prefix:
(1) if the prefix is not empty, `s` does not start with it and `k > 0`, the content is
`s[:len(s)-k]` and the buffer `s[len(s)-k:]`;
(2) if instead `k = 0` and the prefix first occurs in `s` at `idx`, the content is
`s[:idx]` and the buffer `strings.TrimSpace(s[idx:])`;
(3) otherwise the decoder is reached unless the gate is closed: with `greedyParse` false
and no prefix matched the text is dropped with `ErrPrefixNotFound`; when the decoder asks
for more input the buffer is `s` and nothing is returned; when it fails otherwise the
buffer is cleared and the content is `s` with a nil error if no prefix was matched, but
empty with `ErrAccumulateMore` if one was; when it returns calls, these are returned and
the buffer is cleared.
So when no tool calls are returned, the content followed by the buffer is `s`, or the
prefix was found mid-buffer, or the text is dropped, content and buffer both empty; and it
is dropped exactly in case (3) with the gate closed, with a decoder failure other than
`ErrAccumulateMore` after a matched prefix, or with an empty list from the decoder. -/
theorem add_no_calls_accounting (dec : Decoder) (p : Parser) (frag s rest : Str) (k : Nat)
    (found : Bool) (hfrag : frag ≠ []) (hs : s = p.sb ++ frag)
    (hk : k = suffixOverlap s p.prefixStr)
    (hfound : found = (p.prefixFound ||
      (decide (p.prefixStr ≠ []) && strings.HasPrefix s p.prefixStr)))
    (hrest : rest = if p.prefixStr ≠ [] ∧ strings.HasPrefix s p.prefixStr = true then
      s.drop p.prefixStr.length else s) :
    (p.prefixStr ≠ [] → strings.HasPrefix s p.prefixStr = false → 0 < k →
      (Add dec p frag).2.1 = [] ∧ (Add dec p frag).2.2.1 = s.take (s.length - k) ∧
      (Add dec p frag).1.sb = s.drop (s.length - k))
    ∧ (p.prefixStr ≠ [] → strings.HasPrefix s p.prefixStr = false → k = 0 →
      ∀ idx, strings.Index s p.prefixStr = some idx →
        0 < idx ∧ (Add dec p frag).2.1 = [] ∧ (Add dec p frag).2.2.1 = s.take idx ∧
        (Add dec p frag).1.sb = strings.TrimSpace (s.drop idx) ∧
        (Add dec p frag).2.2.2 = none)
    ∧ ((p.prefixStr = [] ∨ strings.HasPrefix s p.prefixStr = true ∨
          (k = 0 ∧ strings.Index s p.prefixStr = none)) →
      (p.greedyParse = false → found = false →
        (Add dec p frag).2.1 = [] ∧ (Add dec p frag).2.2.1 = [] ∧
        (Add dec p frag).1.sb = [] ∧ (Add dec p frag).2.2.2 = some .ErrPrefixNotFound)
      ∧ ((p.greedyParse = true ∨ found = true) →
        (dec rest p.name p.arguments = .error .ErrAccumulateMore →
          (Add dec p frag).2.1 = [] ∧ (Add dec p frag).2.2.1 = [] ∧
          (Add dec p frag).1.sb = s ∧ (Add dec p frag).2.2.2 = some .ErrAccumulateMore)
        ∧ (∀ e, dec rest p.name p.arguments = .error e → e ≠ .ErrAccumulateMore →
          found = true →
          (Add dec p frag).2.1 = [] ∧ (Add dec p frag).2.2.1 = [] ∧
          (Add dec p frag).1.sb = [] ∧ (Add dec p frag).2.2.2 = some .ErrAccumulateMore)
        ∧ (∀ e, dec rest p.name p.arguments = .error e → e ≠ .ErrAccumulateMore →
          found = false →
          (Add dec p frag).2.1 = [] ∧ (Add dec p frag).2.2.1 = s ∧
          (Add dec p frag).1.sb = [] ∧ (Add dec p frag).2.2.2 = none)
        ∧ (∀ calls, dec rest p.name p.arguments = .ok calls →
          (Add dec p frag).2.1 = calls ∧ (Add dec p frag).2.2.1 = [] ∧
          (Add dec p frag).1.sb = [] ∧ (Add dec p frag).2.2.2 = none)))
    ∧ ((Add dec p frag).2.1 = [] →
      ((Add dec p frag).2.2.1 ++ (Add dec p frag).1.sb = s
        ∨ (∃ idx, strings.Index s p.prefixStr = some idx ∧ 0 < idx ∧
            (Add dec p frag).2.2.1 = s.take idx ∧
            (Add dec p frag).1.sb = strings.TrimSpace (s.drop idx))
        ∨ ((Add dec p frag).2.2.1 = [] ∧ (Add dec p frag).1.sb = []))
      ∧ (((Add dec p frag).2.2.1 = [] ∧ (Add dec p frag).1.sb = []) ↔
          ((p.prefixStr = [] ∨ strings.HasPrefix s p.prefixStr = true ∨
              (k = 0 ∧ strings.Index s p.prefixStr = none)) ∧
            ((p.greedyParse = false ∧ found = false)
              ∨ ((p.greedyParse = true ∨ found = true) ∧
                  ((∃ e, dec rest p.name p.arguments = .error e ∧ e ≠ .ErrAccumulateMore ∧
                      found = true)
                    ∨ dec rest p.name p.arguments = .ok [])))))) := by
  have hsne : s ≠ [] := by rw [hs]; simp [hfrag]
  -- the three classes of inputs
  have c1 : p.prefixStr ≠ [] → strings.HasPrefix s p.prefixStr = false → 0 < k →
      Add dec p frag = ({ p with sb := s.drop (s.length - k) }, [], s.take (s.length - k),
        if s.take (s.length - k) = [] then some .ErrAccumulateMore else none) := by
    intro hp hnp hkp
    have := checkPrefix_overlap { p with sb := s } s hsne hp hnp (by rw [← hk]; exact hkp)
    rw [← hk] at this
    subst hs
    exact add_of_checkPrefix_error dec p _ frag _ _ hfrag this
  have c2 : p.prefixStr ≠ [] → strings.HasPrefix s p.prefixStr = false → k = 0 →
      ∀ idx, strings.Index s p.prefixStr = some idx →
      0 < idx ∧ Add dec p frag = ({ p with sb := strings.TrimSpace (s.drop idx) }, [],
        s.take idx, none) := by
    intro hp hnp hk0 idx hidx
    have hpos : 0 < idx := by
      rcases Nat.eq_zero_or_pos idx with h0 | h0
      · subst h0
        rw [strings.HasPrefix_of_Index_zero s _ hidx] at hnp
        cases hnp
      · exact h0
    have := checkPrefix_index { p with sb := s } s idx hsne hp hnp (by rw [← hk]; exact hk0)
      hidx
    subst hs
    have hA := add_of_checkPrefix_error dec p _ frag _ _ hfrag this
    have hne : (p.sb ++ frag).take idx ≠ [] := by
      intro h
      have hl := congrArg List.length h
      have := strings.Index_le_length _ _ _ hidx
      simp only [List.length_take, List.length_nil] at hl
      omega
    rw [if_neg hne] at hA
    exact ⟨hpos, hA⟩
  have c3 : (p.prefixStr = [] ∨ strings.HasPrefix s p.prefixStr = true ∨
      (k = 0 ∧ strings.Index s p.prefixStr = none)) →
      checkPrefix { p with sb := p.sb ++ frag } (p.sb ++ frag)
        = ({ p with sb := s, prefixFound := found }, rest, none) := by
    intro hc
    have := checkPrefix_pass { p with sb := s } s hsne (by rw [← hk]; exact hc)
    rw [← hs, this, hfound, hrest]
  refine ⟨?_, ?_, ?_, ?_⟩
  · intro hp hnp hkp
    rw [c1 hp hnp hkp]
    exact ⟨rfl, rfl, rfl⟩
  · intro hp hnp hk0 idx hidx
    obtain ⟨hpos, hA⟩ := c2 hp hnp hk0 idx hidx
    rw [hA]
    exact ⟨hpos, rfl, rfl, rfl, rfl⟩
  · intro hc
    have hcp := c3 hc
    refine ⟨?_, ?_⟩
    · intro hg hf
      rw [add_gate_closed dec p _ frag rest hfrag hcp hg hf]
      exact ⟨rfl, rfl, rfl, rfl⟩
    · intro hg
      refine ⟨?_, ?_, ?_, ?_⟩
      · intro hd
        rw [add_decoder_more dec p _ frag rest hfrag hcp hg hd]
        exact ⟨rfl, rfl, rfl, rfl⟩
      · intro e hd he hf
        obtain ⟨h1, h2, h3, -⟩ := add_decoder_fails dec p _ frag rest e hfrag hcp hg hd he
        exact ⟨h1, (h3 hf).1, h2, (h3 hf).2⟩
      · intro e hd he hf
        obtain ⟨h1, h2, -, h4⟩ := add_decoder_fails dec p _ frag rest e hfrag hcp hg hd he
        have hrs : rest = s := by
          rw [hrest]
          rw [hfound] at hf
          simp only [Bool.or_eq_false_iff, Bool.and_eq_false_iff, decide_eq_false_iff_not] at hf
          split
          · rename_i h
            rcases hf.2 with h5 | h5
            · exact absurd h.1 h5
            · rw [h.2] at h5; cases h5
          · rfl
        exact ⟨h1, by rw [(h4 hf).1, hrs], h2, (h4 hf).2⟩
      · intro calls hd
        obtain ⟨h1, h2, h3, h4⟩ := add_decoder_ok dec p _ frag rest calls hfrag hcp hg hd
        exact ⟨h1, h3, h2, h4⟩
  · intro hno
    by_cases hc : p.prefixStr = [] ∨ strings.HasPrefix s p.prefixStr = true ∨
        (k = 0 ∧ strings.Index s p.prefixStr = none)
    · have hcp := c3 hc
      by_cases hgate : p.greedyParse = false ∧ found = false
      · rw [add_gate_closed dec p _ frag rest hfrag hcp hgate.1 hgate.2]
        exact ⟨Or.inr (Or.inr ⟨rfl, rfl⟩),
          fun _ => ⟨hc, Or.inl hgate⟩, fun _ => ⟨rfl, rfl⟩⟩
      · have hg : p.greedyParse = true ∨ found = true := by
          cases hgp : p.greedyParse <;> cases hfd : found <;> simp_all
        cases hd : dec rest p.name p.arguments with
        | error e =>
          by_cases he : e = .ErrAccumulateMore
          · subst he
            rw [add_decoder_more dec p _ frag rest hfrag hcp hg hd]
            refine ⟨Or.inl (List.nil_append _), fun h => absurd h.2 hsne, ?_⟩
            rintro ⟨-, h | ⟨-, ⟨e, h1, h2, -⟩ | h1⟩⟩
            · exact absurd h hgate
            · exact absurd (Except.error.inj h1).symm h2
            · cases h1
          · obtain ⟨-, h2, h3, h4⟩ :=
              add_decoder_fails dec p _ frag rest e hfrag hcp hg hd he
            by_cases hf : found = true
            · have h3b := h3 hf
              exact ⟨Or.inr (Or.inr ⟨h3b.1, h2⟩),
                fun _ => ⟨hc, Or.inr ⟨hg, Or.inl ⟨e, rfl, he, hf⟩⟩⟩, fun _ => ⟨h3b.1, h2⟩⟩
            · have hf : found = false := by simpa using hf
              have h4b := h4 hf
              have hrs : rest = s := by
                rw [hrest]
                rw [hfound] at hf
                simp only [Bool.or_eq_false_iff, Bool.and_eq_false_iff,
                  decide_eq_false_iff_not] at hf
                split
                · rename_i h
                  rcases hf.2 with h5 | h5
                  · exact absurd h.1 h5
                  · rw [h.2] at h5; cases h5
                · rfl
              have hcont : (Add dec p frag).2.2.1 = s := by rw [h4b.1, hrs]
              refine ⟨Or.inl (by rw [hcont, h2, List.append_nil]),
                fun h => absurd (hcont.symm.trans h.1) hsne, ?_⟩
              rintro ⟨-, h | ⟨-, ⟨e2, -, -, h3⟩ | h1⟩⟩
              · exact absurd h hgate
              · rw [hf] at h3; cases h3
              · cases h1
        | ok calls =>
          obtain ⟨h1, h2, h3, -⟩ := add_decoder_ok dec p _ frag rest calls hfrag hcp hg hd
          have hcalls : calls = [] := by rw [← h1]; exact hno
          subst hcalls
          exact ⟨Or.inr (Or.inr ⟨h3, h2⟩), fun _ => ⟨hc, Or.inr ⟨hg, Or.inr rfl⟩⟩,
            fun _ => ⟨h3, h2⟩⟩
    · have hp : p.prefixStr ≠ [] := fun h => hc (Or.inl h)
      have hnp : strings.HasPrefix s p.prefixStr = false := by
        cases h : strings.HasPrefix s p.prefixStr with
        | false => rfl
        | true => exact absurd (Or.inr (Or.inl h)) hc
      rcases Nat.eq_zero_or_pos k with hk0 | hkp
      · by_cases hnone : strings.Index s p.prefixStr = none
        · exact absurd (Or.inr (Or.inr ⟨hk0, hnone⟩)) hc
        · obtain ⟨idx, hidx⟩ := Option.ne_none_iff_exists'.mp hnone
          obtain ⟨hpos, hA⟩ := c2 hp hnp hk0 idx hidx
          rw [hA]
          refine ⟨Or.inr (Or.inl ⟨idx, hidx, hpos, rfl, rfl⟩), ?_, fun h => absurd h.1 hc⟩
          rintro ⟨h, -⟩
          exfalso
          have hl := congrArg List.length h
          have := strings.Index_le_length _ _ _ hidx
          simp only [List.length_take, List.length_nil] at hl
          omega
      · rw [c1 hp hnp hkp]
        refine ⟨Or.inl (List.take_append_drop _ _), ?_, fun h => absurd h.1 hc⟩
        rintro ⟨h1, h2⟩
        exfalso
        have := List.take_append_drop (s.length - k) s
        simp only at h1 h2
        rw [h1, h2] at this
        exact hsne this.symm

/-- C19 as amended, with the prefix `<tool>` and a decoder that fails: the text that
follows a matched prefix is dropped, and an ambiguous tail is held back, the text before
it being returned. -/
theorem add_no_calls_accounting_witness :
    ((Add (fun _ _ _ => .error .ErrInvalidToolCall)
          (newParser (str "<tool>") (str "name") (str "arguments"))
          (str "<tool>not a call")).2.1 = []
      ∧ (Add (fun _ _ _ => .error .ErrInvalidToolCall)
          (newParser (str "<tool>") (str "name") (str "arguments"))
          (str "<tool>not a call")).2.2.1 = []
      ∧ (Add (fun _ _ _ => .error .ErrInvalidToolCall)
          (newParser (str "<tool>") (str "name") (str "arguments"))
          (str "<tool>not a call")).1.sb = []
      ∧ (Add (fun _ _ _ => .error .ErrInvalidToolCall)
          (newParser (str "<tool>") (str "name") (str "arguments"))
          (str "<tool>not a call")).2.2.2 = some .ErrAccumulateMore)
    ∧ (Add (fun _ _ _ => .error .ErrInvalidToolCall)
          (newParser (str "<tool>") (str "name") (str "arguments")) (str "hi <to")).2.2.1
        = str "hi "
    ∧ (Add (fun _ _ _ => .error .ErrInvalidToolCall)
          (newParser (str "<tool>") (str "name") (str "arguments")) (str "hi <to")).1.sb
        = str "<to" :=
  ⟨(((add_no_calls_accounting (fun _ _ _ => .error .ErrInvalidToolCall)
        (newParser (str "<tool>") (str "name") (str "arguments")) (str "<tool>not a call")
        (str "<tool>not a call") (str "not a call") 0 true (by decide) rfl (by decide)
        (by decide) (by decide)).2.2.1 (Or.inr (Or.inl (by decide)))).2 (Or.inl rfl)).2.1
      .ErrInvalidToolCall rfl (by decide) rfl,
   ((add_no_calls_accounting (fun _ _ _ => .error .ErrInvalidToolCall)
        (newParser (str "<tool>") (str "name") (str "arguments")) (str "hi <to")
        (str "hi <to") (str "hi <to") 3 false (by decide) rfl (by decide)
        (by decide) (by decide)).1 (by decide) (by decide) (by decide)).2.1.trans (by decide),
   ((add_no_calls_accounting (fun _ _ _ => .error .ErrInvalidToolCall)
        (newParser (str "<tool>") (str "name") (str "arguments")) (str "hi <to")
        (str "hi <to") (str "hi <to") 3 false (by decide) rfl (by decide)
        (by decide) (by decide)).1 (by decide) (by decide) (by decide)).2.2.trans (by decide)⟩

end tools

/-! ## Inference of the thinking tags -/

namespace server

/-- C20 (defect of the code): on a template without the pattern, `inferThinkingTags` does
not always return `("", "")`. For the template `{{template "x"}}`, whose tree is a list
with one template node that has no pipeline, the traversal panics: `templateVisit` is
called with the nil `*parse.PipeNode`, which as a `parse.Node` is not `nil`, and the case
`*parse.PipeNode` dereferences it. A template without the pattern and without such a node,
here the text "hi" followed by an action on a field, does give `("", "")`. -/
theorem inferThinkingTags_panics_without_pipeline :
    inferThinkingTags
        (.ListNode (.cons (.TemplateNode (str "x") .NilPipeNode) .nil)) = .error .panic
    ∧ inferThinkingTags
        (.ListNode (.cons (.TextNode (str "hi"))
          (.cons (.ActionNode (.PipeNode (.cons (.CommandNode
            (.cons (.FieldNode [str "Response"]) .nil)) .nil))) .nil)))
      = .ok ([], []) := by
  decide

end server

/-! ## The thinking parser: overlap, opening tag, whitespace, totality -/

namespace utf8

/-- The width of the first rune of a non-empty string is at most the length of the
string. -/
theorem DecodeRuneInString_size_le (b : UInt8) (t : Str) :
    (DecodeRuneInString (b :: t)).2 ≤ (b :: t).length := by
  simp only [DecodeRuneInString]
  split
  · simp
  · split
    · simp
    · rename_i sz lo hi hf
      rcases first_size _ _ _ _ hf with rfl | rfl | rfl
      all_goals
        rcases t with _ | ⟨s1, _ | ⟨s2, _ | ⟨s3, t3⟩⟩⟩ <;>
        simp [isCont] <;>
        (repeat' split) <;>
        simp

/-- A string that does not start with a full rune decodes to the error rune. -/
theorem DecodeRuneInString_not_full (s : Str) (h : FullRuneInString s = false) :
    (DecodeRuneInString s).1 = RuneError := by
  cases s with
  | nil => rfl
  | cons s0 t =>
    simp only [DecodeRuneInString, FullRuneInString] at h ⊢
    split
    · rename_i h0
      simp [h0] at h
    · rename_i h0
      simp only [h0, if_false] at h
      split
      · rfl
      · rename_i sz lo hi hf
        simp only [hf] at h
        rcases first_size _ _ _ _ hf with rfl | rfl | rfl
        all_goals
          rcases t with _ | ⟨s1, _ | ⟨s2, _ | ⟨s3, t3⟩⟩⟩ <;>
          simp [isCont] at h ⊢

/-- A string that starts with a space rune starts with a full rune. -/
theorem IsSpace_full (s : Str) (h : unicode.IsSpace (DecodeRuneInString s).1 = true) :
    FullRuneInString s = true := by
  cases hf : FullRuneInString s with
  | true => rfl
  | false =>
    rw [DecodeRuneInString_not_full s hf] at h
    exact absurd h (by decide)

end utf8

namespace strings

/-- The loop of `TrimLeftFunc` gives the same result for every budget of at least
`s.length` iterations. -/
theorem trimLeftLoop_fuel (f : Nat → Bool) (n m : Nat) (s : Str) (hn : s.length ≤ n)
    (hm : s.length ≤ m) : trimLeftLoop f n s = trimLeftLoop f m s := by
  induction n generalizing m s with
  | zero =>
    have : s = [] := List.eq_nil_of_length_eq_zero (by omega)
    subst this
    cases m <;> rfl
  | succ n ih =>
    cases s with
    | nil => cases m <;> rfl
    | cons b t =>
      obtain ⟨m, rfl⟩ : ∃ k, m = k + 1 := ⟨m - 1, by simp at hm; omega⟩
      simp only [trimLeftLoop]
      split
      · have hpos := utf8.DecodeRuneInString_size_pos b t
        apply ih
        · rw [List.length_drop]; simp at hn ⊢; omega
        · rw [List.length_drop]; simp at hm ⊢; omega
      · rfl

/-- The recursion equation of `TrimLeftFunc` on a non-empty string. -/
theorem TrimLeftFunc_cons (b : UInt8) (t : Str) (f : Nat → Bool) :
    TrimLeftFunc (b :: t) f =
      if f (utf8.DecodeRuneInString (b :: t)).1 then
        TrimLeftFunc ((b :: t).drop (utf8.DecodeRuneInString (b :: t)).2) f
      else b :: t := by
  simp only [TrimLeftFunc, List.length_cons, trimLeftLoop]
  split
  · have hpos := utf8.DecodeRuneInString_size_pos b t
    apply trimLeftLoop_fuel
    · rw [List.length_drop]; simp; omega
    · exact le_rfl
  · rfl

theorem TrimLeftFunc_space_append_aux (n : Nat) :
    ∀ w x : Str, w.length ≤ n → TrimLeftFunc w unicode.IsSpace = [] →
      TrimLeftFunc (w ++ x) unicode.IsSpace = TrimLeftFunc x unicode.IsSpace := by
  induction n with
  | zero =>
    intro w x hn _
    have : w = [] := List.eq_nil_of_length_eq_zero (by omega)
    subst this; rfl
  | succ n ih =>
    intro w x hn hw
    cases w with
    | nil => rfl
    | cons b t =>
      rw [TrimLeftFunc_cons] at hw
      split at hw
      · rename_i hsp
        have hfull := utf8.IsSpace_full _ hsp
        have hle := utf8.DecodeRuneInString_size_le b t
        have hpos := utf8.DecodeRuneInString_size_pos b t
        have hdec := utf8.DecodeRuneInString_append (b :: t) x hfull
        rw [List.cons_append, TrimLeftFunc_cons, ← List.cons_append, hdec]
        simp only [hsp, if_true]
        rw [List.drop_append_of_le_length hle]
        apply ih _ _ _ hw
        rw [List.length_drop]
        simp only [List.length_cons] at hn ⊢
        omega
      · cases hw

/-- Leading whitespace is trimmed whatever follows it: when `w` is only whitespace,
trimming `w ++ x` is trimming `x`. -/
theorem TrimLeftFunc_space_append (w x : Str) (hw : TrimLeftFunc w unicode.IsSpace = []) :
    TrimLeftFunc (w ++ x) unicode.IsSpace = TrimLeftFunc x unicode.IsSpace :=
  TrimLeftFunc_space_append_aux w.length w x le_rfl hw

end strings

namespace server

/-- No candidate above the result of the loop of `overlap` matches. -/
theorem overlapLoop_max (s delim : Str) (i j : Nat) (hj : overlapLoop s delim i < j)
    (hji : j ≤ i) : strings.HasSuffix s (delim.take j) = false := by
  induction i with
  | zero => omega
  | succ i ih =>
    simp only [overlapLoop] at hj
    split at hj
    · omega
    · rename_i hn
      by_cases hji2 : j = i + 1
      · subst hji2
        simpa using hn
      · exact ih hj (by omega)

/-- C23: `overlap` is the longest suffix/prefix match. For all strings `s` and `delim`,
`overlap(s, delim)` is at most `min(len(s), len(delim))`, the last `overlap(s, delim)`
bytes of `s` equal the first `overlap(s, delim)` bytes of `delim`, and for no larger `j`
up to `min(len(s), len(delim))` do the last `j` bytes of `s` equal the first `j` bytes of
`delim`. -/
theorem overlap_longest (s delim : Str) :
    overlap s delim ≤ min s.length delim.length
    ∧ s.drop (s.length - overlap s delim) = delim.take (overlap s delim)
    ∧ ∀ j, overlap s delim < j → j ≤ min s.length delim.length →
        s.drop (s.length - j) ≠ delim.take j := by
  have hle := overlap_le s delim
  refine ⟨by omega, ?_, ?_⟩
  · by_cases hpos : 0 < overlap s delim
    · have hsuf := overlap_suffix s delim hpos
      have := List.suffix_iff_eq_drop.mp hsuf
      rw [List.length_take, Nat.min_eq_left (by omega)] at this
      exact this.symm
    · have h0 : overlap s delim = 0 := by omega
      simp [h0]
  · intro j hj hjm heq
    have hmax := overlapLoop_max s delim (min delim.length s.length) j hj (by omega)
    have hsuf : delim.take j <:+ s := by
      rw [← heq]
      exact List.drop_suffix _ _
    have := List.isSuffixOf_iff_suffix.mpr hsuf
    simp only [strings.HasSuffix] at hmax
    rw [hmax] at this
    cases this

/-- C23, at the buffer "abc</th" and the tag "</think>": the overlap is 4, and the
candidate 5 does not match. -/
theorem overlap_longest_witness :
    overlap (str "abc</th") (str "</think>") = 4
    ∧ (str "abc</th").drop ((str "abc</th").length - 5) ≠ (str "</think>").take 5 :=
  ⟨by decide,
   (overlap_longest (str "abc</th") (str "</think>")).2.2 5 (by decide) (by decide)⟩

/-- C24 fails as stated: from the buffer "  <think>  abc" the step that finds the
opening tag `<think>` does not leave "  abc", the text after the tag with its leading
whitespace, as the buffer. -/
theorem eat_opening_trims_rest :
    ¬ eat { state := .LookingForOpening, openingTag := str "<think>",
            closingTag := str "</think>", acc := str "  <think>  abc" }
      = .ok ([], [], true,
          { state := .Thinking, openingTag := str "<think>", closingTag := str "</think>",
            acc := str "  abc" }) := by
  decide

/-- C24 as amended: the match of the opening tag discards the tag and the whitespace
around it. For an opening tag `o` that starts with a complete rune that is not whitespace
and a buffer `w ++ o ++ rest` with `w` only whitespace, the `LookingForOpening` step moves
to `Thinking`, emits nothing, asks to continue, and leaves `rest` with its leading
whitespace removed as the buffer to be processed by the `Thinking` rule. -/
theorem eat_opening_tag (o c w rest : Str) (ho : startsNonSpace o = true)
    (hw : strings.TrimLeftFunc w unicode.IsSpace = []) :
    eat { state := .LookingForOpening, openingTag := o, closingTag := c,
          acc := w ++ o ++ rest }
      = .ok ([], [], true,
          { state := .Thinking, openingTag := o, closingTag := c,
            acc := strings.TrimLeftFunc rest unicode.IsSpace }) := by
  have htrim : strings.TrimLeftFunc (w ++ o ++ rest) unicode.IsSpace = o ++ rest := by
    rw [List.append_assoc, strings.TrimLeftFunc_space_append w _ hw]
    exact TrimLeftFunc_startsNonSpace o rest ho
  have hpre : strings.HasPrefix (o ++ rest) o = true := by simp [strings.HasPrefix]
  have := eat_opening
    { state := .LookingForOpening, openingTag := o, closingTag := c, acc := w ++ o ++ rest }
    rfl (startsNonSpace_ne_nil o ho) (by simp only [htrim]; exact hpre)
  simp only [htrim, List.drop_left] at this
  exact this

/-- C24 as amended, at the buffer "  <think>  abc". -/
theorem eat_opening_tag_witness :
    eat { state := .LookingForOpening, openingTag := str "<think>",
          closingTag := str "</think>", acc := str "  " ++ str "<think>" ++ str "  abc" }
      = .ok ([], [], true,
          { state := .Thinking, openingTag := str "<think>", closingTag := str "</think>",
            acc := strings.TrimLeftFunc (str "  abc") unicode.IsSpace }) :=
  eat_opening_tag (str "<think>") (str "</think>") (str "  ") (str "  abc") (by decide)
    (by decide)

/-- C26: whitespace after the closing tag is swallowed across calls. For a parser in
state `ThinkingDoneEatingWhitespace` with an empty buffer, `addContent(f)` with `f` empty
or only whitespace returns `("", "")` and leaves the parser as it is, and `addContent(f)`
with any other `f` returns `("", f with its leading whitespace removed)` and moves to
`ThinkingDone`. -/
theorem eating_whitespace (p : thinkingParser) (f : Str)
    (hs : p.state = .ThinkingDoneEatingWhitespace) (ha : p.acc = []) :
    (strings.TrimLeftFunc f unicode.IsSpace = [] → addContent p f = .ok ([], [], p))
    ∧ (strings.TrimLeftFunc f unicode.IsSpace ≠ [] →
        addContent p f
          = .ok ([], strings.TrimLeftFunc f unicode.IsSpace,
              { p with state := .ThinkingDone })) := by
  obtain ⟨st, o, c, acc⟩ := p
  simp only at hs ha
  subst hs ha
  constructor
  · intro h
    simp [addContent, addContentLoop, eat, h]
  · intro h
    simp [addContent, addContentLoop, eat, h]

/-- C26, at a whitespace fragment and at a fragment with text. -/
theorem eating_whitespace_witness :
    addContent
        { state := .ThinkingDoneEatingWhitespace, openingTag := str "<think>",
          closingTag := str "</think>", acc := [] } (str " \n")
      = .ok ([], [],
          { state := .ThinkingDoneEatingWhitespace, openingTag := str "<think>",
            closingTag := str "</think>", acc := [] })
    ∧ addContent
        { state := .ThinkingDoneEatingWhitespace, openingTag := str "<think>",
          closingTag := str "</think>", acc := [] } (str "\n answer")
      = .ok ([], strings.TrimLeftFunc (str "\n answer") unicode.IsSpace,
          { state := .ThinkingDone, openingTag := str "<think>",
            closingTag := str "</think>", acc := [] }) :=
  ⟨(eating_whitespace
      { state := .ThinkingDoneEatingWhitespace, openingTag := str "<think>",
        closingTag := str "</think>", acc := [] } (str " \n") rfl rfl).1 (by decide),
   (eating_whitespace
      { state := .ThinkingDoneEatingWhitespace, openingTag := str "<think>",
        closingTag := str "</think>", acc := [] } (str "\n answer") rfl rfl).2 (by decide)⟩

/-- With non-empty tags a step of `eat` returns normally. -/
theorem eat_total (p : thinkingParser) (ho : p.openingTag ≠ []) (hc : p.closingTag ≠ []) :
    ∃ t r k q, eat p = .ok (t, r, k, q) := by
  obtain ⟨st, o, c, acc⟩ := p
  simp only at ho hc
  cases st
  · simp only [eat]
    split
    · obtain ⟨a, rest, h1, -⟩ :=
        strings.Split_nonempty (strings.TrimLeftFunc acc unicode.IsSpace) o ho
      rw [h1]
      exact ⟨_, _, _, _, rfl⟩
    · split
      · exact ⟨_, _, _, _, rfl⟩
      · split <;> exact ⟨_, _, _, _, rfl⟩
  · simp only [eat]
    split
    · obtain ⟨a, rest, h1, -⟩ := strings.Split_nonempty acc c hc
      rw [h1]
      simp only
      split <;> exact ⟨_, _, _, _, rfl⟩
    · split <;> exact ⟨_, _, _, _, rfl⟩
  · simp only [eat]
    split <;> exact ⟨_, _, _, _, rfl⟩
  · exact ⟨_, _, _, _, rfl⟩

/-- With non-empty tags a call of `addContent` returns normally. -/
theorem addContent_ok (p : thinkingParser) (f : Str) (ho : p.openingTag ≠ [])
    (hc : p.closingTag ≠ []) : ∃ t r q, addContent p f = .ok (t, r, q) := by
  obtain ⟨t1, r1, k1, p1, h1⟩ := eat_total { p with acc := p.acc ++ f } ho hc
  have htag := eat_tags _ _ _ _ _ h1
  simp only at htag
  simp only [addContent, addContentLoop, h1]
  cases k1 with
  | false => exact ⟨_, _, _, rfl⟩
  | true =>
    obtain ⟨t2, r2, k2, p2, h2⟩ :=
      eat_total p1 (by rw [htag.1]; exact ho) (by rw [htag.2]; exact hc)
    have hk := eat_keep _ _ _ _ h1
    simp only [if_true, h2]
    cases k2 with
    | false => exact ⟨_, _, _, rfl⟩
    | true =>
      have := (eat_keep _ _ _ _ h2).1
      rw [hk.2.1] at this
      cases this

/-- With non-empty tags every sequence of fragments is processed to its end. -/
theorem feed_ok (p : thinkingParser) (frags : List Str) (ho : p.openingTag ≠ [])
    (hc : p.closingTag ≠ []) : ∃ outs q, feed p frags = .ok (outs, q) := by
  induction frags generalizing p with
  | nil => exact ⟨_, _, rfl⟩
  | cons f fs ih =>
    obtain ⟨t, r, q, h1⟩ := addContent_ok p f ho hc
    have htag := addContent_tags p f t r q h1
    obtain ⟨outs, q2, h2⟩ := ih q (by rw [htag.1]; exact ho) (by rw [htag.2]; exact hc)
    exact ⟨(t, r) :: outs, q2, by simp only [feed, h1, h2]⟩

/-- C28: `addContent` is total for non-empty tags. For every parser whose opening and
closing tags are non-empty, in whatever state and with whatever buffer, and every fragment,
`addContent` returns a result (no slice expression of `eat` is out of range; the state is
one of the four, so there is no unknown state); the loop of `addContent` calls `eat` at
most twice, a larger budget changing nothing; and every sequence of fragments fed to a
fresh parser is processed to its end. -/
theorem addContent_total (p : thinkingParser) (f : Str) (frags : List Str)
    (ho : p.openingTag ≠ []) (hc : p.closingTag ≠ []) :
    (∃ t r q, addContent p f = .ok (t, r, q))
    ∧ (∀ n, addContentLoop (n + 2) { p with acc := p.acc ++ f } [] [] = addContent p f)
    ∧ (∃ outs q, feed (fresh p.openingTag p.closingTag) frags = .ok (outs, q)) :=
  ⟨addContent_ok p f ho hc, fun n => addContentLoop_fuel n _ [] [],
   feed_ok (fresh p.openingTag p.closingTag) frags ho hc⟩

/-- C28, at the empty fragment on a parser waiting in `Thinking`. -/
theorem addContent_total_witness :
    (∃ t r q,
      addContent
        { state := .Thinking, openingTag := str "<think>", closingTag := str "</think>",
          acc := str "</" } [] = .ok (t, r, q))
    ∧ (∀ n,
      addContentLoop (n + 2)
        { state := .Thinking, openingTag := str "<think>", closingTag := str "</think>",
          acc := str "</" ++ [] } [] []
        = addContent
          { state := .Thinking, openingTag := str "<think>", closingTag := str "</think>",
            acc := str "</" } [])
    ∧ (∃ outs q,
      feed (fresh (str "<think>") (str "</think>")) [str "<think>a", [], str "</think>"]
        = .ok (outs, q)) :=
  addContent_total
    { state := .Thinking, openingTag := str "<think>", closingTag := str "</think>",
      acc := str "</" } [] [str "<think>a", [], str "</think>"] (by decide) (by decide)

end server

namespace tools

/-- The scan of `suffixOverlap` stays below its starting candidate. -/
theorem suffixOverlapLoop_le (s delim : Str) (i : Nat) : suffixOverlapLoop s delim i ≤ i := by
  induction i with
  | zero => simp [suffixOverlapLoop]
  | succ i ih =>
    simp only [suffixOverlapLoop]
    split
    · exact le_rfl
    · omega

/-- The overlap is at most the length of the buffer. -/
theorem suffixOverlap_le (s delim : Str) : suffixOverlap s delim ≤ s.length := by
  have := suffixOverlapLoop_le s delim (min delim.length s.length)
  simp only [suffixOverlap]
  omega

/-- C25: the ambiguous tail is held back without loss. For a parser with a non-empty
prefix and a non-empty fragment such that the buffer text `s = p.sb ++ frag` does not start
with the prefix and has an overlap `k = suffixOverlap s prefix > 0` with it, `k` is at most
`len(s)`, the buffer after `Add` is the last `k` bytes of `s`, no tool call is returned,
the returned content is the first `len(s) - k` bytes of `s`, the content followed by the
new buffer is `s`, and the error is `ErrAccumulateMore` when the content is empty (nil
otherwise). -/
theorem add_overlap_tail (dec : Decoder) (p : Parser) (frag : Str)
    (hp : p.prefixStr ≠ []) (hfrag : frag ≠ [])
    (hnp : strings.HasPrefix (p.sb ++ frag) p.prefixStr = false)
    (hk : 0 < suffixOverlap (p.sb ++ frag) p.prefixStr) :
    suffixOverlap (p.sb ++ frag) p.prefixStr ≤ (p.sb ++ frag).length
    ∧ (Add dec p frag).1.sb
        = (p.sb ++ frag).drop
            ((p.sb ++ frag).length - suffixOverlap (p.sb ++ frag) p.prefixStr)
    ∧ (Add dec p frag).2.1 = []
    ∧ (Add dec p frag).2.2.1
        = (p.sb ++ frag).take
            ((p.sb ++ frag).length - suffixOverlap (p.sb ++ frag) p.prefixStr)
    ∧ (Add dec p frag).2.2.1 ++ (Add dec p frag).1.sb = p.sb ++ frag
    ∧ ((Add dec p frag).2.2.1 = [] → (Add dec p frag).2.2.2 = some .ErrAccumulateMore)
    ∧ ((Add dec p frag).2.2.1 ≠ [] → (Add dec p frag).2.2.2 = none) := by
  have hbuf : p.sb ++ frag ≠ [] := by simp [hfrag]
  have hcp : checkPrefix { p with sb := p.sb ++ frag } (p.sb ++ frag)
      = ({ p with
            sb := List.drop ((p.sb ++ frag).length - suffixOverlap (p.sb ++ frag) p.prefixStr)
              (p.sb ++ frag) },
          (p.sb ++ frag).take
            ((p.sb ++ frag).length - suffixOverlap (p.sb ++ frag) p.prefixStr),
          some .ErrAccumulateMore) := by
    simp only [checkPrefix, hbuf, if_false, hp, strings.CutPrefix, hnp]
    simp [hk]
  refine ⟨suffixOverlap_le _ _, ?_⟩
  by_cases hc : (p.sb ++ frag).take
      ((p.sb ++ frag).length - suffixOverlap (p.sb ++ frag) p.prefixStr) = []
  · have hA : Add dec p frag
        = ({ p with
            sb := List.drop ((p.sb ++ frag).length - suffixOverlap (p.sb ++ frag) p.prefixStr)
              (p.sb ++ frag) },
            [], [], some .ErrAccumulateMore) := by
      simp only [Add, hfrag, if_false, hcp]
      rw [if_neg (not_not.mpr hc)]
    have hall := List.take_append_drop
      ((p.sb ++ frag).length - suffixOverlap (p.sb ++ frag) p.prefixStr) (p.sb ++ frag)
    rw [hc] at hall
    rw [hA]
    refine ⟨rfl, rfl, hc.symm, hall, fun _ => rfl, fun h => absurd rfl h⟩
  · have hA : Add dec p frag
        = ({ p with
            sb := List.drop ((p.sb ++ frag).length - suffixOverlap (p.sb ++ frag) p.prefixStr)
              (p.sb ++ frag) },
            [], (p.sb ++ frag).take
              ((p.sb ++ frag).length - suffixOverlap (p.sb ++ frag) p.prefixStr), none) := by
      simp only [Add, hfrag, if_false, hcp]
      rw [if_pos hc]
    rw [hA]
    exact ⟨rfl, rfl, rfl, List.take_append_drop _ _, fun h => absurd h hc, fun _ => rfl⟩

/-- C25, at the buffer "hello <to" and the prefix "<tool>", and at the buffer "<to". -/
theorem add_overlap_tail_witness :
    (Add (fun _ _ _ => .error .ErrAccumulateMore)
        (newParser (str "<tool>") (str "name") (str "arguments")) (str "hello <to")).1.sb
      = str "<to"
    ∧ (Add (fun _ _ _ => .error .ErrAccumulateMore)
        (newParser (str "<tool>") (str "name") (str "arguments")) (str "hello <to")).2.2.1
      = str "hello "
    ∧ (Add (fun _ _ _ => .error .ErrAccumulateMore)
        (newParser (str "<tool>") (str "name") (str "arguments")) (str "<to")).2.2.2
      = some .ErrAccumulateMore := by
  have h1 := add_overlap_tail (fun _ _ _ => .error .ErrAccumulateMore)
    (newParser (str "<tool>") (str "name") (str "arguments")) (str "hello <to")
    (by decide) (by decide) (by decide) (by decide)
  have h2 := add_overlap_tail (fun _ _ _ => .error .ErrAccumulateMore)
    (newParser (str "<tool>") (str "name") (str "arguments")) (str "<to")
    (by decide) (by decide) (by decide) (by decide)
  refine ⟨h1.2.1.trans (by decide), h1.2.2.2.1.trans (by decide), h2.2.2.2.2.2.1 ?_⟩
  exact h2.2.2.2.1.trans (by decide)

end tools

/-! ## The pretty printer -/

namespace strings

/-- The loop of `TrimRightFunc` keeps a prefix of the string. -/
theorem trimRightLoop_isPrefix (f : Nat → Bool) (n : Nat) (s : Str) :
    trimRightLoop f n s <+: s := by
  induction n generalizing s with
  | zero => exact List.prefix_refl _
  | succ n ih =>
    cases s with
    | nil => exact List.prefix_refl _
    | cons b t =>
      simp only [trimRightLoop]
      split
      · exact (ih _).trans (List.take_prefix _ _)
      · exact List.prefix_refl _

/-- What `TrimSpace` leaves does not start with a space. -/
theorem TrimSpace_head (s : Str) : (TrimSpace s).head? ≠ some 0x20 := by
  intro h
  have hpre : TrimSpace s <+: TrimLeftFunc s unicode.IsSpace := trimRightLoop_isPrefix _ _ _
  obtain ⟨r, hr⟩ := hpre
  cases hts : TrimSpace s with
  | nil => simp [hts] at h
  | cons b t =>
    rw [hts] at h hr
    simp only [List.head?_cons, Option.some.injEq] at h
    subst h
    rcases TrimLeftFunc_done s unicode.IsSpace with h0 | h1
    · rw [h0] at hr
      cases hr
    · have hd : utf8.DecodeRuneInString ((0x20 : UInt8) :: (t ++ r)) = (0x20, 1) := by
        simp only [utf8.DecodeRuneInString]
        rw [if_pos (by decide)]
        rfl
      rw [← hr, List.cons_append, hd] at h1
      exact absurd h1 (by decide)

end strings

namespace template

open parse

/-- The indentation at level `k` is `2 * k` spaces. -/
theorem indent_eq (k : Nat) : indent k = List.replicate (2 * k) 0x20 := by
  induction k with
  | zero => rfl
  | succ k ih =>
    have : 2 * (k + 1) = (2 * k + 1) + 1 := by omega
    rw [indent, ih, this, List.replicate_succ, List.replicate_succ]
    rfl

/-- C22 fails as stated: a line printed at level 1 need not start with two spaces. The
if-body of the template with the source "(if .Cond)A\nB(else)C(end)" is the text node
"A\nB"; its second line is printed as it is, without indentation. -/
theorem format_text_second_line :
    Format (fun _ => .ok (str ".Cond"))
        (.ListNode (.cons
          (.IfNode (.PipeNode .nil) (.ListNode (.cons (.TextNode (str "A\nB")) .nil))
            (.ListNode (.cons (.TextNode (str "C")) .nil))) .nil))
      = .ok (str "\x7b\x7b if .Cond \x7d\x7d\n  A\nB\n\x7b\x7b else \x7d\x7d\n  C\n\x7b\x7b end \x7d\x7d\n")
    ∧ printNodes (fun _ => .ok (str ".Cond"))
        (.ListNode (.cons (.TextNode (str "A\nB")) .nil)) 1 = .ok (str "  A\nB\n")
    ∧ strings.Split (str "  A\nB\n") (str "\n") = [str "  A", str "B", []]
    ∧ strings.HasPrefix (str "B") (indent 1) = false := by
  decide

/-- C22 as amended: `Format` indents if/else blocks. An if node with an else branch
printed at level `L`, whose pipeline prints as `ps` and whose if-body and else-body print
at level `L + 1` as `body` and `els`, is printed as the indented line with `if` and `ps`,
then `body`, then the indented line with `else`, then `els`, then the indented line with
`end`. The indentation at level `k` is `2 * k` spaces. A text node that is only whitespace
prints nothing; any other text node prints the indentation, the text without the
whitespace at its ends, which does not start with a space, and a newline: the first line
of a text starts with exactly `2 * k` spaces, and its further lines are printed as they
are. -/
theorem format_if_else (nodeString : Node → Except Fault Str) (Pipe IfList ElseList : Node)
    (L : Nat) (ps body els : Str) (hp : nodeString Pipe = .ok ps)
    (hb : printNodes nodeString IfList (L + 1) = .ok body)
    (he : printNodes nodeString ElseList (L + 1) = .ok els)
    (hn : ElseList.isNil = false) :
    printNode nodeString (.IfNode Pipe IfList ElseList) L
      = .ok (indent L ++ str "\x7b\x7b if " ++ ps ++ str " \x7d\x7d\n" ++ body
          ++ indent L ++ str "\x7b\x7b else \x7d\x7d\n" ++ els
          ++ indent L ++ str "\x7b\x7b end \x7d\x7d\n")
    ∧ (∀ k, indent k = List.replicate (2 * k) 0x20)
    ∧ (∀ Text k, strings.TrimSpace Text = [] →
        printNode nodeString (.TextNode Text) k = .ok [])
    ∧ (∀ Text k, strings.TrimSpace Text ≠ [] →
        printNode nodeString (.TextNode Text) k
          = .ok (indent k ++ strings.TrimSpace Text ++ str "\n")
        ∧ (strings.TrimSpace Text).head? ≠ some 0x20) := by
  refine ⟨?_, indent_eq, ?_, ?_⟩
  · simp only [printNode, printBranch, hp, hb, he, hn, Bool.not_false, if_true]
    have : str "\x7b\x7b " ++ str "if" ++ str " " = str "\x7b\x7b if " := by decide
    rw [← this]
    simp only [List.append_assoc]
  · intro Text k h
    simp only [printNode, h, if_true]
  · intro Text k h
    exact ⟨by simp only [printNode, h, if_false], strings.TrimSpace_head Text⟩

/-- C22 as amended, at the template of the test, with the source
"(if .Cond)A(else)B(end)": the if node is printed as the five lines of the test. -/
theorem format_if_else_witness :
    printNode (fun _ => .ok (str ".Cond"))
        (.IfNode (.PipeNode .nil) (.ListNode (.cons (.TextNode (str "A")) .nil))
          (.ListNode (.cons (.TextNode (str "B")) .nil))) 0
      = .ok (indent 0 ++ str "\x7b\x7b if " ++ str ".Cond" ++ str " \x7d\x7d\n" ++ str "  A\n"
          ++ indent 0 ++ str "\x7b\x7b else \x7d\x7d\n" ++ str "  B\n"
          ++ indent 0 ++ str "\x7b\x7b end \x7d\x7d\n")
    ∧ strings.Split
        (strings.TrimSpace
          (indent 0 ++ str "\x7b\x7b if " ++ str ".Cond" ++ str " \x7d\x7d\n" ++ str "  A\n"
            ++ indent 0 ++ str "\x7b\x7b else \x7d\x7d\n" ++ str "  B\n"
            ++ indent 0 ++ str "\x7b\x7b end \x7d\x7d\n")) (str "\n")
      = [str "\x7b\x7b if .Cond \x7d\x7d", str "  A", str "\x7b\x7b else \x7d\x7d", str "  B",
          str "\x7b\x7b end \x7d\x7d"] :=
  ⟨(format_if_else (fun _ => .ok (str ".Cond")) (.PipeNode .nil)
      (.ListNode (.cons (.TextNode (str "A")) .nil))
      (.ListNode (.cons (.TextNode (str "B")) .nil)) 0 (str ".Cond") (str "  A\n")
      (str "  B\n") rfl (by decide) (by decide) rfl).1, by decide⟩

end template

/-! ## Tag inference: the traversal and what it computes -/

namespace server

open parse

/-- A visit whose `enterFn` answers `true` and whose children are visited without fault
ends with the call of `exitFn`. -/
theorem visitWith_ok {σ : Type} (enterFn : σ → Node → Except Fault (Bool × σ))
    (exitFn : Option (σ → Node → σ)) (n : Node) (children : σ → Except Fault σ)
    (st st1 st2 : σ) (he : enterFn st n = .ok (true, st1)) (hc : children st1 = .ok st2) :
    visitWith enterFn exitFn n children st
      = .ok (match exitFn with
          | some f => f st2 n
          | none => st2) := by
  simp only [visitWith, he, Bool.not_true, Bool.false_eq_true, if_false, hc]
  cases exitFn <;> rfl

/-- The visit of a branch node whose three guarded children are visited without fault. -/
theorem visitBranch_ok {σ : Type} (enterFn : σ → Node → Except Fault (Bool × σ))
    (exitFn : Option (σ → Node → σ)) (self Pipe IfList ElseList : Node)
    (vP vL vE : σ → Except Fault σ) (st st1 st2 st3 st4 : σ)
    (he : enterFn st self = .ok (true, st1))
    (hP : (if Pipe.isNil then .ok st1 else vP st1) = .ok st2)
    (hL : (if IfList.isNil then .ok st2 else vL st2) = .ok st3)
    (hE : (if ElseList.isNil then .ok st3 else vE st3) = .ok st4) :
    visitBranch enterFn exitFn self Pipe IfList ElseList vP vL vE st
      = .ok (match exitFn with
          | some f => f st4 self
          | none => st4) := by
  simp only [visitBranch, he, Bool.not_true, Bool.false_eq_true, if_false, hP, hL, hE]
  cases exitFn <;> rfl

theorem usesField_isNil (field : Str) (n : Node) (h : n.isNil = true) :
    usesField field n = false := by
  cases n <;> simp [Node.isNil] at h <;> rfl

theorem qualifying_isNil (rng : Option Node) (lst : Option NodeList) (n : Node)
    (h : n.isNil = true) : qualifying rng lst n = [] := by
  cases n <;> simp [Node.isNil] at h <;> rfl

mutual
/-- The traversal with the closure of `rangeUsesField`, on a well-formed tree: the flag
`found` is set when the tree uses the field. -/
theorem templateVisit_usesField (enterFn : Bool → Node → Except Fault (Bool × Bool))
    (field : Str)
    (hF : ∀ found Ident, Ident ≠ [] →
      enterFn found (.FieldNode Ident) = .ok (true, found || usesField field (.FieldNode Ident)))
    (hO : ∀ found n, (∀ Ident, n ≠ .FieldNode Ident) → enterFn found n = .ok (true, found)) :
    ∀ (n : Node) (found : Bool), wellFormed n = true →
      templateVisit enterFn none n found = .ok (found || usesField field n)
  | .ListNode Nodes, found, hw => by
    rw [templateVisit, visitWith_ok enterFn none _ _ found found _
      (hO found _ (by intro I h; cases h))
      (templateVisitAll_usesField enterFn field hF hO Nodes found
        (by simpa [wellFormed] using hw))]
    simp [usesField]
  | .TextNode Text, found, _ => by
    rw [templateVisit, visitWith_ok enterFn none _ _ found found found
      (hO found _ (by intro I h; cases h)) rfl]
    simp [usesField]
  | .ActionNode Pipe, found, hw => by
    rw [templateVisit, visitWith_ok enterFn none _ _ found found _
      (hO found _ (by intro I h; cases h))
      (templateVisit_usesField enterFn field hF hO Pipe found
        (by simpa [wellFormed] using hw))]
    simp [usesField]
  | .IfNode Pipe IfList ElseList, found, hw => by
    simp only [wellFormed, Bool.and_eq_true, Bool.or_eq_true] at hw
    have hP : (if Pipe.isNil then .ok found else templateVisit enterFn none Pipe found)
        = .ok (found || usesField field Pipe) := by
      by_cases hn : Pipe.isNil = true
      · simp [hn, usesField_isNil field Pipe hn]
      · simp only [hn, if_false]
        exact templateVisit_usesField enterFn field hF hO Pipe found
          (hw.1.1.resolve_left hn)
    have hL : (if IfList.isNil then .ok (found || usesField field Pipe)
        else templateVisit enterFn none IfList (found || usesField field Pipe))
        = .ok (found || usesField field Pipe || usesField field IfList) := by
      by_cases hn : IfList.isNil = true
      · simp [hn, usesField_isNil field IfList hn]
      · simp only [hn, if_false]
        exact templateVisit_usesField enterFn field hF hO IfList _ (hw.1.2.resolve_left hn)
    have hE : (if ElseList.isNil then
          .ok (found || usesField field Pipe || usesField field IfList)
        else templateVisit enterFn none ElseList
          (found || usesField field Pipe || usesField field IfList))
        = .ok (found || usesField field Pipe || usesField field IfList
            || usesField field ElseList) := by
      by_cases hn : ElseList.isNil = true
      · simp [hn, usesField_isNil field ElseList hn]
      · simp only [hn, if_false]
        exact templateVisit_usesField enterFn field hF hO ElseList _ (hw.2.resolve_left hn)
    rw [templateVisit, visitWith_ok enterFn none _ _ found found _
      (hO found _ (by intro I h; cases h))
      (visitBranch_ok enterFn none _ _ _ _ _ _ _ found found _ _ _
        (hO found _ (by intro I h; cases h)) hP hL hE)]
    simp [usesField, Bool.or_assoc]
  | .RangeNode Pipe IfList ElseList, found, hw => by
    simp only [wellFormed, Bool.and_eq_true, Bool.or_eq_true] at hw
    have hP : (if Pipe.isNil then .ok found else templateVisit enterFn none Pipe found)
        = .ok (found || usesField field Pipe) := by
      by_cases hn : Pipe.isNil = true
      · simp [hn, usesField_isNil field Pipe hn]
      · simp only [hn, if_false]
        exact templateVisit_usesField enterFn field hF hO Pipe found hw.1.1
    have hL : (if IfList.isNil then .ok (found || usesField field Pipe)
        else templateVisit enterFn none IfList (found || usesField field Pipe))
        = .ok (found || usesField field Pipe || usesField field IfList) := by
      by_cases hn : IfList.isNil = true
      · simp [hn, usesField_isNil field IfList hn]
      · simp only [hn, if_false]
        exact templateVisit_usesField enterFn field hF hO IfList _ (hw.1.2.resolve_left hn)
    have hE : (if ElseList.isNil then
          .ok (found || usesField field Pipe || usesField field IfList)
        else templateVisit enterFn none ElseList
          (found || usesField field Pipe || usesField field IfList))
        = .ok (found || usesField field Pipe || usesField field IfList
            || usesField field ElseList) := by
      by_cases hn : ElseList.isNil = true
      · simp [hn, usesField_isNil field ElseList hn]
      · simp only [hn, if_false]
        exact templateVisit_usesField enterFn field hF hO ElseList _ (hw.2.resolve_left hn)
    rw [templateVisit, visitWith_ok enterFn none _ _ found found _
      (hO found _ (by intro I h; cases h))
      (visitBranch_ok enterFn none _ _ _ _ _ _ _ found found _ _ _
        (hO found _ (by intro I h; cases h)) hP hL hE)]
    simp [usesField, Bool.or_assoc]
  | .WithNode Pipe IfList ElseList, found, hw => by
    simp only [wellFormed, Bool.and_eq_true, Bool.or_eq_true] at hw
    have hP : (if Pipe.isNil then .ok found else templateVisit enterFn none Pipe found)
        = .ok (found || usesField field Pipe) := by
      by_cases hn : Pipe.isNil = true
      · simp [hn, usesField_isNil field Pipe hn]
      · simp only [hn, if_false]
        exact templateVisit_usesField enterFn field hF hO Pipe found
          (hw.1.1.resolve_left hn)
    have hL : (if IfList.isNil then .ok (found || usesField field Pipe)
        else templateVisit enterFn none IfList (found || usesField field Pipe))
        = .ok (found || usesField field Pipe || usesField field IfList) := by
      by_cases hn : IfList.isNil = true
      · simp [hn, usesField_isNil field IfList hn]
      · simp only [hn, if_false]
        exact templateVisit_usesField enterFn field hF hO IfList _ (hw.1.2.resolve_left hn)
    have hE : (if ElseList.isNil then
          .ok (found || usesField field Pipe || usesField field IfList)
        else templateVisit enterFn none ElseList
          (found || usesField field Pipe || usesField field IfList))
        = .ok (found || usesField field Pipe || usesField field IfList
            || usesField field ElseList) := by
      by_cases hn : ElseList.isNil = true
      · simp [hn, usesField_isNil field ElseList hn]
      · simp only [hn, if_false]
        exact templateVisit_usesField enterFn field hF hO ElseList _ (hw.2.resolve_left hn)
    rw [templateVisit, visitWith_ok enterFn none _ _ found found _
      (hO found _ (by intro I h; cases h))
      (visitBranch_ok enterFn none _ _ _ _ _ _ _ found found _ _ _
        (hO found _ (by intro I h; cases h)) hP hL hE)]
    simp [usesField, Bool.or_assoc]
  | .BranchNode Pipe IfList ElseList, found, hw => by
    simp only [wellFormed, Bool.and_eq_true, Bool.or_eq_true] at hw
    have hP : (if Pipe.isNil then .ok found else templateVisit enterFn none Pipe found)
        = .ok (found || usesField field Pipe) := by
      by_cases hn : Pipe.isNil = true
      · simp [hn, usesField_isNil field Pipe hn]
      · simp only [hn, if_false]
        exact templateVisit_usesField enterFn field hF hO Pipe found
          (hw.1.1.resolve_left hn)
    have hL : (if IfList.isNil then .ok (found || usesField field Pipe)
        else templateVisit enterFn none IfList (found || usesField field Pipe))
        = .ok (found || usesField field Pipe || usesField field IfList) := by
      by_cases hn : IfList.isNil = true
      · simp [hn, usesField_isNil field IfList hn]
      · simp only [hn, if_false]
        exact templateVisit_usesField enterFn field hF hO IfList _ (hw.1.2.resolve_left hn)
    have hE : (if ElseList.isNil then
          .ok (found || usesField field Pipe || usesField field IfList)
        else templateVisit enterFn none ElseList
          (found || usesField field Pipe || usesField field IfList))
        = .ok (found || usesField field Pipe || usesField field IfList
            || usesField field ElseList) := by
      by_cases hn : ElseList.isNil = true
      · simp [hn, usesField_isNil field ElseList hn]
      · simp only [hn, if_false]
        exact templateVisit_usesField enterFn field hF hO ElseList _ (hw.2.resolve_left hn)
    rw [templateVisit, visitBranch_ok enterFn none _ _ _ _ _ _ _ found found _ _ _
        (hO found _ (by intro I h; cases h)) hP hL hE]
    simp [usesField, Bool.or_assoc]
  | .TemplateNode Name Pipe, found, hw => by
    rw [templateVisit, visitWith_ok enterFn none _ _ found found _
      (hO found _ (by intro I h; cases h))
      (templateVisit_usesField enterFn field hF hO Pipe found
        (by simpa [wellFormed] using hw))]
    simp [usesField]
  | .PipeNode Cmds, found, hw => by
    rw [templateVisit, visitWith_ok enterFn none _ _ found found _
      (hO found _ (by intro I h; cases h))
      (templateVisitAll_usesField enterFn field hF hO Cmds found
        (by simpa [wellFormed] using hw))]
    simp [usesField]
  | .CommandNode Args, found, hw => by
    rw [templateVisit, visitWith_ok enterFn none _ _ found found _
      (hO found _ (by intro I h; cases h))
      (templateVisitAll_usesField enterFn field hF hO Args found
        (by simpa [wellFormed] using hw))]
    simp [usesField]
  | .FieldNode Ident, found, hw => by
    have hne : Ident ≠ [] := by
      intro h
      simp [wellFormed, h] at hw
    rw [templateVisit, visitWith_ok enterFn none _ _ found _ _ (hF found Ident hne) rfl]
  | .OtherNode kind, found, _ => by
    rw [templateVisit, visitWith_ok enterFn none _ _ found found found
      (hO found _ (by intro I h; cases h)) rfl]
    simp [usesField]
  | .NilPipeNode, _, hw => by simp [wellFormed] at hw
  | .NilListNode, _, hw => by simp [wellFormed] at hw
/-- The loop over the children, for the closure of `rangeUsesField`. -/
theorem templateVisitAll_usesField (enterFn : Bool → Node → Except Fault (Bool × Bool))
    (field : Str)
    (hF : ∀ found Ident, Ident ≠ [] →
      enterFn found (.FieldNode Ident) = .ok (true, found || usesField field (.FieldNode Ident)))
    (hO : ∀ found n, (∀ Ident, n ≠ .FieldNode Ident) → enterFn found n = .ok (true, found)) :
    ∀ (ns : NodeList) (found : Bool), wellFormedAll ns = true →
      templateVisitAll enterFn none ns found = .ok (found || usesFieldAll field ns)
  | .nil, found, _ => by simp [templateVisitAll, usesFieldAll]
  | .cons c rest, found, hw => by
    simp only [wellFormedAll, Bool.and_eq_true] at hw
    rw [templateVisitAll, templateVisit_usesField enterFn field hF hO c found hw.1]
    simp only
    rw [templateVisitAll_usesField enterFn field hF hO rest _ hw.2]
    simp [usesFieldAll, Bool.or_assoc]
end

/-- On a well-formed pipeline `rangeUsesField` returns, and says whether the pipeline
uses the field. -/
theorem rangeUsesField_eq (Pipe : Node) (field : Str) (hw : wellFormed Pipe = true) :
    rangeUsesField Pipe field = .ok (usesField field Pipe) := by
  have := templateVisit_usesField
    (fun (found : Bool) n =>
      match n with
      | .FieldNode Ident =>
        match Ident with
        | [] => .error .panic
        | id0 :: _ => if id0 = field then .ok (true, true) else .ok (true, found)
      | _ => .ok (true, found))
    field
    (by
      intro found Ident hne
      cases Ident with
      | nil => exact absurd rfl hne
      | cons id0 t =>
        by_cases h : id0 = field
        · simp [usesField, h]
        · simp [usesField, h])
    (by
      intro found n hn
      cases n <;> first | rfl | exact absurd rfl (hn _))
    Pipe false hw
  simpa [rangeUsesField] using this

end server

namespace server

open parse

theorem mostRecentRange_concat_range (anc : List Node) (Pipe IfList ElseList : Node) :
    mostRecentRange (anc ++ [.RangeNode Pipe IfList ElseList]) = some Pipe := by
  induction anc with
  | nil => rfl
  | cons a anc ih =>
    simp only [List.cons_append, mostRecentRange]
    rw [show anc.append _ = anc ++ _ from rfl, ih]

theorem mostRecentRange_concat_other (anc : List Node) (n : Node)
    (hn : ∀ Pipe IfList ElseList, n ≠ .RangeNode Pipe IfList ElseList) :
    mostRecentRange (anc ++ [n]) = mostRecentRange anc := by
  induction anc with
  | nil =>
    cases n <;> first | rfl | exact absurd rfl (hn _ _ _)
  | cons a anc ih =>
    simp only [List.cons_append, mostRecentRange]
    rw [show anc.append _ = anc ++ _ from rfl, ih]

theorem nearestList_concat_list (anc : List Node) (Nodes : NodeList) :
    nearestList (anc ++ [.ListNode Nodes]) = some Nodes := by
  induction anc with
  | nil => rfl
  | cons a anc ih =>
    simp only [List.cons_append, nearestList]
    rw [show anc.append _ = anc ++ _ from rfl, ih]

theorem nearestList_concat_other (anc : List Node) (n : Node)
    (hn : ∀ Nodes, n ≠ .ListNode Nodes) :
    nearestList (anc ++ [n]) = nearestList anc := by
  induction anc with
  | nil =>
    cases n <;> first | rfl | exact absurd rfl (hn _)
  | cons a anc ih =>
    simp only [List.cons_append, nearestList]
    rw [show anc.append _ = anc ++ _ from rfl, ih]

theorem tagsFromAll_append (a b : List NodeList) (tags : Str × Str) :
    tagsFromAll (a ++ b) tags = tagsFromAll b (tagsFromAll a tags) := by
  simp [tagsFromAll, List.foldl_append]

theorem tagsFromAll_nil (tags : Str × Str) : tagsFromAll [] tags = tags := rfl

/-- On a node that is not a field node `enterFn` only pushes the node. -/
theorem inferEnterFn_other (anc : List Node) (tags : Str × Str) (n : Node)
    (hn : ∀ Ident, n ≠ .FieldNode Ident) :
    inferEnterFn (withTags anc tags) n = .ok (true, withTags (anc ++ [n]) tags) := by
  cases n <;> first | rfl | exact absurd rfl (hn _)

/-- On a field node `enterFn` pushes the node and, when the reference qualifies, takes the
tags from the nearest list. -/
theorem inferEnterFn_field (anc : List Node) (tags : Str × Str) (Ident : List Str)
    (rng : Option Node) (lst : Option NodeList)
    (hr : mostRecentRange anc = rng) (hl : nearestList anc = lst)
    (hrw : ∀ P, rng = some P → wellFormed P = true) (hlw : lst ≠ some .nil) :
    inferEnterFn (withTags anc tags) (.FieldNode Ident)
      = .ok (true, withTags (anc ++ [.FieldNode Ident])
          (tagsFromAll (qualifying rng lst (.FieldNode Ident)) tags)) := by
  have hr1 : mostRecentRange (anc ++ [.FieldNode Ident]) = rng := by
    rw [mostRecentRange_concat_other _ _ (by intro a b c h; cases h), hr]
  have hl1 : nearestList (anc ++ [.FieldNode Ident]) = lst := by
    rw [nearestList_concat_other _ _ (by intro a h; cases h), hl]
  by_cases hth : Ident.head? = some (str "Thinking")
  · have hlen : Ident.length > 0 := by
      cases Ident with
      | nil => simp at hth
      | cons a t => simp
    simp only [inferEnterFn, withTags, hlen, hth, and_self, if_true, hr1, hl1, qualifying]
    cases rng with
    | none => rfl
    | some P =>
      simp only [rangeUsesField_eq P _ (hrw P rfl)]
      cases lst with
      | none => cases hu : usesField (str "Messages") P <;> rfl
      | some Nodes =>
        simp only []
        cases hu : usesField (str "Messages") P with
        | false => rfl
        | true =>
          cases Nodes with
          | nil => exact absurd rfl hlw
          | cons first rest =>
            simp only [NodeList.toList, if_true, tagsFromAll, List.foldl_cons, List.foldl_nil,
              tagsFrom, List.head?_cons]
            generalize List.getLast? (first :: rest.toList) = last
            cases first <;> rcases last with _ | x <;> first | rfl | (cases x <;> rfl)
  · simp only [inferEnterFn, withTags, hth, and_false, if_false, qualifying]
    rfl

theorem inferExitFn_withTags (anc : List Node) (tags : Str × Str) (n m : Node) :
    inferExitFn (withTags (anc ++ [n]) tags) m = withTags anc tags := by
  simp [inferExitFn, withTags]

/-- The visit of a node that is not a field node, around the visit of its children. -/
theorem visitWith_infer (n : Node) (hn : ∀ Ident, n ≠ .FieldNode Ident)
    (children : inferState → Except Fault inferState) (anc : List Node)
    (tags tags1 : Str × Str)
    (hc : children (withTags (anc ++ [n]) tags) = .ok (withTags (anc ++ [n]) tags1)) :
    visitWith inferEnterFn (some inferExitFn) n children (withTags anc tags)
      = .ok (withTags anc tags1) := by
  rw [visitWith_ok inferEnterFn (some inferExitFn) n children _ _ _
    (inferEnterFn_other anc tags n hn) hc]
  simp only [inferExitFn_withTags]

/-- The visit of a guarded child of a branch node. -/
theorem guard_infer (P : Node) (visit : inferState → Except Fault inferState)
    (anc : List Node) (q : List NodeList) (hq : P.isNil = true → q = [])
    (hv : P.isNil = false → ∀ tags,
      visit (withTags anc tags) = .ok (withTags anc (tagsFromAll q tags)))
    (tags : Str × Str) :
    (if P.isNil then .ok (withTags anc tags) else visit (withTags anc tags))
      = .ok (withTags anc (tagsFromAll q tags)) := by
  cases hn : P.isNil with
  | true => simp [hq hn, tagsFromAll_nil]
  | false => simpa using hv hn tags

/-- The visit of a branch node, from the visits of its three guarded children. -/
theorem visitBranch_infer (Pipe IfList ElseList : Node)
    (vP vL vE : inferState → Except Fault inferState) (anc : List Node)
    (qP qL qE : List NodeList)
    (hP : ∀ tags,
      (if Pipe.isNil then .ok (withTags (anc ++ [.BranchNode Pipe IfList ElseList]) tags)
        else vP (withTags (anc ++ [.BranchNode Pipe IfList ElseList]) tags))
      = .ok (withTags (anc ++ [.BranchNode Pipe IfList ElseList]) (tagsFromAll qP tags)))
    (hL : ∀ tags,
      (if IfList.isNil then .ok (withTags (anc ++ [.BranchNode Pipe IfList ElseList]) tags)
        else vL (withTags (anc ++ [.BranchNode Pipe IfList ElseList]) tags))
      = .ok (withTags (anc ++ [.BranchNode Pipe IfList ElseList]) (tagsFromAll qL tags)))
    (hE : ∀ tags,
      (if ElseList.isNil then .ok (withTags (anc ++ [.BranchNode Pipe IfList ElseList]) tags)
        else vE (withTags (anc ++ [.BranchNode Pipe IfList ElseList]) tags))
      = .ok (withTags (anc ++ [.BranchNode Pipe IfList ElseList]) (tagsFromAll qE tags)))
    (tags : Str × Str) :
    visitBranch inferEnterFn (some inferExitFn) (.BranchNode Pipe IfList ElseList)
        Pipe IfList ElseList vP vL vE (withTags anc tags)
      = .ok (withTags anc (tagsFromAll (qP ++ qL ++ qE) tags)) := by
  rw [visitBranch_ok inferEnterFn (some inferExitFn) _ _ _ _ _ _ _ _ _ _ _ _
    (inferEnterFn_other anc tags _ (by intro I h; cases h)) (hP _) (hL _) (hE _)]
  simp only [inferExitFn_withTags, tagsFromAll_append]

end server

namespace server

open parse

mutual
/-- The traversal of `inferThinkingTags` on a well-formed tree: the ancestors are as
before, and the tags are those of the qualifying references of the tree, taken in
depth-first order. -/
theorem templateVisit_infer :
    ∀ (n : Node) (anc : List Node) (tags : Str × Str) (rng : Option Node)
      (lst : Option NodeList), wellFormed n = true → mostRecentRange anc = rng →
      nearestList anc = lst → (∀ P, rng = some P → wellFormed P = true) →
      lst ≠ some .nil →
      templateVisit inferEnterFn (some inferExitFn) n (withTags anc tags)
        = .ok (withTags anc (tagsFromAll (qualifying rng lst n) tags))
  | .ListNode Nodes, anc, tags, rng, lst, hw, hr, _, hrw, _ => by
    rw [templateVisit]
    apply visitWith_infer _ (by intro I h; cases h)
    rw [qualifying]
    cases hN : Nodes with
    | nil => rfl
    | cons c rest =>
      rw [← hN]
      exact templateVisitAll_infer Nodes _ tags rng (some Nodes)
        (by simpa [wellFormed] using hw)
        (by rw [mostRecentRange_concat_other _ _ (by intro a b c h; cases h), hr])
        (nearestList_concat_list _ _) hrw (by rw [hN]; intro h; cases h)
  | .TextNode Text, anc, tags, rng, lst, _, _, _, _, _ => by
    rw [templateVisit]
    exact visitWith_infer _ (by intro I h; cases h) _ _ _ _ rfl
  | .ActionNode Pipe, anc, tags, rng, lst, hw, hr, hl, hrw, hlw => by
    rw [templateVisit]
    apply visitWith_infer _ (by intro I h; cases h)
    rw [qualifying]
    exact templateVisit_infer Pipe _ tags rng lst (by simpa [wellFormed] using hw)
      (by rw [mostRecentRange_concat_other _ _ (by intro a b c h; cases h), hr])
      (by rw [nearestList_concat_other _ _ (by intro a h; cases h), hl]) hrw hlw
  | .IfNode Pipe IfList ElseList, anc, tags, rng, lst, hw, hr, hl, hrw, hlw => by
    simp only [wellFormed, Bool.and_eq_true, Bool.or_eq_true] at hw
    have hr2 : mostRecentRange (anc ++ [.IfNode Pipe IfList ElseList]
        ++ [.BranchNode Pipe IfList ElseList]) = rng := by
      rw [mostRecentRange_concat_other _ _ (by intro a b c h; cases h),
        mostRecentRange_concat_other _ _ (by intro a b c h; cases h), hr]
    have hl2 : nearestList (anc ++ [.IfNode Pipe IfList ElseList]
        ++ [.BranchNode Pipe IfList ElseList]) = lst := by
      rw [nearestList_concat_other _ _ (by intro a h; cases h),
        nearestList_concat_other _ _ (by intro a h; cases h), hl]
    rw [templateVisit]
    apply visitWith_infer _ (by intro I h; cases h)
    rw [qualifying]
    exact visitBranch_infer Pipe IfList ElseList _ _ _ _ _ _ _
      (guard_infer Pipe _ _ _ (qualifying_isNil rng lst Pipe)
        (fun hn t => templateVisit_infer Pipe _ t rng lst
          (hw.1.1.resolve_left (by simp [hn])) hr2 hl2 hrw hlw))
      (guard_infer IfList _ _ _ (qualifying_isNil rng lst IfList)
        (fun hn t => templateVisit_infer IfList _ t rng lst
          (hw.1.2.resolve_left (by simp [hn])) hr2 hl2 hrw hlw))
      (guard_infer ElseList _ _ _ (qualifying_isNil rng lst ElseList)
        (fun hn t => templateVisit_infer ElseList _ t rng lst
          (hw.2.resolve_left (by simp [hn])) hr2 hl2 hrw hlw))
      tags
  | .RangeNode Pipe IfList ElseList, anc, tags, rng, lst, hw, _, hl, _, hlw => by
    simp only [wellFormed, Bool.and_eq_true, Bool.or_eq_true] at hw
    have hr2 : mostRecentRange (anc ++ [.RangeNode Pipe IfList ElseList]
        ++ [.BranchNode Pipe IfList ElseList]) = some Pipe := by
      rw [mostRecentRange_concat_other _ _ (by intro a b c h; cases h),
        mostRecentRange_concat_range]
    have hl2 : nearestList (anc ++ [.RangeNode Pipe IfList ElseList]
        ++ [.BranchNode Pipe IfList ElseList]) = lst := by
      rw [nearestList_concat_other _ _ (by intro a h; cases h),
        nearestList_concat_other _ _ (by intro a h; cases h), hl]
    have hrw2 : ∀ P, some Pipe = some P → wellFormed P = true := by
      intro P h
      cases h
      exact hw.1.1
    rw [templateVisit]
    apply visitWith_infer _ (by intro I h; cases h)
    rw [qualifying]
    exact visitBranch_infer Pipe IfList ElseList _ _ _ _ _ _ _
      (guard_infer Pipe _ _ _ (qualifying_isNil (some Pipe) lst Pipe)
        (fun _ t => templateVisit_infer Pipe _ t (some Pipe) lst hw.1.1 hr2 hl2 hrw2 hlw))
      (guard_infer IfList _ _ _ (qualifying_isNil (some Pipe) lst IfList)
        (fun hn t => templateVisit_infer IfList _ t (some Pipe) lst
          (hw.1.2.resolve_left (by simp [hn])) hr2 hl2 hrw2 hlw))
      (guard_infer ElseList _ _ _ (qualifying_isNil (some Pipe) lst ElseList)
        (fun hn t => templateVisit_infer ElseList _ t (some Pipe) lst
          (hw.2.resolve_left (by simp [hn])) hr2 hl2 hrw2 hlw))
      tags
  | .WithNode Pipe IfList ElseList, anc, tags, rng, lst, hw, hr, hl, hrw, hlw => by
    simp only [wellFormed, Bool.and_eq_true, Bool.or_eq_true] at hw
    have hr2 : mostRecentRange (anc ++ [.WithNode Pipe IfList ElseList]
        ++ [.BranchNode Pipe IfList ElseList]) = rng := by
      rw [mostRecentRange_concat_other _ _ (by intro a b c h; cases h),
        mostRecentRange_concat_other _ _ (by intro a b c h; cases h), hr]
    have hl2 : nearestList (anc ++ [.WithNode Pipe IfList ElseList]
        ++ [.BranchNode Pipe IfList ElseList]) = lst := by
      rw [nearestList_concat_other _ _ (by intro a h; cases h),
        nearestList_concat_other _ _ (by intro a h; cases h), hl]
    rw [templateVisit]
    apply visitWith_infer _ (by intro I h; cases h)
    rw [qualifying]
    exact visitBranch_infer Pipe IfList ElseList _ _ _ _ _ _ _
      (guard_infer Pipe _ _ _ (qualifying_isNil rng lst Pipe)
        (fun hn t => templateVisit_infer Pipe _ t rng lst
          (hw.1.1.resolve_left (by simp [hn])) hr2 hl2 hrw hlw))
      (guard_infer IfList _ _ _ (qualifying_isNil rng lst IfList)
        (fun hn t => templateVisit_infer IfList _ t rng lst
          (hw.1.2.resolve_left (by simp [hn])) hr2 hl2 hrw hlw))
      (guard_infer ElseList _ _ _ (qualifying_isNil rng lst ElseList)
        (fun hn t => templateVisit_infer ElseList _ t rng lst
          (hw.2.resolve_left (by simp [hn])) hr2 hl2 hrw hlw))
      tags
  | .BranchNode Pipe IfList ElseList, anc, tags, rng, lst, hw, hr, hl, hrw, hlw => by
    simp only [wellFormed, Bool.and_eq_true, Bool.or_eq_true] at hw
    have hr2 : mostRecentRange (anc ++ [.BranchNode Pipe IfList ElseList]) = rng := by
      rw [mostRecentRange_concat_other _ _ (by intro a b c h; cases h), hr]
    have hl2 : nearestList (anc ++ [.BranchNode Pipe IfList ElseList]) = lst := by
      rw [nearestList_concat_other _ _ (by intro a h; cases h), hl]
    rw [templateVisit, qualifying]
    exact visitBranch_infer Pipe IfList ElseList _ _ _ _ _ _ _
      (guard_infer Pipe _ _ _ (qualifying_isNil rng lst Pipe)
        (fun hn t => templateVisit_infer Pipe _ t rng lst
          (hw.1.1.resolve_left (by simp [hn])) hr2 hl2 hrw hlw))
      (guard_infer IfList _ _ _ (qualifying_isNil rng lst IfList)
        (fun hn t => templateVisit_infer IfList _ t rng lst
          (hw.1.2.resolve_left (by simp [hn])) hr2 hl2 hrw hlw))
      (guard_infer ElseList _ _ _ (qualifying_isNil rng lst ElseList)
        (fun hn t => templateVisit_infer ElseList _ t rng lst
          (hw.2.resolve_left (by simp [hn])) hr2 hl2 hrw hlw))
      tags
  | .TemplateNode Name Pipe, anc, tags, rng, lst, hw, hr, hl, hrw, hlw => by
    rw [templateVisit]
    apply visitWith_infer _ (by intro I h; cases h)
    rw [qualifying]
    exact templateVisit_infer Pipe _ tags rng lst (by simpa [wellFormed] using hw)
      (by rw [mostRecentRange_concat_other _ _ (by intro a b c h; cases h), hr])
      (by rw [nearestList_concat_other _ _ (by intro a h; cases h), hl]) hrw hlw
  | .PipeNode Cmds, anc, tags, rng, lst, hw, hr, hl, hrw, hlw => by
    rw [templateVisit]
    apply visitWith_infer _ (by intro I h; cases h)
    rw [qualifying]
    exact templateVisitAll_infer Cmds _ tags rng lst (by simpa [wellFormed] using hw)
      (by rw [mostRecentRange_concat_other _ _ (by intro a b c h; cases h), hr])
      (by rw [nearestList_concat_other _ _ (by intro a h; cases h), hl]) hrw hlw
  | .CommandNode Args, anc, tags, rng, lst, hw, hr, hl, hrw, hlw => by
    rw [templateVisit]
    apply visitWith_infer _ (by intro I h; cases h)
    rw [qualifying]
    exact templateVisitAll_infer Args _ tags rng lst (by simpa [wellFormed] using hw)
      (by rw [mostRecentRange_concat_other _ _ (by intro a b c h; cases h), hr])
      (by rw [nearestList_concat_other _ _ (by intro a h; cases h), hl]) hrw hlw
  | .FieldNode Ident, anc, tags, rng, lst, _, hr, hl, hrw, hlw => by
    rw [templateVisit, visitWith_ok inferEnterFn (some inferExitFn) _ _ _ _ _
      (inferEnterFn_field anc tags Ident rng lst hr hl hrw hlw) rfl]
    simp only [inferExitFn_withTags]
  | .OtherNode kind, anc, tags, rng, lst, _, _, _, _, _ => by
    rw [templateVisit]
    exact visitWith_infer _ (by intro I h; cases h) _ _ _ _ rfl
  | .NilPipeNode, _, _, _, _, hw, _, _, _, _ => by simp [wellFormed] at hw
  | .NilListNode, _, _, _, _, hw, _, _, _, _ => by simp [wellFormed] at hw
/-- The loop over the children, for the closures of `inferThinkingTags`. -/
theorem templateVisitAll_infer :
    ∀ (ns : NodeList) (anc : List Node) (tags : Str × Str) (rng : Option Node)
      (lst : Option NodeList), wellFormedAll ns = true → mostRecentRange anc = rng →
      nearestList anc = lst → (∀ P, rng = some P → wellFormed P = true) →
      lst ≠ some .nil →
      templateVisitAll inferEnterFn (some inferExitFn) ns (withTags anc tags)
        = .ok (withTags anc (tagsFromAll (qualifyingAll rng lst ns) tags))
  | .nil, _, _, _, _, _, _, _, _, _ => rfl
  | .cons c rest, anc, tags, rng, lst, hw, hr, hl, hrw, hlw => by
    simp only [wellFormedAll, Bool.and_eq_true] at hw
    rw [templateVisitAll, templateVisit_infer c anc tags rng lst hw.1 hr hl hrw hlw]
    simp only
    rw [templateVisitAll_infer rest anc _ rng lst hw.2 hr hl hrw hlw, qualifyingAll,
      tagsFromAll_append]
end

/-- On a well-formed template `inferThinkingTags` returns, and its result is what the
qualifying references of the template leave, taken in depth-first order from no tags. -/
theorem inferThinkingTags_eq (Root : Node) (hw : wellFormed Root = true) :
    inferThinkingTags Root = .ok (tagsFromAll (qualifying none none Root) ([], [])) := by
  have := templateVisit_infer Root [] ([], []) none none hw rfl rfl
    (by intro P h; cases h) (by intro h; cases h)
  simp only [withTags] at this
  simp only [inferThinkingTags, this]

end server

namespace server

open parse

/-- On a well-formed template with exactly one qualifying reference, the tags come from
the ends of the nearest list `l` around that reference: the opening tag is the trimmed
text of the first node of `l` if that is a text node, otherwise "", and the closing tag
the trimmed text of the last node of `l` if that is a text node, otherwise "". -/
theorem inferThinkingTags_single (Root : Node) (l : NodeList) (hw : wellFormed Root = true)
    (hq : qualifying none none Root = [l]) :
    inferThinkingTags Root = .ok (tagsFrom l ([], [])) := by
  rw [inferThinkingTags_eq Root hw, hq]
  rfl

/-- C21 fails as stated: the first match does not win. In the template
"(range .Messages)<a>(.Thinking)</a>(end)(range .Messages)<b>(.Thinking)</b>(end)", with
two qualifying references, the first reference gives the pair `<a>`, `</a>`, and
`inferThinkingTags` returns the pair `<b>`, `</b>` of the second. -/
theorem inferThinkingTags_later_match_overwrites :
    (qualifying none none
      (.ListNode
        (.cons (.RangeNode
          (.PipeNode (.cons (.CommandNode (.cons (.FieldNode [str "Messages"]) .nil)) .nil))
          (.ListNode (.cons (.TextNode (str "<a>"))
            (.cons (.ActionNode (.PipeNode (.cons (.CommandNode
              (.cons (.FieldNode [str "Thinking"]) .nil)) .nil)))
            (.cons (.TextNode (str "</a>")) .nil))))
          .NilListNode)
        (.cons (.RangeNode
          (.PipeNode (.cons (.CommandNode (.cons (.FieldNode [str "Messages"]) .nil)) .nil))
          (.ListNode (.cons (.TextNode (str "<b>"))
            (.cons (.ActionNode (.PipeNode (.cons (.CommandNode
              (.cons (.FieldNode [str "Thinking"]) .nil)) .nil)))
            (.cons (.TextNode (str "</b>")) .nil))))
          .NilListNode) .nil)))).length = 2
    ∧ tagsFromAll ((qualifying none none
      (.ListNode
        (.cons (.RangeNode
          (.PipeNode (.cons (.CommandNode (.cons (.FieldNode [str "Messages"]) .nil)) .nil))
          (.ListNode (.cons (.TextNode (str "<a>"))
            (.cons (.ActionNode (.PipeNode (.cons (.CommandNode
              (.cons (.FieldNode [str "Thinking"]) .nil)) .nil)))
            (.cons (.TextNode (str "</a>")) .nil))))
          .NilListNode)
        (.cons (.RangeNode
          (.PipeNode (.cons (.CommandNode (.cons (.FieldNode [str "Messages"]) .nil)) .nil))
          (.ListNode (.cons (.TextNode (str "<b>"))
            (.cons (.ActionNode (.PipeNode (.cons (.CommandNode
              (.cons (.FieldNode [str "Thinking"]) .nil)) .nil)))
            (.cons (.TextNode (str "</b>")) .nil))))
          .NilListNode) .nil)))).take 1) ([], []) = (str "<a>", str "</a>")
    ∧ inferThinkingTags
      (.ListNode
        (.cons (.RangeNode
          (.PipeNode (.cons (.CommandNode (.cons (.FieldNode [str "Messages"]) .nil)) .nil))
          (.ListNode (.cons (.TextNode (str "<a>"))
            (.cons (.ActionNode (.PipeNode (.cons (.CommandNode
              (.cons (.FieldNode [str "Thinking"]) .nil)) .nil)))
            (.cons (.TextNode (str "</a>")) .nil))))
          .NilListNode)
        (.cons (.RangeNode
          (.PipeNode (.cons (.CommandNode (.cons (.FieldNode [str "Messages"]) .nil)) .nil))
          (.ListNode (.cons (.TextNode (str "<b>"))
            (.cons (.ActionNode (.PipeNode (.cons (.CommandNode
              (.cons (.FieldNode [str "Thinking"]) .nil)) .nil)))
            (.cons (.TextNode (str "</b>")) .nil))))
          .NilListNode) .nil)))
      = .ok (str "<b>", str "</b>") := by
  decide

/-- C21 as amended: the last match wins in tag inference. For every well-formed template
(no template action without a pipeline) whose qualifying references are, in depth-first
order, `rs` followed by a last one with the nearest list `l`, `inferThinkingTags` returns
the tags that the references leave when taken in that order, each reference overwriting
the opening tag when its list starts with a text node and the closing tag when its list
ends with one; when `l` starts with the text `a` and ends with the text `b`, the result is
the pair of the last reference, whatever the earlier references found. -/
theorem inferThinkingTags_last_match (Root : Node) (rs : List NodeList) (l : NodeList)
    (hw : wellFormed Root = true) (hq : qualifying none none Root = rs ++ [l]) :
    inferThinkingTags Root = .ok (tagsFrom l (tagsFromAll rs ([], [])))
    ∧ (∀ a b, l.toList.head? = some (.TextNode a) → l.toList.getLast? = some (.TextNode b) →
        inferThinkingTags Root = .ok (strings.TrimSpace a, strings.TrimSpace b)) := by
  have h : inferThinkingTags Root = .ok (tagsFrom l (tagsFromAll rs ([], []))) := by
    rw [inferThinkingTags_eq Root hw, hq, tagsFromAll_append]
    rfl
  refine ⟨h, ?_⟩
  intro a b ha hb
  rw [h]
  simp only [tagsFrom, ha, hb]

/-- C21 as amended, at the template with the two patterns `<a>`, `</a>` and `<b>`,
`</b>`: the result is the pair of the second pattern. -/
theorem inferThinkingTags_last_match_witness :
    inferThinkingTags
      (.ListNode
        (.cons (.RangeNode
          (.PipeNode (.cons (.CommandNode (.cons (.FieldNode [str "Messages"]) .nil)) .nil))
          (.ListNode (.cons (.TextNode (str "<a>"))
            (.cons (.ActionNode (.PipeNode (.cons (.CommandNode
              (.cons (.FieldNode [str "Thinking"]) .nil)) .nil)))
            (.cons (.TextNode (str "</a>")) .nil))))
          .NilListNode)
        (.cons (.RangeNode
          (.PipeNode (.cons (.CommandNode (.cons (.FieldNode [str "Messages"]) .nil)) .nil))
          (.ListNode (.cons (.TextNode (str "<b>"))
            (.cons (.ActionNode (.PipeNode (.cons (.CommandNode
              (.cons (.FieldNode [str "Thinking"]) .nil)) .nil)))
            (.cons (.TextNode (str "</b>")) .nil))))
          .NilListNode) .nil)))
      = .ok (strings.TrimSpace (str "<b>"), strings.TrimSpace (str "</b>")) :=
  (inferThinkingTags_last_match _
    [.cons (.TextNode (str "<a>"))
      (.cons (.ActionNode (.PipeNode (.cons (.CommandNode
        (.cons (.FieldNode [str "Thinking"]) .nil)) .nil)))
      (.cons (.TextNode (str "</a>")) .nil))]
    (.cons (.TextNode (str "<b>"))
      (.cons (.ActionNode (.PipeNode (.cons (.CommandNode
        (.cons (.FieldNode [str "Thinking"]) .nil)) .nil)))
      (.cons (.TextNode (str "</b>")) .nil)))
    (by decide) (by rfl)).2 (str "<b>") (str "</b>") rfl rfl

/-- C27 (defect of the code): on a template with exactly one qualifying reference
`inferThinkingTags` does not always return the tags at the ends of the nearest list. For
the template "(range .Messages)<think>(.Thinking)</think>(end)(template "x")" the
traversal takes the tags at the reference and then panics at the template action, which
has no pipeline: the nil `*parse.PipeNode` is visited and dereferenced. Without the
template action the result is the pair `<think>`, `</think>`, as the claim says. -/
theorem inferThinkingTags_single_reference_panics :
    (qualifying none none
      (.ListNode
        (.cons (.RangeNode
          (.PipeNode (.cons (.CommandNode (.cons (.FieldNode [str "Messages"]) .nil)) .nil))
          (.ListNode (.cons (.TextNode (str "<think>"))
            (.cons (.ActionNode (.PipeNode (.cons (.CommandNode
              (.cons (.FieldNode [str "Thinking"]) .nil)) .nil)))
            (.cons (.TextNode (str "</think>")) .nil))))
          .NilListNode)
        (.cons (.TemplateNode (str "x") .NilPipeNode) .nil)))).length = 1
    ∧ inferThinkingTags
      (.ListNode
        (.cons (.RangeNode
          (.PipeNode (.cons (.CommandNode (.cons (.FieldNode [str "Messages"]) .nil)) .nil))
          (.ListNode (.cons (.TextNode (str "<think>"))
            (.cons (.ActionNode (.PipeNode (.cons (.CommandNode
              (.cons (.FieldNode [str "Thinking"]) .nil)) .nil)))
            (.cons (.TextNode (str "</think>")) .nil))))
          .NilListNode)
        (.cons (.TemplateNode (str "x") .NilPipeNode) .nil)))
      = .error .panic
    ∧ inferThinkingTags
      (.ListNode
        (.cons (.RangeNode
          (.PipeNode (.cons (.CommandNode (.cons (.FieldNode [str "Messages"]) .nil)) .nil))
          (.ListNode (.cons (.TextNode (str "<think>"))
            (.cons (.ActionNode (.PipeNode (.cons (.CommandNode
              (.cons (.FieldNode [str "Thinking"]) .nil)) .nil)))
            (.cons (.TextNode (str "</think>")) .nil))))
          .NilListNode) .nil))
      = .ok (str "<think>", str "</think>") := by
  decide

end server
